import Mathlib

/-!
Verification of mkindex.

Shallow embedding of `src/mkindex.cpp` and theorems about it.

Modelling conventions.
* A `std::string` is a `List Char`; every `Char` stands for one C++ `char`
  (one byte), so a non-ASCII letter of a source literal is written as its
  UTF-8 bytes.
* `size_t` values are natural numbers; `std::string::npos` is `2^64 - 1`, and
  the arithmetic that can wrap around is written with an explicit `% 2^64`.
* The library calls that can throw `std::out_of_range` (`erase`, `replace`,
  `substr`) and the loops (which run on fuel) return `Except Err _`.
-/

namespace Mkindex

/-- A `std::string`, one `Char` per byte. -/
abbrev Str := List Char

/-- The ways a run of the modelled code can fail to produce a value. -/
inductive Err where
  | outOfRange
  | outOfFuel
  deriving DecidableEq, Repr

/-- Result of a computation that may throw or run out of fuel. -/
abbrev Res (α : Type) := Except Err α

/-- The modulus of `size_t` arithmetic. -/
def SIZE_MOD : Nat := 2 ^ 64

/-- The constant `std::string::npos`, which is `size_t(-1)`. -/
def npos : Nat := 2 ^ 64 - 1

/-! ## `std::string` primitives -/

/-- Scan of `std::string::find`: `s` is the text still to be searched and `i`
the index of its first character. -/
def findFrom (pat : Str) : Str → Nat → Nat
  | [], i => if pat.isPrefixOf [] then i else npos
  | c :: cs, i => if pat.isPrefixOf (c :: cs) then i else findFrom pat cs (i + 1)

/-- The call `s.find(pat, pos)`: the lowest index at or after `pos` where `pat`
occurs in `s`, or `npos`. -/
def find (s pat : Str) (pos : Nat) : Nat :=
  if pos > s.length then npos else findFrom pat (s.drop pos) pos

/-- Scan of `find_first_not_of`. -/
def firstNotOfFrom (set : Str) : Str → Nat → Nat
  | [], _ => npos
  | c :: cs, i => if set.contains c then firstNotOfFrom set cs (i + 1) else i

/-- The call `s.find_first_not_of(set)`. -/
def find_first_not_of (s set : Str) : Nat := firstNotOfFrom set s 0

/-- Scan of `find_last_not_of`: the answer for the text that follows is
`later`, when there is one. -/
def lastNotOfFrom (set : Str) : Str → Nat → Nat
  | [], _ => npos
  | c :: cs, i =>
    let later := lastNotOfFrom set cs (i + 1)
    if later ≠ npos then later else if set.contains c then npos else i

/-- The call `s.find_last_not_of(set)`. -/
def find_last_not_of (s set : Str) : Nat := lastNotOfFrom set s 0

/-- The call `s.erase(pos, n)`: throws when `pos > size()`, otherwise removes
`min(n, size() - pos)` characters starting at `pos`. -/
def erase (s : Str) (pos n : Nat) : Res Str :=
  if pos > s.length then .error .outOfRange
  else .ok (s.take pos ++ (s.drop pos).drop n)

/-- The call `s.replace(pos, n, str)`. -/
def replace (s : Str) (pos n : Nat) (str : Str) : Res Str :=
  if pos > s.length then .error .outOfRange
  else .ok (s.take pos ++ str ++ (s.drop pos).drop n)

/-- The call `s.substr(pos, n)`. -/
def substr (s : Str) (pos n : Nat) : Res Str :=
  if pos > s.length then .error .outOfRange
  else .ok ((s.drop pos).take n)

/-- Loop of `std::unique`: `last` is the element kept last. -/
def uniqueFrom (pred : Char → Char → Bool) (last : Char) : Str → Str
  | [] => []
  | c :: cs => if pred last c then uniqueFrom pred last cs else c :: uniqueFrom pred c cs

/-- The call `std::unique(begin, end, pred)` followed by the `erase` of the
tail: of every run of elements equivalent under `pred` the first is kept. -/
def unique (pred : Char → Char → Bool) : Str → Str
  | [] => []
  | c :: cs => c :: uniqueFrom pred c cs

/-! ## `cleanContent` (lines 32-62) -/

/-- The character set `" \t\n\r\f\v"`. -/
def WHITESPACE : Str := [' ', '\t', '\n', '\r', Char.ofNat 12, Char.ofNat 11]

/-- The `while (tag_start != npos)` loop of lines 38-44. -/
def tagLoop : Nat → Str → Nat → Res Str
  | 0, content, tag_start =>
    if tag_start ≠ npos then .error .outOfFuel else .ok content
  | fuel + 1, content, tag_start =>
    if tag_start ≠ npos then
      let tag_end := find content ['>'] tag_start
      if tag_end = npos then .ok content
      else
        match erase content tag_start (tag_end - tag_start + 1) with
        | .error e => .error e
        | .ok content1 => tagLoop fuel content1 (find content1 ['<'] 0)
    else .ok content

/-- The `while (entity != npos)` loop of lines 47-54. -/
def entityLoop : Nat → Str → Nat → Res Str
  | 0, content, entity =>
    if entity ≠ npos then .error .outOfFuel else .ok content
  | fuel + 1, content, entity =>
    if entity ≠ npos then
      let end_ := find content [';'] entity
      match (if end_ ≠ npos then replace content entity (end_ - entity + 1) [' ']
             else .ok content) with
      | .error e => .error e
      | .ok content1 => entityLoop fuel content1 (find content1 ['&'] (entity + 1))
    else .ok content

/-- The function `cleanContent`. -/
def cleanContent (content : Str) : Res Str :=
  match erase content 0 (find_first_not_of content WHITESPACE) with
  | .error e => .error e
  | .ok c1 =>
    match erase c1 ((find_last_not_of c1 WHITESPACE + 1) % SIZE_MOD) npos with
    | .error e => .error e
    | .ok c2 =>
      match tagLoop c2.length c2 (find c2 ['<'] 0) with
      | .error e => .error e
      | .ok c3 =>
        match entityLoop c3.length c3 (find c3 ['&'] 0) with
        | .error e => .error e
        | .ok c4 => .ok (unique (fun lhs rhs => lhs == rhs && lhs == ' ') c4)

/-! ## `std::filesystem::path` decomposition -/

/-- The part of a path after its last directory separator: `path::filename()`
(generic format, separator `/`). -/
def pathFilename : Str → Str
  | [] => []
  | c :: cs => if cs.contains '/' then pathFilename cs else if c = '/' then cs else c :: cs

/-- Index of the last `.` of a file name, when it has one. -/
def lastDot : Str → Option Nat
  | [] => none
  | c :: cs =>
    match lastDot cs with
    | some k => some (k + 1)
    | none => if c = '.' then some 0 else none

/-- The call `path::stem()`: the file name itself when it is `.` or `..` or has
no period other than a leading one, otherwise the file name up to its last
period. -/
def pathStem (p : Str) : Str :=
  let f := pathFilename p
  if f = ['.'] ∨ f = ['.', '.'] then f
  else
    match lastDot f with
    | none => f
    | some 0 => f
    | some (k + 1) => f.take (k + 1)

/-- The call `path::extension()`: what is left of the file name after its
stem. -/
def pathExtension (p : Str) : Str :=
  (pathFilename p).drop (pathStem p).length

/-! ## `extractTitleAndDescription` (lines 64-119) -/

/-- The literal `"Descripción no disponible"` (the `ó` is two bytes). -/
def DESCRIPTION_UNAVAILABLE : Str := "Descripci\xc3\xb3n no disponible".toList

/-- The local variables of the scan loop. -/
structure ScanState where
  pos : Nat
  found_h1 : Bool
  title : Str
  description : Str
  deriving DecidableEq, Repr

/-- How one pass through the loop body ends: at the loop test again (after
`continue` or `pos++`), or out of the loop (`break`). -/
inductive Step where
  | next (st : ScanState)
  | brk (st : ScanState)
  deriving DecidableEq, Repr

/-- The body of the `while (pos < content.length())` loop (lines 80-112). -/
def scanStep (content : Str) (st : ScanState) : Res Step :=
  if !st.found_h1 then
    let h1_start := find content "<h1".toList st.pos
    if h1_start ≠ npos then
      let h1_end := find content "</h1>".toList h1_start
      if h1_end ≠ npos then
        let content_start := (find content ['>'] h1_start + 1) % SIZE_MOD
        match substr content content_start ((h1_end + SIZE_MOD - content_start) % SIZE_MOD) with
        | .error e => .error e
        | .ok title =>
          match cleanContent title with
          | .error e => .error e
          | .ok title =>
            .ok (.next { pos := h1_end + 5, found_h1 := true, title := title,
                         description := st.description })
      else .ok (.next { st with pos := st.pos + 1 })
    else .ok (.next { st with pos := st.pos + 1 })
  else
    let p_start := find content "<p".toList st.pos
    if p_start ≠ npos then
      let p_end := find content "</p>".toList p_start
      if p_end ≠ npos then
        let content_start := (find content ['>'] p_start + 1) % SIZE_MOD
        match substr content content_start ((p_end + SIZE_MOD - content_start) % SIZE_MOD) with
        | .error e => .error e
        | .ok description =>
          match cleanContent description with
          | .error e => .error e
          | .ok description =>
            .ok (.brk { st with
              description :=
                if description.length > 160 then description.take 157 ++ "...".toList
                else description })
      else .ok (.next { st with pos := st.pos + 1 })
    else .ok (.next { st with pos := st.pos + 1 })

/-- The `while (pos < content.length())` loop, on fuel. -/
def scanLoop (content : Str) : Nat → ScanState → Res ScanState
  | 0, st => if st.pos < content.length then .error .outOfFuel else .ok st
  | fuel + 1, st =>
    if st.pos < content.length then
      match scanStep content st with
      | .error e => .error e
      | .ok (.next st1) => scanLoop content fuel st1
      | .ok (.brk st1) => .ok st1
    else .ok st

/-- The function `extractTitleAndDescription`; `file` is what opening and
reading `filepath` gives, `none` when the file cannot be opened. -/
def extractTitleAndDescription (file : Option Str) (filepath : Str) : Res (Str × Str) :=
  match file with
  | none => .ok (pathStem filepath, DESCRIPTION_UNAVAILABLE)
  | some content =>
    match scanLoop content content.length
        { pos := 0, found_h1 := false, title := [], description := [] } with
    | .error e => .error e
    | .ok st =>
      .ok (if st.title.isEmpty then pathStem filepath else st.title,
           if st.description.isEmpty then DESCRIPTION_UNAVAILABLE else st.description)

/-! ## `getCurrentDate` (lines 127-133) -/

/-- The fields of `struct tm` that the format string reads. -/
structure Tm where
  tm_min : Nat
  tm_hour : Nat
  tm_mday : Nat
  tm_mon : Nat
  tm_year : Nat
  deriving DecidableEq, Repr

/-- A number as two decimal digits, as `strftime` writes `%d`, `%m`, `%H` and
`%M`. -/
def twoDigits (n : Nat) : Str :=
  [Nat.digitChar (n / 10 % 10), Nat.digitChar (n % 10)]

/-- The function `getCurrentDate`, for the local time `ltm` that the clock
gives: `strftime` with the format `"%d/%m/%Y a las %H:%M"`. -/
def getCurrentDate (ltm : Tm) : Str :=
  twoDigits ltm.tm_mday ++ ['/'] ++ twoDigits (ltm.tm_mon + 1) ++ ['/'] ++
    Nat.toDigits 10 (ltm.tm_year + 1900) ++ " a las ".toList ++
    twoDigits ltm.tm_hour ++ [':'] ++ twoDigits ltm.tm_min

/-! ## `generateIndex` (lines 135-294) -/

/-- The struct `HtmlFile`. -/
structure HtmlFile where
  filename : Str
  title : Str
  description : Str
  deriving DecidableEq, Repr

/-- One element of the directory iteration: the entry's path as a string,
whether it is a regular file, and what opening and reading it gives (`none`
when it cannot be opened). -/
structure DirEntry where
  path : Str
  is_regular_file : Bool
  content : Option Str
  deriving DecidableEq, Repr

/-- The comparison `a < b` of two `std::string`s: lexicographic on the bytes,
a proper prefix being smaller. -/
def strLess : Str → Str → Bool
  | [], [] => false
  | [], _ :: _ => true
  | _ :: _, [] => false
  | a :: as, b :: bs =>
    if a.toNat < b.toNat then true
    else if b.toNat < a.toNat then false
    else strLess as bs

/-- The comparison `a <= b` of two `std::string`s. -/
def strLessEq : Str → Str → Bool
  | [], _ => true
  | _ :: _, [] => false
  | a :: as, b :: bs =>
    if a.toNat < b.toNat then true
    else if b.toNat < a.toNat then false
    else strLessEq as bs

/-- The comparator passed to `std::sort` (lines 152-154). -/
def titleLess (a b : HtmlFile) : Bool := strLess a.title b.title

/-- The requirement `Compare` of the standard library: a strict weak
ordering. -/
structure StrictWeakOrdering {α : Type} (comp : α → α → Bool) : Prop where
  irrefl : ∀ a, comp a a = false
  trans : ∀ a b c, comp a b = true → comp b c = true → comp a c = true
  incomp_trans : ∀ a b c, comp a b = false → comp b a = false →
    comp b c = false → comp c b = false → comp a c = false ∧ comp c a = false

/-- What the C++ standard promises of `std::sort(first, last, comp)`: for a
strict weak ordering `comp` the range is rearranged (a permutation) so that
`comp(*(i + n), *i)` is false for every valid `i` and `n`. The order of
equivalent elements is not specified. -/
def StdSortContract (sort : (HtmlFile → HtmlFile → Bool) → List HtmlFile → List HtmlFile) :
    Prop :=
  ∀ comp xs, StrictWeakOrdering comp →
    (sort comp xs).Perm xs ∧ (sort comp xs).Pairwise (fun a b => comp b a = false)

/-- The test of line 140-141 on a directory entry. -/
def isCataloged (entry : DirEntry) : Bool :=
  entry.is_regular_file && pathExtension entry.path == ".html".toList &&
    pathFilename entry.path != "index.html".toList

/-- The loop over the directory (lines 139-149); `files` is the vector built
so far. -/
def collectFiles : List DirEntry → List HtmlFile → Res (List HtmlFile)
  | [], files => .ok files
  | entry :: rest, files =>
    if isCataloged entry then
      match extractTitleAndDescription entry.content entry.path with
      | .error e => .error e
      | .ok (title, description) =>
        collectFiles rest
          (files ++ [{ filename := pathFilename entry.path, title := title,
                       description := description }])
    else collectFiles rest files

/-- The first raw string written to the output (lines 167-274). -/
def PAGE_HEAD : Str := String.toList (
  "<!DOCTYPE html>\n" ++
  "<html lang=\"es\">\n" ++
  "<head>\n" ++
  "    <meta charset=\"UTF-8\">\n" ++
  "    <meta name=\"viewport\" content=\"width=device-width, initial-scale=1.0\">\n" ++
  "    <title>\xc3\x8dndice de Documentos</title>\n" ++
  "    <style>\n" ++
  "        :root \x7b\n" ++
  "            --primary-color: #1a0dab;\n" ++
  "            --visited-color: #681da8;\n" ++
  "            --url-color: #006621;\n" ++
  "            --text-color: #202124;\n" ++
  "            --description-color: #4d5156;\n" ++
  "            --border-color: #dadce0;\n" ++
  "            --bg-color: #ffffff;\n" ++
  "        \x7d\n" ++
  "        \n" ++
  "        body \x7b\n" ++
  "            font-family: \x27Segoe UI\x27, Roboto, Oxygen, Ubuntu, Cantarell, \x27Open Sans\x27, sans-serif;\n" ++
  "            line-height: 1.6;\n" ++
  "            color: var(--text-color);\n" ++
  "            background-color: var(--bg-color);\n" ++
  "            max-width: 900px;\n" ++
  "            margin: 0 auto;\n" ++
  "            padding: 20px;\n" ++
  "        \x7d\n" ++
  "        \n" ++
  "        header \x7b\n" ++
  "            margin-bottom: 30px;\n" ++
  "            padding-bottom: 15px;\n" ++
  "            border-bottom: 1px solid var(--border-color);\n" ++
  "        \x7d\n" ++
  "        \n" ++
  "        h1 \x7b\n" ++
  "            color: var(--primary-color);\n" ++
  "            font-size: 24px;\n" ++
  "            font-weight: 400;\n" ++
  "            margin-bottom: 10px;\n" ++
  "        \x7d\n" ++
  "        \n" ++
  "        .result \x7b\n" ++
  "            margin-bottom: 28px;\n" ++
  "        \x7d\n" ++
  "        \n" ++
  "        .result-title \x7b\n" ++
  "            font-size: 20px;\n" ++
  "            font-weight: 400;\n" ++
  "            margin: 0;\n" ++
  "            padding: 0;\n" ++
  "        \x7d\n" ++
  "        \n" ++
  "        .result-title a \x7b\n" ++
  "            color: var(--primary-color);\n" ++
  "            text-decoration: none;\n" ++
  "        \x7d\n" ++
  "        \n" ++
  "        .result-title a:visited \x7b\n" ++
  "            color: var(--visited-color);\n" ++
  "        \x7d\n" ++
  "        \n" ++
  "        .result-title a:hover \x7b\n" ++
  "            text-decoration: underline;\n" ++
  "        \x7d\n" ++
  "        \n" ++
  "        .result-url \x7b\n" ++
  "            color: var(--url-color);\n" ++
  "            font-size: 14px;\n" ++
  "            margin: 3px 0;\n" ++
  "            font-family: monospace;\n" ++
  "        \x7d\n" ++
  "        \n" ++
  "        .result-description \x7b\n" ++
  "            color: var(--description-color);\n" ++
  "            font-size: 14px;\n" ++
  "            margin: 5px 0 0 0;\n" ++
  "        \x7d\n" ++
  "        \n" ++
  "        footer \x7b\n" ++
  "            margin-top: 40px;\n" ++
  "            padding-top: 15px;\n" ++
  "            border-top: 1px solid var(--border-color);\n" ++
  "            color: var(--description-color);\n" ++
  "            font-size: 13px;\n" ++
  "            text-align: center;\n" ++
  "        \x7d\n" ++
  "        \n" ++
  "        @media (max-width: 768px) \x7b\n" ++
  "            body \x7b\n" ++
  "                padding: 15px;\n" ++
  "            \x7d\n" ++
  "            \n" ++
  "            .result \x7b\n" ++
  "                margin-bottom: 22px;\n" ++
  "            \x7d\n" ++
  "            \n" ++
  "            .result-title \x7b\n" ++
  "                font-size: 18px;\n" ++
  "            \x7d\n" ++
  "        \x7d\n" ++
  "    </style>\n" ++
  "</head>\n" ++
  "<body>\n" ++
  "    <header>\n" ++
  "        <h1>\xc3\x8dndice de Documentos</h1>\n" ++
  "    </header>\n" ++
  "    \n" ++
  "    <main>\n")

/-- The raw string written after the entries, up to the date (lines 284-287). -/
def PAGE_FOOT_OPEN : Str := String.toList (
  "    </main>\n" ++
  "    \n" ++
  "    <footer>\n" ++
  "        \xc3\x8dndice generado autom\xc3\xa1ticamente el ")

/-- The raw string written after the date (lines 287-291). -/
def PAGE_FOOT_CLOSE : Str := String.toList (
  "\n" ++
  "    </footer>\n" ++
  "</body>\n" ++
  "</html>\n")

/-- The loop that writes the entries (lines 276-282); `out` is what the stream
holds so far. -/
def writeEntries : List HtmlFile → Str → Str
  | [], out => out
  | file :: rest, out =>
    writeEntries rest
      (out ++ "        <div class=\"result\">\n".toList
        ++ "            <h2 class=\"result-title\"><a href=\"".toList ++ file.filename
        ++ "\">".toList ++ file.title ++ "</a></h2>\n".toList
        ++ "            <div class=\"result-url\">".toList ++ file.filename
        ++ "</div>\n".toList
        ++ "            <p class=\"result-description\">".toList ++ file.description
        ++ "</p>\n".toList
        ++ "        </div>\n".toList)

/-- The vector `files` after the `std::sort` call of line 152. -/
def sortedFiles (sort : (HtmlFile → HtmlFile → Bool) → List HtmlFile → List HtmlFile)
    (entries : List DirEntry) : Res (List HtmlFile) :=
  match collectFiles entries [] with
  | .error e => .error e
  | .ok files => .ok (sort titleLess files)

/-- The function `generateIndex`: `sort` is the library's `std::sort`,
`entries` what iterating the input directory gives, `out_is_open` whether the
output file could be created and `ltm` the local time. The result is the text
written to `index.html`, `none` when nothing is written. The exceptions that
the directory iteration and `createDirectory` can throw are outside the
model. -/
def generateIndex (sort : (HtmlFile → HtmlFile → Bool) → List HtmlFile → List HtmlFile)
    (entries : List DirEntry) (out_is_open : Bool) (ltm : Tm) : Res (Option Str) :=
  match sortedFiles sort entries with
  | .error e => .error e
  | .ok files =>
    if !out_is_open then .ok none
    else
      let out := PAGE_HEAD
      let out := writeEntries files out
      let out := out ++ PAGE_FOOT_OPEN ++ getCurrentDate ltm ++ PAGE_FOOT_CLOSE
      .ok (some out)

/-- An insertion sort: `a` goes before the first element that `comp` puts
after it. -/
def orderedInsert (comp : HtmlFile → HtmlFile → Bool) (a : HtmlFile) :
    List HtmlFile → List HtmlFile
  | [] => [a]
  | b :: l => if comp a b then a :: b :: l else b :: orderedInsert comp a l

/-- Insertion sort from the back of the range; it meets `StdSortContract`. -/
def insertionSort (comp : HtmlFile → HtmlFile → Bool) : List HtmlFile → List HtmlFile
  | [] => []
  | a :: l => orderedInsert comp a (insertionSort comp l)

/-! ## `printHelp` and `main` (lines 20-30 and 296-348) -/

/-- The text that `printHelp` writes to the standard output. -/
def USAGE : Str := String.toList (
  "Uso: mkindex [OPCIONES]\n" ++
  "Genera un \xc3\xadndice de documentos exacto con t\xc3\xadtulos y descripciones.\n\n" ++
  "Opciones:\n" ++
  "  -h, --help            Muestra esta ayuda\n" ++
  "  -p, --path RUTA        Directorio con archivos HTML\n" ++
  "  -o, --output RUTA      Directorio de salida para index.html\n\n" ++
  "Ejemplos:\n" ++
  "  mkindex --path ./docs --output ./indice\n" ++
  "  mkindex -p ./html -o .\n")

/-- What a run of `main` does: the text written to the standard output and to
the error stream by `main` itself, the arguments of the call of `generateIndex`
when there is one, and the exit code. -/
structure Outcome where
  stdout : Str
  stderr : Str
  generated : Option (Str × Str)
  exitCode : Int
  deriving DecidableEq, Repr

/-- How the argument loop ends: with a `return` inside the loop, or after the
last argument with the two paths. -/
inductive Parsed where
  | returned (outcome : Outcome)
  | done (inputPath outputPath : Str)
  deriving DecidableEq, Repr

/-- The loop `for (int i = 1; i < argc; ++i)` of lines 304-328 over the
arguments that are left. -/
def parseArgs : List Str → Str → Str → Parsed
  | [], inputPath, outputPath => .done inputPath outputPath
  | arg :: rest, inputPath, outputPath =>
    if arg = "-h".toList ∨ arg = "--help".toList then
      .returned { stdout := USAGE, stderr := [], generated := none, exitCode := 0 }
    else if arg = "-p".toList ∨ arg = "--path".toList then
      match rest with
      | value :: rest1 => parseArgs rest1 value outputPath
      | [] =>
        .returned { stdout := [],
                    stderr := "Error: Falta la ruta despu\xc3\xa9s de ".toList ++ arg ++ ['\n'],
                    generated := none, exitCode := 1 }
    else if arg = "-o".toList ∨ arg = "--output".toList then
      match rest with
      | value :: rest1 => parseArgs rest1 inputPath value
      | [] =>
        .returned { stdout := [],
                    stderr := "Error: Falta la ruta despu\xc3\xa9s de ".toList ++ arg ++ ['\n'],
                    generated := none, exitCode := 1 }
    else
      .returned { stdout := USAGE,
                  stderr := "Error: Argumento desconocido ".toList ++ arg ++ ['\n'],
                  generated := none, exitCode := 1 }

/-- The function `main`: `args` is `argv[1]`, ..., `argv[argc - 1]`,
`fs_exists` the answer of `fs::exists` and `current_path` that of
`fs::current_path()`. The call of `generateIndex` is recorded with its two
arguments; what that call prints is not part of `stdout`. -/
def main (fs_exists : Str → Bool) (current_path : Str) (args : List Str) : Outcome :=
  if args.length + 1 = 1 then
    { stdout := USAGE, stderr := [], generated := none, exitCode := 1 }
  else
    match parseArgs args [] ['.'] with
    | .returned outcome => outcome
    | .done inputPath outputPath =>
      if inputPath.isEmpty then
        { stdout := USAGE,
          stderr := "Error: Debes especificar una ruta con --path\n".toList,
          generated := none, exitCode := 1 }
      else if !fs_exists inputPath then
        { stdout := [],
          stderr := "Error: El directorio no existe: ".toList ++ inputPath ++ ['\n'],
          generated := none, exitCode := 1 }
      else
        let outputPath :=
          if outputPath = ".".toList ∨ outputPath = "./".toList then current_path
          else outputPath
        { stdout := [], stderr := [], generated := some (inputPath, outputPath),
          exitCode := 0 }

/-! ## `std::sort` of libstdc++ (GCC 12, `bits/stl_algo.h` and `bits/stl_heap.h`)

Positions are indices into the vector. Where the library carries a value in
`__val` or `__value` while a hole moves through the range, the hole is
represented as holding that value, so that each `*hole = std::move(*other)`
that moves the hole is a swap of the two positions and the final
`*hole = std::move(__val)` changes nothing. A position outside the vector is
never read or written by the library for a strict weak ordering; here a
comparison with such a position is false and a swap with it does nothing. -/

/-- The call `std::iter_swap(a, b)`. -/
def iterSwap (i j : Nat) (l : List HtmlFile) : List HtmlFile :=
  match l[i]?, l[j]? with
  | some x, some y => (l.set i y).set j x
  | _, _ => l

/-- The call `__comp(a, b)` on two positions. -/
def compAt (comp : HtmlFile → HtmlFile → Bool) (l : List HtmlFile) (i j : Nat) : Bool :=
  match l[i]?, l[j]? with
  | some x, some y => comp x y
  | _, _ => false

/-- The function `std::__lg`: the binary logarithm, rounded down. -/
def lgLoop : Nat → Nat → Nat
  | 0, _ => 0
  | fuel + 1, n => if 2 ≤ n then lgLoop fuel (n / 2) + 1 else 0

/-- The call `std::__lg(n)`. -/
def lg (n : Nat) : Nat := lgLoop n n

/-- The function `__move_median_to_first(result, a, b, c, comp)`. -/
def moveMedianToFirst (comp : HtmlFile → HtmlFile → Bool) (result a b c : Nat)
    (l : List HtmlFile) : List HtmlFile :=
  if compAt comp l a b then
    if compAt comp l b c then iterSwap result b l
    else if compAt comp l a c then iterSwap result c l
    else iterSwap result a l
  else if compAt comp l a c then iterSwap result a l
  else if compAt comp l b c then iterSwap result c l
  else iterSwap result b l

/-- The loop `while (__comp(__first, __pivot)) ++__first;`. -/
def scanUp (comp : HtmlFile → HtmlFile → Bool) (l : List HtmlFile) (pivot : Nat) :
    Nat → Nat → Nat
  | 0, first => first
  | fuel + 1, first =>
    if compAt comp l first pivot then scanUp comp l pivot fuel (first + 1) else first

/-- The loop `while (__comp(__pivot, __last)) --__last;`. -/
def scanDown (comp : HtmlFile → HtmlFile → Bool) (l : List HtmlFile) (pivot : Nat) : Nat → Nat
  | 0 => 0
  | last + 1 => if compAt comp l pivot (last + 1) then scanDown comp l pivot last else last + 1

/-- The function `__unguarded_partition(first, last, pivot, comp)`: the `cut`
it returns and the vector it leaves. -/
def unguardedPartition (comp : HtmlFile → HtmlFile → Bool) (pivot : Nat) :
    Nat → Nat → Nat → List HtmlFile → Nat × List HtmlFile
  | 0, first, _, l => (first, l)
  | fuel + 1, first, last, l =>
    let first1 := scanUp comp l pivot (l.length - first) first
    let last1 := scanDown comp l pivot (last - 1)
    if first1 < last1 then
      unguardedPartition comp pivot fuel (first1 + 1) last1 (iterSwap first1 last1 l)
    else (first1, l)

/-- The function `__unguarded_partition_pivot(first, last, comp)`. -/
def unguardedPartitionPivot (comp : HtmlFile → HtmlFile → Bool) (first last : Nat)
    (l : List HtmlFile) : Nat × List HtmlFile :=
  let mid := first + (last - first) / 2
  let l1 := moveMedianToFirst comp first (first + 1) mid (last - 1) l
  unguardedPartition comp first (last - first) (first + 1) last l1

/-- The function `__push_heap(first, holeIndex, topIndex, value, comp)`; the
value is at the hole. -/
def pushHeap (comp : HtmlFile → HtmlFile → Bool) (first topIndex : Nat) :
    Nat → Nat → List HtmlFile → List HtmlFile
  | 0, _, l => l
  | fuel + 1, holeIndex, l =>
    let parent := (holeIndex - 1) / 2
    if topIndex < holeIndex ∧ compAt comp l (first + parent) (first + holeIndex) = true then
      pushHeap comp first topIndex fuel parent (iterSwap (first + holeIndex) (first + parent) l)
    else l

/-- The first loop of `__adjust_heap`: the hole, which is at `secondChild`,
moves down to the larger child; the result is the last `secondChild` and the
vector. -/
def adjustDown (comp : HtmlFile → HtmlFile → Bool) (first len : Nat) :
    Nat → Nat → List HtmlFile → Nat × List HtmlFile
  | 0, secondChild, l => (secondChild, l)
  | fuel + 1, secondChild, l =>
    if secondChild < (len - 1) / 2 then
      let child := 2 * (secondChild + 1)
      let child1 :=
        if compAt comp l (first + child) (first + (child - 1)) then child - 1 else child
      adjustDown comp first len fuel child1 (iterSwap (first + secondChild) (first + child1) l)
    else (secondChild, l)

/-- The function `__adjust_heap(first, holeIndex, len, value, comp)`; the value
is at the hole. -/
def adjustHeap (comp : HtmlFile → HtmlFile → Bool) (first holeIndex len : Nat)
    (l : List HtmlFile) : List HtmlFile :=
  let down := adjustDown comp first len len holeIndex l
  let secondChild := down.1
  let l1 := down.2
  if len % 2 = 0 ∧ 2 ≤ len ∧ secondChild = (len - 2) / 2 then
    let child := 2 * (secondChild + 1)
    pushHeap comp first holeIndex (child - 1 + 1) (child - 1)
      (iterSwap (first + secondChild) (first + (child - 1)) l1)
  else pushHeap comp first holeIndex (secondChild + 1) secondChild l1

/-- The function `__pop_heap(first, last, result, comp)`. -/
def popHeap (comp : HtmlFile → HtmlFile → Bool) (first last result : Nat)
    (l : List HtmlFile) : List HtmlFile :=
  adjustHeap comp first 0 (last - first) (iterSwap result first l)

/-- The loop of `__make_heap` from `parent` down to 0. -/
def makeHeapLoop (comp : HtmlFile → HtmlFile → Bool) (first len : Nat) :
    Nat → List HtmlFile → List HtmlFile
  | 0, l => adjustHeap comp first 0 len l
  | parent + 1, l => makeHeapLoop comp first len parent (adjustHeap comp first (parent + 1) len l)

/-- The function `__make_heap(first, last, comp)`. -/
def makeHeap (comp : HtmlFile → HtmlFile → Bool) (first last : Nat) (l : List HtmlFile) :
    List HtmlFile :=
  if last - first < 2 then l
  else makeHeapLoop comp first (last - first) ((last - first - 2) / 2) l

/-- The loop of `__heap_select` over the positions from `i` on. -/
def heapSelectLoop (comp : HtmlFile → HtmlFile → Bool) (first middle : Nat) :
    Nat → Nat → List HtmlFile → List HtmlFile
  | 0, _, l => l
  | count + 1, i, l =>
    heapSelectLoop comp first middle count (i + 1)
      (if compAt comp l i first then popHeap comp first middle i l else l)

/-- The loop of `__sort_heap`, for a heap of `n` elements at `first`. -/
def sortHeapLoop (comp : HtmlFile → HtmlFile → Bool) (first : Nat) :
    Nat → List HtmlFile → List HtmlFile
  | 0, l => l
  | n + 1, l =>
    if 1 < n + 1 then sortHeapLoop comp first n (popHeap comp first (first + n) (first + n) l)
    else l

/-- The function `__partial_sort(first, middle, last, comp)`. -/
def partialSort (comp : HtmlFile → HtmlFile → Bool) (first middle last : Nat)
    (l : List HtmlFile) : List HtmlFile :=
  let l1 := heapSelectLoop comp first middle (last - middle) middle (makeHeap comp first middle l)
  sortHeapLoop comp first (middle - first) l1

/-- The function `__unguarded_linear_insert(last, comp)`; the value is at
`last`. -/
def unguardedLinearInsert (comp : HtmlFile → HtmlFile → Bool) :
    Nat → List HtmlFile → List HtmlFile
  | 0, l => l
  | next + 1, l =>
    if compAt comp l (next + 1) next then
      unguardedLinearInsert comp next (iterSwap (next + 1) next l)
    else l

/-- The branch of `__insertion_sort` that moves the element at `i` to `first`
(`std::move_backward` and the assignment to `*__first`). -/
def moveToFirst (first : Nat) : Nat → List HtmlFile → List HtmlFile
  | 0, l => l
  | i + 1, l => if first < i + 1 then moveToFirst first i (iterSwap (i + 1) i l) else l

/-- The loop of `__insertion_sort` over the positions from `i` on. -/
def insertionLoop (comp : HtmlFile → HtmlFile → Bool) (first : Nat) :
    Nat → Nat → List HtmlFile → List HtmlFile
  | 0, _, l => l
  | count + 1, i, l =>
    insertionLoop comp first count (i + 1)
      (if compAt comp l i first then moveToFirst first i l
       else unguardedLinearInsert comp i l)

/-- The function `__insertion_sort(first, last, comp)`. -/
def insertionSortRange (comp : HtmlFile → HtmlFile → Bool) (first last : Nat)
    (l : List HtmlFile) : List HtmlFile :=
  if first = last then l else insertionLoop comp first (last - (first + 1)) (first + 1) l

/-- The function `__unguarded_insertion_sort(first, last, comp)`, as a loop
over the positions from `i` on. -/
def unguardedInsertionLoop (comp : HtmlFile → HtmlFile → Bool) :
    Nat → Nat → List HtmlFile → List HtmlFile
  | 0, _, l => l
  | count + 1, i, l =>
    unguardedInsertionLoop comp count (i + 1) (unguardedLinearInsert comp i l)

/-- The constant `_S_threshold`. -/
def S_threshold : Nat := 16

/-- The function `__final_insertion_sort(first, last, comp)`. -/
def finalInsertionSort (comp : HtmlFile → HtmlFile → Bool) (first last : Nat)
    (l : List HtmlFile) : List HtmlFile :=
  if S_threshold < last - first then
    unguardedInsertionLoop comp (last - (first + S_threshold)) (first + S_threshold)
      (insertionSortRange comp first (first + S_threshold) l)
  else insertionSortRange comp first last l

/-- The function `__introsort_loop(first, last, depth_limit, comp)`: every
pass through its loop lowers `depth_limit` by one. -/
def introsortLoop (comp : HtmlFile → HtmlFile → Bool) :
    Nat → Nat → Nat → List HtmlFile → List HtmlFile
  | 0, first, last, l =>
    if S_threshold < last - first then partialSort comp first last last l else l
  | depth_limit + 1, first, last, l =>
    if S_threshold < last - first then
      let cut := unguardedPartitionPivot comp first last l
      introsortLoop comp depth_limit first cut.1
        (introsortLoop comp depth_limit cut.1 last cut.2)
    else l

/-- The call `std::sort(files.begin(), files.end(), comp)` as libstdc++
implements it (`std::__sort`). -/
def libstdcxxSort (comp : HtmlFile → HtmlFile → Bool) (l : List HtmlFile) : List HtmlFile :=
  if l.length = 0 then l
  else
    finalInsertionSort comp 0 l.length
      (introsortLoop comp (lg l.length * 2) 0 l.length l)

/-! ## Definitions used to state the properties -/

/-- The description that the paragraph branch stores for the cleaned paragraph
text `cleaned` (lines 105-107). -/
def capped (cleaned : Str) : Str :=
  if cleaned.length > 160 then cleaned.take 157 ++ "...".toList else cleaned

/-- The string `d` is what the paragraph branch stores at some scan position
`k`: the capped, cleaned text between the `>` after a `<p` and a `</p>`. -/
def IsParagraphOf (content d : Str) : Prop :=
  ∃ k raw cleaned,
    find content "<p".toList k ≠ npos ∧
    find content "</p>".toList (find content "<p".toList k) ≠ npos ∧
    substr content ((find content ['>'] (find content "<p".toList k) + 1) % SIZE_MOD)
      ((find content "</p>".toList (find content "<p".toList k) + SIZE_MOD
        - (find content ['>'] (find content "<p".toList k) + 1) % SIZE_MOD) % SIZE_MOD)
      = .ok raw ∧
    cleanContent raw = .ok cleaned ∧ d = capped cleaned

/-- A file whose paragraph is 200 characters long. -/
def paragraph200 : Str :=
  "<h1>t</h1><p>".toList ++ List.replicate 200 'x' ++ "</p>".toList

/-- The entry `f` is what the directory loop pushes for the directory entry
`e` (lines 142-147). -/
def Catalogs (e : DirEntry) (f : HtmlFile) : Prop :=
  f.filename = pathFilename e.path ∧
    extractTitleAndDescription e.content e.path = .ok (f.title, f.description)

/-- A directory listing used as example: three HTML documents (one of them
cannot be opened), the index itself, a text file and a subdirectory whose name
ends in `.html`. -/
def exampleDir : List DirEntry :=
  [ { path := "docs/zeta.html".toList, is_regular_file := true,
      content := some "<h1>Zeta</h1><p>Last letter.</p>".toList },
    { path := "docs/index.html".toList, is_regular_file := true,
      content := some "<h1>Index</h1><p>Old index.</p>".toList },
    { path := "docs/notes.txt".toList, is_regular_file := true,
      content := some "<h1>Notes</h1><p>Plain text.</p>".toList },
    { path := "docs/alpha.html".toList, is_regular_file := true,
      content := some "<p>No heading here.</p>".toList },
    { path := "docs/old.html".toList, is_regular_file := false, content := none },
    { path := "docs/locked.html".toList, is_regular_file := true, content := none } ]

/-- A directory listing with two documents that have the same title. -/
def sameTitleDir : List DirEntry :=
  [ { path := "docs/a.html".toList, is_regular_file := true,
      content := some "<h1>T</h1><p>first</p>".toList },
    { path := "docs/b.html".toList, is_regular_file := true,
      content := some "<h1>T</h1><p>second</p>".toList } ]

/-- The pattern `pat` occurs in `s` at index `i`. -/
def occursAt (s pat : Str) (i : Nat) : Bool := pat.isPrefixOf (s.drop i)

/-- The file content of the example of the specification. -/
def helloWorld : Str :=
  "<h1>Hello &nbsp; <b>World</b></h1><p>Some <i>text</i> here.</p>".toList

/-- The entry block of one entry: the `div` of class `result` with the file
name as link target and as URL line, the title as link text and the
description. -/
def entryBlock (file : HtmlFile) : Str :=
  "        <div class=\"result\">\n".toList
    ++ ("            <h2 class=\"result-title\"><a href=\"".toList ++ file.filename
      ++ "\">".toList ++ file.title ++ "</a></h2>\n".toList)
    ++ ("            <div class=\"result-url\">".toList ++ file.filename ++ "</div>\n".toList)
    ++ ("            <p class=\"result-description\">".toList ++ file.description
      ++ "</p>\n".toList)
    ++ "        </div>\n".toList

/-- A directory listing without any HTML document. -/
def noHtmlDir : List DirEntry :=
  [ { path := "docs/notes.txt".toList, is_regular_file := true,
      content := some "<h1>Notes</h1><p>Plain text.</p>".toList },
    { path := "docs/page.htm".toList, is_regular_file := true,
      content := some "<h1>Page</h1><p>Short extension.</p>".toList },
    { path := "docs/.html".toList, is_regular_file := true,
      content := some "<h1>Hidden</h1>".toList } ]

/-- A local time used in the examples: 3 January 2026, 09:05. -/
def exampleTime : Tm :=
  { tm_min := 5, tm_hour := 9, tm_mday := 3, tm_mon := 0, tm_year := 126 }

/-- The text `s` holds no occurrence of `pat`. -/
def noOccurrence (s pat : Str) : Prop :=
  ∀ i, i < s.length → occursAt s pat i = false

/-- The argument is one of the two flags that take a path for the input
directory. -/
def isPathFlag (arg : Str) : Bool := arg == "-p".toList || arg == "--path".toList

/-- The argument is one of the two flags that take a path for the output
directory. -/
def isOutputFlag (arg : Str) : Bool := arg == "-o".toList || arg == "--output".toList

/-- The argument is a flag that takes a value. -/
def isValueFlag (arg : Str) : Bool := isPathFlag arg || isOutputFlag arg

/-- The argument list made of the given flags, each followed by its value. -/
def flagPairs : List (Str × Str) → List Str
  | [] => []
  | (flag, value) :: pairs => flag :: value :: flagPairs pairs

/-- The input path and the output path after the given flags with their
values, starting from the pair `paths`: the last value given to a path flag and
the last value given to an output flag. -/
def supplied : List (Str × Str) → Str × Str → Str × Str
  | [], paths => paths
  | (flag, value) :: pairs, paths =>
    if isPathFlag flag then supplied pairs (value, paths.2)
    else supplied pairs (paths.1, value)

/-- The text holds no character `a` with a character `b` somewhere after it. -/
def NoSpan (a b : Char) (s : Str) : Prop :=
  ∀ i j : Nat, i < j → s[i]? = some a → s[j]? = some b → False

/-- The character is a space, a tab, a newline, a carriage return, a form feed
or a vertical tab. -/
def isWhitespace (c : Char) : Bool :=
  c == ' ' || c == '\t' || c == '\n' || c == '\r' || c == Char.ofNat 12 || c == Char.ofNat 11

/-- The text without its leading and its trailing whitespace characters. -/
def trimWhitespace (s : Str) : Str :=
  (s.dropWhile isWhitespace).rdropWhile isWhitespace

/-- The text with every run of spaces made one space: a space that is followed
by a space is dropped. -/
def collapseSpaces : Str → Str
  | [] => []
  | [c] => [c]
  | a :: b :: rest =>
    if a = ' ' ∧ b = ' ' then collapseSpaces (b :: rest)
    else a :: collapseSpaces (b :: rest)

/-- The fragment between the `>` that follows the index `start` and the index
`close`, cut out as lines 86-87 and 100-101 do. -/
def fragmentAt (content : Str) (start close : Nat) : Res Str :=
  substr content ((find content ['>'] start + 1) % SIZE_MOD)
    ((close + SIZE_MOD - (find content ['>'] start + 1) % SIZE_MOD) % SIZE_MOD)

/-- The extraction as one pass without a loop: `h` is the first `<h1` from
position 0, `e` the first `</h1>` at or after `h`, `p` the first `<p` at or
after `e + 5` and `q` the first `</p>` at or after `p`; a search that finds
nothing leaves the title, or the description, unset. -/
def singlePass (content filepath : Str) : Res (Str × Str) :=
  let h := find content "<h1".toList 0
  let e := find content "</h1>".toList h
  if h = npos ∨ e = npos then
    .ok (pathStem filepath, DESCRIPTION_UNAVAILABLE)
  else
    match fragmentAt content h e with
    | .error err => .error err
    | .ok raw =>
      match cleanContent raw with
      | .error err => .error err
      | .ok title =>
        let p := find content "<p".toList (e + 5)
        let q := find content "</p>".toList p
        if p = npos ∨ q = npos then
          .ok (if title.isEmpty then pathStem filepath else title, DESCRIPTION_UNAVAILABLE)
        else
          match fragmentAt content p q with
          | .error err => .error err
          | .ok raw2 =>
            match cleanContent raw2 with
            | .error err => .error err
            | .ok description =>
              .ok (if title.isEmpty then pathStem filepath else title,
                   if (capped description).isEmpty then DESCRIPTION_UNAVAILABLE
                   else capped description)

/-- The entries of `files` whose title is `t`, in the order in which they
stand in `files`. -/
def withTitle (t : Str) (files : List HtmlFile) : List HtmlFile :=
  files.filter (fun f => f.title == t)

/-- The directory entry of a document `name.html` with the title `T` and the
paragraph `name`. -/
def sameTitleEntry (name : String) : DirEntry :=
  { path := "docs/".toList ++ name.toList ++ ".html".toList, is_regular_file := true,
    content := some ("<h1>T</h1><p>".toList ++ name.toList ++ "</p>".toList) }

/-- What is cataloged for `sameTitleEntry name`. -/
def sameTitleFile (name : String) : HtmlFile :=
  { filename := name.toList ++ ".html".toList, title := "T".toList, description := name.toList }

/-- A directory listing with 17 documents, `a.html` to `q.html` in this order,
that all have the title `T`. -/
def seventeenSameTitleDir : List DirEntry :=
  ["a", "b", "c", "d", "e", "f", "g", "h", "i", "j", "k", "l", "m", "n", "o", "p", "q"].map
    sameTitleEntry

/-! ## Facts about the string primitives -/

theorem npos_pos : 0 < npos := by decide

theorem findFrom_bounds (pat : Str) : ∀ (s : Str) (i k : Nat),
    findFrom pat s i = k → k ≠ npos → i ≤ k ∧ k + pat.length ≤ i + s.length
  | [], i, k, h, hk => by
    unfold findFrom at h
    split at h
    · rename_i hp
      have hp2 : pat <+: [] := List.isPrefixOf_iff_prefix.mp hp
      have := hp2.length_le
      simp at this
      subst h
      simp [this]
    · exact absurd h.symm hk
  | c :: cs, i, k, h, hk => by
    unfold findFrom at h
    split at h
    · rename_i hp
      have hp2 : pat <+: (c :: cs) := List.isPrefixOf_iff_prefix.mp hp
      have := hp2.length_le
      subst h
      exact ⟨le_refl _, by omega⟩
    · have ih := findFrom_bounds pat cs (i + 1) k h hk
      simp only [List.length_cons]
      omega

theorem find_bounds (s pat : Str) (pos k : Nat) (h : find s pat pos = k) (hk : k ≠ npos) :
    pos ≤ k ∧ k + pat.length ≤ s.length := by
  unfold find at h
  split at h
  · exact absurd h.symm hk
  · rename_i hpos
    have := findFrom_bounds pat (s.drop pos) pos k h hk
    simp only [List.length_drop] at this
    omega

theorem lastNotOfFrom_bounds (set : Str) : ∀ (s : Str) (i k : Nat),
    lastNotOfFrom set s i = k → k ≠ npos → i ≤ k ∧ k < i + s.length
  | [], i, k, h, hk => by
    unfold lastNotOfFrom at h
    exact absurd h.symm hk
  | c :: cs, i, k, h, hk => by
    unfold lastNotOfFrom at h
    simp only at h
    split at h
    · rename_i hl
      have ih := lastNotOfFrom_bounds set cs (i + 1) k h hk
      simp only [List.length_cons]
      omega
    · split at h
      · exact absurd h.symm hk
      · subst h
        simp

theorem erase_ok (s : Str) (pos n : Nat) (h : pos ≤ s.length) :
    erase s pos n = .ok (s.take pos ++ (s.drop pos).drop n) := by
  unfold erase
  rw [if_neg (by omega)]

theorem replace_ok (s : Str) (pos n : Nat) (str : Str) (h : pos ≤ s.length) :
    replace s pos n str = .ok (s.take pos ++ str ++ (s.drop pos).drop n) := by
  unfold replace
  rw [if_neg (by omega)]

theorem substr_ok (s : Str) (pos n : Nat) (h : pos ≤ s.length) :
    substr s pos n = .ok ((s.drop pos).take n) := by
  unfold substr
  rw [if_neg (by omega)]

/-! ## The loops of `cleanContent` end and nothing in it throws -/

theorem tagLoop_ok : ∀ (fuel : Nat) (content : Str) (tag_start : Nat),
    content.length ≤ fuel → (tag_start ≠ npos → tag_start < content.length) →
    ∃ r, tagLoop fuel content tag_start = .ok r
  | 0, content, tag_start, hf, hts => by
    unfold tagLoop
    by_cases h : tag_start ≠ npos
    · have := hts h
      omega
    · rw [if_neg h]
      exact ⟨_, rfl⟩
  | fuel + 1, content, tag_start, hf, hts => by
    unfold tagLoop
    by_cases h : tag_start ≠ npos
    · rw [if_pos h]
      simp only
      by_cases he : find content ['>'] tag_start = npos
      · rw [if_pos he]
        exact ⟨_, rfl⟩
      · rw [if_neg he]
        have hb := find_bounds content ['>'] tag_start _ rfl he
        simp only [List.length_singleton] at hb
        have hlt := hts h
        rw [erase_ok content tag_start _ (by omega)]
        simp only
        apply tagLoop_ok fuel
        · simp only [List.length_append, List.length_take, List.length_drop]
          omega
        · intro h2
          have := find_bounds _ ['<'] 0 _ rfl h2
          simp only [List.length_singleton] at this
          omega
    · rw [if_neg h]
      exact ⟨_, rfl⟩

theorem entityLoop_ok : ∀ (fuel : Nat) (content : Str) (entity : Nat),
    (entity ≠ npos → entity < content.length ∧ content.length ≤ fuel + entity) →
    ∃ r, entityLoop fuel content entity = .ok r
  | 0, content, entity, hinv => by
    unfold entityLoop
    by_cases h : entity ≠ npos
    · have := hinv h
      omega
    · rw [if_neg h]
      exact ⟨_, rfl⟩
  | fuel + 1, content, entity, hinv => by
    unfold entityLoop
    by_cases h : entity ≠ npos
    · rw [if_pos h]
      simp only
      obtain ⟨hlt, hfuel⟩ := hinv h
      by_cases he : find content [';'] entity ≠ npos
      · rw [if_pos he]
        have hb := find_bounds content [';'] entity _ rfl he
        simp only [List.length_singleton] at hb
        rw [replace_ok content entity _ _ (by omega)]
        simp only
        apply entityLoop_ok fuel
        intro h2
        have := find_bounds _ ['&'] (entity + 1) _ rfl h2
        simp only [List.length_singleton, List.length_append, List.length_take,
          List.length_drop] at this ⊢
        omega
      · rw [if_neg he]
        simp only
        apply entityLoop_ok fuel
        intro h2
        have := find_bounds _ ['&'] (entity + 1) _ rfl h2
        simp only [List.length_singleton] at this
        omega
    · rw [if_neg h]
      exact ⟨_, rfl⟩

theorem cleanContent_ok (content : Str) : ∃ r, cleanContent content = .ok r := by
  unfold cleanContent
  rw [erase_ok content 0 _ (Nat.zero_le _)]
  simp only
  generalize hc1 : (List.take 0 content ++
    List.drop (find_first_not_of content WHITESPACE) (List.drop 0 content)) = c1
  have hpos : (find_last_not_of c1 WHITESPACE + 1) % SIZE_MOD ≤ c1.length := by
    by_cases hk : find_last_not_of c1 WHITESPACE = npos
    · rw [hk]
      have : (npos + 1) % SIZE_MOD = 0 := by decide
      omega
    · have hb := lastNotOfFrom_bounds WHITESPACE c1 0 _ rfl hk
      have hm := Nat.mod_le (find_last_not_of c1 WHITESPACE + 1) SIZE_MOD
      unfold find_last_not_of
      unfold find_last_not_of at hm
      omega
  rw [erase_ok c1 _ _ hpos]
  simp only
  generalize hc2 : (List.take ((find_last_not_of c1 WHITESPACE + 1) % SIZE_MOD) c1 ++
    List.drop npos (List.drop ((find_last_not_of c1 WHITESPACE + 1) % SIZE_MOD) c1)) = c2
  obtain ⟨c3, h3⟩ := tagLoop_ok c2.length c2 (find c2 ['<'] 0) (le_refl _) (by
    intro h2
    have := find_bounds _ ['<'] 0 _ rfl h2
    simp only [List.length_singleton] at this
    omega)
  rw [h3]
  simp only
  obtain ⟨c4, h4⟩ := entityLoop_ok c3.length c3 (find c3 ['&'] 0) (by
    intro h2
    have := find_bounds _ ['&'] 0 _ rfl h2
    simp only [List.length_singleton] at this
    omega)
  rw [h4]
  exact ⟨_, rfl⟩

/-! ## The scan loop of `extractTitleAndDescription` -/

theorem content_start_le (content : Str) (start : Nat) :
    (find content ['>'] start + 1) % SIZE_MOD ≤ content.length := by
  by_cases hk : find content ['>'] start = npos
  · rw [hk]
    have : (npos + 1) % SIZE_MOD = 0 := by decide
    omega
  · have hb := find_bounds content ['>'] start _ rfl hk
    simp only [List.length_singleton] at hb
    have hm := Nat.mod_le (find content ['>'] start + 1) SIZE_MOD
    omega

theorem capped_length_le (cleaned : Str) : (capped cleaned).length ≤ 160 := by
  unfold capped
  split
  · have h3 : ("...".toList).length = 3 := rfl
    simp only [List.length_append, List.length_take, h3]
    omega
  · omega

theorem capped_long (cleaned : Str) (h : 160 < cleaned.length) :
    capped cleaned = cleaned.take 157 ++ "...".toList ∧ (capped cleaned).length = 160 := by
  unfold capped
  rw [if_pos h]
  refine ⟨rfl, ?_⟩
  have h3 : ("...".toList).length = 3 := rfl
  simp only [List.length_append, List.length_take, h3]
  omega

theorem capped_short (cleaned : Str) (h : cleaned.length ≤ 160) : capped cleaned = cleaned := by
  unfold capped
  rw [if_neg (by omega)]

/-- Every pass through the loop body produces a step, never an exception: a
step back to the loop test moves `pos` forward and keeps the description; a
`break` keeps the title and stores a capped paragraph. -/
theorem scanStep_spec (content : Str) (st : ScanState) :
    ∃ r, scanStep content st = .ok r ∧
      (match r with
        | .next st1 => st.pos < st1.pos ∧ st1.description = st.description ∧
            (st.found_h1 = true → st1.found_h1 = true ∧ st1.title = st.title)
        | .brk st1 => st.found_h1 = true ∧ st1.title = st.title ∧
            IsParagraphOf content st1.description) := by
  unfold scanStep
  by_cases hf : st.found_h1 = true
  · simp only [hf, Bool.not_true, Bool.false_eq_true, if_false]
    by_cases hp : find content "<p".toList st.pos ≠ npos
    · rw [if_pos hp]
      by_cases hq : find content "</p>".toList (find content "<p".toList st.pos) ≠ npos
      · rw [if_pos hq]
        rw [substr_ok content _ _ (content_start_le content _)]
        simp only
        obtain ⟨cleaned, hc⟩ := cleanContent_ok
          (List.take ((find content "</p>".toList (find content "<p".toList st.pos) + SIZE_MOD
              - (find content ['>'] (find content "<p".toList st.pos) + 1) % SIZE_MOD) % SIZE_MOD)
            (List.drop ((find content ['>'] (find content "<p".toList st.pos) + 1) % SIZE_MOD)
              content))
        rw [hc]
        refine ⟨_, rfl, trivial, rfl, st.pos, _, cleaned, hp, hq, ?_, hc, rfl⟩
        exact substr_ok content _ _ (content_start_le content _)
      · rw [if_neg hq]
        exact ⟨_, rfl, Nat.lt_succ_self _, rfl, fun _ => ⟨rfl, rfl⟩⟩
    · rw [if_neg hp]
      exact ⟨_, rfl, Nat.lt_succ_self _, rfl, fun _ => ⟨rfl, rfl⟩⟩
  · have hf2 : st.found_h1 = false := by
      cases h : st.found_h1
      · rfl
      · exact absurd h hf
    simp only [hf2, Bool.not_false, if_true]
    by_cases hp : find content "<h1".toList st.pos ≠ npos
    · rw [if_pos hp]
      by_cases hq : find content "</h1>".toList (find content "<h1".toList st.pos) ≠ npos
      · rw [if_pos hq]
        rw [substr_ok content _ _ (content_start_le content _)]
        simp only
        obtain ⟨cleaned, hc⟩ := cleanContent_ok
          (List.take ((find content "</h1>".toList (find content "<h1".toList st.pos) + SIZE_MOD
              - (find content ['>'] (find content "<h1".toList st.pos) + 1) % SIZE_MOD) % SIZE_MOD)
            (List.drop ((find content ['>'] (find content "<h1".toList st.pos) + 1) % SIZE_MOD)
              content))
        rw [hc]
        refine ⟨_, rfl, ?_, rfl, fun h => by simp at h⟩
        have h1 := find_bounds content "<h1".toList st.pos _ rfl hp
        have h2 := find_bounds content "</h1>".toList _ _ rfl hq
        simp only
        omega
      · rw [if_neg hq]
        exact ⟨_, rfl, Nat.lt_succ_self _, rfl, fun h => by simp at h⟩
    · rw [if_neg hp]
      exact ⟨_, rfl, Nat.lt_succ_self _, rfl, fun h => by simp at h⟩

/-- Induction over the scan loop: a property that holds at the start and that
every step keeps (while moving `pos` forward) holds of the final state, and
the loop ends within `content.length - pos` passes. -/
theorem scanLoop_invariant (content : Str) (P : ScanState → Prop)
    (hstep : ∀ st, P st → st.pos < content.length →
      ∃ r, scanStep content st = .ok r ∧
        (match r with
          | .next st1 => st.pos < st1.pos ∧ P st1
          | .brk st1 => P st1)) :
    ∀ (fuel : Nat) (st : ScanState), P st → content.length ≤ fuel + st.pos →
      ∃ st1, scanLoop content fuel st = .ok st1 ∧ P st1
  | 0, st, hP, hfuel => by
    unfold scanLoop
    rw [if_neg (by omega)]
    exact ⟨st, rfl, hP⟩
  | fuel + 1, st, hP, hfuel => by
    unfold scanLoop
    by_cases hlt : st.pos < content.length
    · rw [if_pos hlt]
      obtain ⟨r, hr, hspec⟩ := hstep st hP hlt
      rw [hr]
      cases r with
      | next st1 =>
        simp only at hspec ⊢
        exact scanLoop_invariant content P hstep fuel st1 hspec.2 (by omega)
      | brk st1 =>
        simp only at hspec ⊢
        exact ⟨st1, rfl, hspec⟩
    · rw [if_neg hlt]
      exact ⟨st, rfl, hP⟩

/-- The scan loop returns, and the description it leaves is empty or a capped
paragraph. -/
theorem scanLoop_description (content : Str) :
    ∃ st, scanLoop content content.length
        { pos := 0, found_h1 := false, title := [], description := [] } = .ok st ∧
      (st.description = [] ∨ IsParagraphOf content st.description) := by
  apply scanLoop_invariant content
    (fun st => st.description = [] ∨ IsParagraphOf content st.description)
  · intro st hP _
    obtain ⟨r, hr, hspec⟩ := scanStep_spec content st
    refine ⟨r, hr, ?_⟩
    cases r with
    | next st1 =>
      simp only at hspec ⊢
      refine ⟨hspec.1, ?_⟩
      rw [hspec.2.1]
      exact hP
    | brk st1 =>
      simp only at hspec ⊢
      exact Or.inr hspec.2.2
  · exact Or.inl rfl
  · simp

theorem description_unavailable_length : DESCRIPTION_UNAVAILABLE.length = 26 := by decide

/-- What `extractTitleAndDescription` returns, for every file and path: it
returns; the title is non-empty or the stem of the path; the description is the
placeholder or a non-empty capped paragraph. -/
theorem extract_spec (file : Option Str) (filepath : Str) :
    ∃ title description,
      extractTitleAndDescription file filepath = .ok (title, description) ∧
      (title ≠ [] ∨ title = pathStem filepath) ∧
      (description = DESCRIPTION_UNAVAILABLE ∨
        (description ≠ [] ∧ ∃ content, file = some content ∧
          IsParagraphOf content description)) := by
  cases file with
  | none =>
    exact ⟨_, _, rfl, Or.inr rfl, Or.inl rfl⟩
  | some content =>
    obtain ⟨st, hst, hd⟩ := scanLoop_description content
    unfold extractTitleAndDescription
    simp only [hst]
    refine ⟨_, _, rfl, ?_, ?_⟩
    · by_cases ht : st.title.isEmpty = true
      · rw [if_pos ht]
        exact Or.inr rfl
      · rw [if_neg ht]
        left
        intro h
        rw [h] at ht
        exact ht rfl
    · by_cases hdesc : st.description.isEmpty = true
      · rw [if_pos hdesc]
        exact Or.inl rfl
      · rw [if_neg hdesc]
        right
        have hne : st.description ≠ [] := by
          intro h
          rw [h] at hdesc
          exact hdesc rfl
        refine ⟨hne, content, rfl, ?_⟩
        rcases hd with hd | hd
        · exact absurd hd hne
        · exact hd

/-! ## C1: the description is capped at 160 characters -/

set_option maxRecDepth 100000 in
/-- C1: for every file (also one that cannot be opened) and every path,
`extractTitleAndDescription` returns, and the description it returns has at
most 160 characters. The description is the placeholder or comes from a
paragraph matched at some scan position `k`: when the cleaned paragraph text
has at most 160 characters it is returned as it is, and when it is longer the
description is exactly its first 157 characters followed by `...` and has
exactly 160 characters. A paragraph of 200 characters gives 157 of them
followed by `...`, 160 characters in all. -/
theorem C1_description_at_most_160 :
    (∀ (file : Option Str) (filepath : Str), ∃ title description,
      extractTitleAndDescription file filepath = .ok (title, description) ∧
      description.length ≤ 160 ∧
      (description = DESCRIPTION_UNAVAILABLE ∨
        ∃ content k raw cleaned, file = some content ∧
          find content "<p".toList k ≠ npos ∧
          find content "</p>".toList (find content "<p".toList k) ≠ npos ∧
          substr content ((find content ['>'] (find content "<p".toList k) + 1) % SIZE_MOD)
            ((find content "</p>".toList (find content "<p".toList k) + SIZE_MOD
              - (find content ['>'] (find content "<p".toList k) + 1) % SIZE_MOD) % SIZE_MOD)
            = .ok raw ∧
          cleanContent raw = .ok cleaned ∧
          (cleaned.length ≤ 160 → description = cleaned) ∧
          (160 < cleaned.length →
            description = cleaned.take 157 ++ "...".toList ∧ description.length = 160))) ∧
    extractTitleAndDescription (some paragraph200) "a.html".toList
      = .ok ("t".toList, List.replicate 157 'x' ++ "...".toList) ∧
    (List.replicate 157 'x' ++ "...".toList).length = 160 := by
  refine ⟨?_, by rfl, by rfl⟩
  intro file filepath
  obtain ⟨title, description, hex, _, hd⟩ := extract_spec file filepath
  refine ⟨title, description, hex, ?_, ?_⟩
  · rcases hd with hd | ⟨_, content, _, k, raw, cleaned, _, _, _, _, hcap⟩
    · rw [hd, description_unavailable_length]
      omega
    · rw [hcap]
      exact capped_length_le cleaned
  · rcases hd with hd | ⟨_, content, hfile, k, raw, cleaned, hp, hq, hraw, hclean, hcap⟩
    · exact Or.inl hd
    · refine Or.inr ⟨content, k, raw, cleaned, hfile, hp, hq, hraw, hclean, ?_, ?_⟩
      · intro hle
        rw [hcap, capped_short cleaned hle]
      · intro hlt
        rw [hcap]
        exact capped_long cleaned hlt

/-! ## The comparison of strings and the comparator of the sort -/

theorem char_eq_of_toNat_eq (a b : Char) (h : a.toNat = b.toNat) : a = b := by
  rw [← Char.ofNat_toNat a, ← Char.ofNat_toNat b, h]

theorem strLess_irrefl : ∀ a : Str, strLess a a = false
  | [] => rfl
  | c :: cs => by
    unfold strLess
    simp only [Nat.lt_irrefl, if_false]
    exact strLess_irrefl cs

theorem strLess_trans : ∀ a b c : Str,
    strLess a b = true → strLess b c = true → strLess a c = true
  | [], [], _, h, _ => by simp [strLess] at h
  | [], _ :: _, [], _, h => by simp [strLess] at h
  | [], _ :: _, _ :: _, _, _ => by simp [strLess]
  | _ :: _, [], _, h, _ => by simp [strLess] at h
  | _ :: _, _ :: _, [], _, h => by simp [strLess] at h
  | x :: xs, y :: ys, z :: zs, h1, h2 => by
    unfold strLess at h1 h2 ⊢
    by_cases hxy : x.toNat < y.toNat
    · by_cases hyz : y.toNat < z.toNat
      · rw [if_pos (by omega)]
      · rw [if_neg hyz] at h2
        by_cases hzy : z.toNat < y.toNat
        · rw [if_pos hzy] at h2
          exact absurd h2 (by simp)
        · rw [if_pos (by omega)]
    · rw [if_neg hxy] at h1
      by_cases hyx : y.toNat < x.toNat
      · rw [if_pos hyx] at h1
        exact absurd h1 (by simp)
      · rw [if_neg hyx] at h1
        by_cases hyz : y.toNat < z.toNat
        · rw [if_pos (by omega)]
        · rw [if_neg hyz] at h2
          by_cases hzy : z.toNat < y.toNat
          · rw [if_pos hzy] at h2
            exact absurd h2 (by simp)
          · rw [if_neg hzy] at h2
            rw [if_neg (by omega), if_neg (by omega)]
            exact strLess_trans xs ys zs h1 h2

theorem strLess_connected : ∀ a b : Str,
    strLess a b = false → strLess b a = false → a = b
  | [], [], _, _ => rfl
  | [], _ :: _, h, _ => by simp [strLess] at h
  | _ :: _, [], _, h => by simp [strLess] at h
  | x :: xs, y :: ys, h1, h2 => by
    unfold strLess at h1 h2
    by_cases hxy : x.toNat < y.toNat
    · rw [if_pos hxy] at h1
      exact absurd h1 (by simp)
    · rw [if_neg hxy] at h1
      by_cases hyx : y.toNat < x.toNat
      · rw [if_pos hyx] at h2
        exact absurd h2 (by simp)
      · rw [if_neg hyx] at h1 h2
        rw [if_neg hxy] at h2
        have hc : x = y := char_eq_of_toNat_eq x y (by omega)
        rw [hc, strLess_connected xs ys h1 h2]

theorem strLessEq_of_not_strLess : ∀ a b : Str, strLess b a = false → strLessEq a b = true
  | [], _, _ => by simp [strLessEq]
  | _ :: _, [], h => by simp [strLess] at h
  | x :: xs, y :: ys, h => by
    unfold strLess at h
    unfold strLessEq
    by_cases hxy : x.toNat < y.toNat
    · rw [if_pos hxy]
    · rw [if_neg hxy]
      by_cases hyx : y.toNat < x.toNat
      · rw [if_pos hyx] at h
        exact absurd h (by simp)
      · rw [if_neg hyx] at h ⊢
        rw [if_neg hxy] at h
        exact strLessEq_of_not_strLess xs ys h

/-- The lambda of lines 152-154 is a strict weak ordering, as `std::sort`
requires. -/
theorem titleLess_strictWeakOrdering : StrictWeakOrdering titleLess where
  irrefl a := strLess_irrefl a.title
  trans a b c := strLess_trans a.title b.title c.title
  incomp_trans a b c h1 h2 h3 h4 := by
    have e1 : a.title = b.title := strLess_connected _ _ h1 h2
    have e2 : b.title = c.title := strLess_connected _ _ h3 h4
    unfold titleLess
    rw [e1, e2]
    exact ⟨strLess_irrefl _, strLess_irrefl _⟩

/-! ## An implementation of the contract of `std::sort` -/

theorem orderedInsert_perm (comp : HtmlFile → HtmlFile → Bool) (a : HtmlFile) :
    ∀ l : List HtmlFile, (orderedInsert comp a l).Perm (a :: l)
  | [] => List.Perm.refl _
  | b :: l => by
    unfold orderedInsert
    split
    · exact List.Perm.refl _
    · exact ((orderedInsert_perm comp a l).cons b).trans (List.Perm.swap a b l)

theorem insertionSort_perm (comp : HtmlFile → HtmlFile → Bool) :
    ∀ l : List HtmlFile, (insertionSort comp l).Perm l
  | [] => List.Perm.refl _
  | a :: l => by
    unfold insertionSort
    exact (orderedInsert_perm comp a _).trans ((insertionSort_perm comp l).cons a)

theorem orderedInsert_sorted (comp : HtmlFile → HtmlFile → Bool)
    (hc : StrictWeakOrdering comp) (a : HtmlFile) :
    ∀ l : List HtmlFile, l.Pairwise (fun x y => comp y x = false) →
      (orderedInsert comp a l).Pairwise (fun x y => comp y x = false)
  | [], _ => by simp [orderedInsert]
  | b :: l, h => by
    unfold orderedInsert
    rw [List.pairwise_cons] at h
    by_cases hab : comp a b = true
    · rw [if_pos hab]
      refine List.Pairwise.cons ?_ (List.Pairwise.cons h.1 h.2)
      intro y hy
      cases hya : comp y a with
      | false => rfl
      | true =>
        have hyb : comp y b = true := hc.trans y a b hya hab
        rcases List.mem_cons.mp hy with hy | hy
        · rw [hy, hc.irrefl] at hyb
          exact absurd hyb (by simp)
        · rw [h.1 y hy] at hyb
          exact absurd hyb (by simp)
    · rw [if_neg hab]
      refine List.Pairwise.cons ?_ (orderedInsert_sorted comp hc a l h.2)
      intro y hy
      have hy2 : y ∈ a :: l := (orderedInsert_perm comp a l).mem_iff.mp hy
      rcases List.mem_cons.mp hy2 with hy2 | hy2
      · rw [hy2]
        simpa using hab
      · exact h.1 y hy2

theorem insertionSort_sorted (comp : HtmlFile → HtmlFile → Bool)
    (hc : StrictWeakOrdering comp) :
    ∀ l : List HtmlFile, (insertionSort comp l).Pairwise (fun x y => comp y x = false)
  | [] => List.Pairwise.nil
  | a :: l => by
    unfold insertionSort
    exact orderedInsert_sorted comp hc a _ (insertionSort_sorted comp hc l)

/-- The insertion sort meets the contract of `std::sort`. -/
theorem insertionSort_contract : StdSortContract insertionSort :=
  fun comp xs hc => ⟨insertionSort_perm comp xs, insertionSort_sorted comp hc xs⟩

/-! ## The directory loop -/

theorem pathStem_ne_nil (p : Str) (h : pathExtension p = ".html".toList) : pathStem p ≠ [] := by
  intro hs
  have hf : pathFilename p = [] := by
    unfold pathStem at hs
    simp only at hs
    split at hs
    · exact hs
    · split at hs
      · exact hs
      · exact hs
      · rename_i k hk
        cases hfp : pathFilename p with
        | nil => rfl
        | cons c cs =>
          rw [hfp] at hs
          simp at hs
  unfold pathExtension at h
  rw [hf] at h
  simp at h

theorem collectFiles_spec : ∀ (entries : List DirEntry) (acc : List HtmlFile),
    ∃ new, collectFiles entries acc = .ok (acc ++ new) ∧
      List.Forall₂ Catalogs (entries.filter isCataloged) new
  | [], acc => ⟨[], by simp [collectFiles], by simp⟩
  | entry :: rest, acc => by
    unfold collectFiles
    by_cases hc : isCataloged entry = true
    · rw [if_pos hc]
      obtain ⟨title, description, hex, _⟩ := extract_spec entry.content entry.path
      rw [hex]
      simp only
      obtain ⟨new, hnew, hall⟩ := collectFiles_spec rest
        (acc ++ [{ filename := pathFilename entry.path, title := title,
                   description := description }])
      refine ⟨{ filename := pathFilename entry.path, title := title,
                description := description } :: new, ?_, ?_⟩
      · rw [hnew]
        simp
      · rw [List.filter_cons_of_pos hc]
        exact List.Forall₂.cons ⟨rfl, hex⟩ hall
    · rw [if_neg hc]
      obtain ⟨new, hnew, hall⟩ := collectFiles_spec rest acc
      refine ⟨new, hnew, ?_⟩
      rw [List.filter_cons_of_neg hc]
      exact hall

/-- The vector that `generateIndex` renders: the directory loop returns a
vector `collected`, one entry per cataloged directory entry in enumeration
order, and the sort returns a permutation of it that the comparator accepts. -/
theorem sortedFiles_spec
    (sort : (HtmlFile → HtmlFile → Bool) → List HtmlFile → List HtmlFile)
    (hsort : StdSortContract sort) (entries : List DirEntry) :
    ∃ collected, collectFiles entries [] = .ok collected ∧
      List.Forall₂ Catalogs (entries.filter isCataloged) collected ∧
      sortedFiles sort entries = .ok (sort titleLess collected) ∧
      (sort titleLess collected).Perm collected ∧
      (sort titleLess collected).Pairwise (fun a b => titleLess b a = false) := by
  obtain ⟨new, hnew, hall⟩ := collectFiles_spec entries []
  rw [List.nil_append] at hnew
  obtain ⟨hperm, hsorted⟩ := hsort titleLess new titleLess_strictWeakOrdering
  refine ⟨new, hnew, hall, ?_, hperm, hsorted⟩
  unfold sortedFiles
  rw [hnew]

/-! ## C2: every cataloged entry has a title and a description -/

theorem forall₂_exists_left {α β : Type} (R : α → β → Prop) (l1 : List α) (l2 : List β)
    (h : List.Forall₂ R l1 l2) : ∀ b ∈ l2, ∃ a ∈ l1, R a b := by
  induction h with
  | nil =>
    intro b hb
    simp at hb
  | cons hr _ ih =>
    intro b hb
    rcases List.mem_cons.mp hb with hb | hb
    · exact ⟨_, List.mem_cons_self _ _, hb ▸ hr⟩
    · obtain ⟨a1, ha1, hr1⟩ := ih b hb
      exact ⟨a1, List.mem_cons_of_mem _ ha1, hr1⟩

theorem isCataloged_iff (e : DirEntry) :
    isCataloged e = true ↔
      (e.is_regular_file = true ∧ pathExtension e.path = ".html".toList ∧
        pathFilename e.path ≠ "index.html".toList) := by
  unfold isCataloged
  simp [Bool.and_eq_true, and_assoc]

theorem description_unavailable_ne_nil : DESCRIPTION_UNAVAILABLE ≠ [] := by decide

/-- C2: whatever the directory holds, the directory loop and the sort return,
and every entry of the vector that `generateIndex` renders has a non-empty
title and a non-empty description. Each entry comes from a cataloged directory
entry; the base name without extension of such an entry is non-empty, and when
its file cannot be opened the entry carries that base name as title and the
placeholder as description. -/
theorem C2_title_and_description_non_empty
    (sort : (HtmlFile → HtmlFile → Bool) → List HtmlFile → List HtmlFile)
    (hsort : StdSortContract sort) (entries : List DirEntry) :
    ∃ files, sortedFiles sort entries = .ok files ∧
      ∀ f ∈ files, f.title ≠ [] ∧ f.description ≠ [] ∧
        ∃ e ∈ entries, isCataloged e = true ∧ f.filename = pathFilename e.path ∧
          pathStem e.path ≠ [] ∧
          (e.content = none →
            f.title = pathStem e.path ∧ f.description = DESCRIPTION_UNAVAILABLE) := by
  obtain ⟨collected, _, hall, hfiles, hperm, _⟩ := sortedFiles_spec sort hsort entries
  refine ⟨_, hfiles, ?_⟩
  intro f hf
  have hf2 : f ∈ collected := hperm.mem_iff.mp hf
  obtain ⟨e, he, hname, hex⟩ := forall₂_exists_left Catalogs _ _ hall f hf2
  obtain ⟨hmem, hcat⟩ := List.mem_filter.mp he
  have hstem : pathStem e.path ≠ [] := pathStem_ne_nil e.path ((isCataloged_iff e).mp hcat).2.1
  obtain ⟨title, description, hex2, ht, hd⟩ := extract_spec e.content e.path
  rw [hex] at hex2
  have heq := Except.ok.inj hex2
  have ht2 : f.title = title := congrArg Prod.fst heq
  have hd2 : f.description = description := congrArg Prod.snd heq
  refine ⟨?_, ?_, e, hmem, hcat, hname, hstem, ?_⟩
  · rw [ht2]
    rcases ht with ht | ht
    · exact ht
    · rw [ht]
      exact hstem
  · rw [hd2]
    rcases hd with hd | hd
    · rw [hd]
      exact description_unavailable_ne_nil
    · exact hd.1
  · intro hnone
    rw [hnone] at hex
    have h3 := Except.ok.inj hex
    exact ⟨(congrArg Prod.fst h3).symm, (congrArg Prod.snd h3).symm⟩

/-- C2 on the example directory, sorted by insertion sort. -/
theorem C2_title_and_description_non_empty_witness :
    ∃ files, sortedFiles insertionSort exampleDir = .ok files ∧
      ∀ f ∈ files, f.title ≠ [] ∧ f.description ≠ [] ∧
        ∃ e ∈ exampleDir, isCataloged e = true ∧ f.filename = pathFilename e.path ∧
          pathStem e.path ≠ [] ∧
          (e.content = none →
            f.title = pathStem e.path ∧ f.description = DESCRIPTION_UNAVAILABLE) :=
  C2_title_and_description_non_empty insertionSort insertionSort_contract exampleDir

/-! ## C3: the rendered sequence is ordered by title -/

/-- C3: the vector that `generateIndex` renders is ordered by title: whenever
an entry `a` stands before an entry `b` in it, `a.title <= b.title` in the
byte-wise order of `std::string`. -/
theorem C3_sorted_by_title
    (sort : (HtmlFile → HtmlFile → Bool) → List HtmlFile → List HtmlFile)
    (hsort : StdSortContract sort) (entries : List DirEntry) :
    ∃ files, sortedFiles sort entries = .ok files ∧
      files.Pairwise (fun a b => strLessEq a.title b.title = true) := by
  obtain ⟨collected, _, _, hfiles, _, hsorted⟩ := sortedFiles_spec sort hsort entries
  refine ⟨_, hfiles, ?_⟩
  exact hsorted.imp (fun {a b} h => strLessEq_of_not_strLess a.title b.title h)

/-- C3 on the example directory, sorted by insertion sort. -/
theorem C3_sorted_by_title_witness :
    ∃ files, sortedFiles insertionSort exampleDir = .ok files ∧
      files.Pairwise (fun a b => strLessEq a.title b.title = true) :=
  C3_sorted_by_title insertionSort insertionSort_contract exampleDir

/-! ## The library's sort rearranges the vector -/

theorem iterSwap_perm (i j : Nat) (l : List HtmlFile) : (iterSwap i j l).Perm l := by
  unfold iterSwap
  cases hi : l[i]? with
  | none => exact List.Perm.refl l
  | some x =>
    cases hj : l[j]? with
    | none => exact List.Perm.refl l
    | some y =>
      obtain ⟨hil, hix⟩ := List.getElem?_eq_some.mp hi
      obtain ⟨hjl, hjy⟩ := List.getElem?_eq_some.mp hj
      show ((l.set i y).set j x).Perm l
      by_cases hij : i = j
      · subst hij
        have hxy : x = y := by rw [← hix, ← hjy]
        subst hxy
        rw [List.set_set]
        have hself : l.set i x = l := by
          apply List.ext_getElem?
          intro n
          rw [List.getElem?_set]
          by_cases h : i = n
          · subst h
            rw [if_pos rfl, if_pos hil, hi]
          · rw [if_neg h]
        rw [hself]
      · rw [List.perm_iff_count]
        intro b
        have hjl2 : j < (l.set i y).length := by rw [List.length_set]; exact hjl
        rw [List.count_set x b (l.set i y) j hjl2, List.count_set y b l i hil,
          List.getElem_set, if_neg hij, hix, hjy]
        have hpos : (x == b) = true → 1 ≤ List.count b l := by
          intro hxb
          have hxb2 : x = b := by simpa using hxb
          rw [List.one_le_count_iff, ← hxb2, ← hix]
          exact List.getElem_mem hil
        by_cases hx : (x == b) = true
        · have := hpos hx
          by_cases hy : (y == b) = true
          · rw [if_pos hx, if_pos hy]; omega
          · rw [if_pos hx, if_neg hy]; omega
        · by_cases hy : (y == b) = true
          · rw [if_neg hx, if_pos hy]; omega
          · rw [if_neg hx, if_neg hy]; omega

theorem iterSwap_length (i j : Nat) (l : List HtmlFile) : (iterSwap i j l).length = l.length :=
  (iterSwap_perm i j l).length_eq

theorem moveMedianToFirst_perm (comp : HtmlFile → HtmlFile → Bool) (result a b c : Nat)
    (l : List HtmlFile) : (moveMedianToFirst comp result a b c l).Perm l := by
  unfold moveMedianToFirst
  split_ifs <;> exact iterSwap_perm _ _ _

theorem unguardedPartition_perm (comp : HtmlFile → HtmlFile → Bool) (pivot : Nat) :
    ∀ (fuel first last : Nat) (l : List HtmlFile),
      (unguardedPartition comp pivot fuel first last l).2.Perm l
  | 0, _, _, l => List.Perm.refl l
  | fuel + 1, first, last, l => by
    unfold unguardedPartition
    simp only
    split_ifs
    · exact (unguardedPartition_perm comp pivot fuel _ _ _).trans (iterSwap_perm _ _ _)
    · exact List.Perm.refl l

theorem unguardedPartitionPivot_perm (comp : HtmlFile → HtmlFile → Bool) (first last : Nat)
    (l : List HtmlFile) : (unguardedPartitionPivot comp first last l).2.Perm l := by
  unfold unguardedPartitionPivot
  exact (unguardedPartition_perm comp first _ _ _ _).trans (moveMedianToFirst_perm _ _ _ _ _ _)

theorem pushHeap_perm (comp : HtmlFile → HtmlFile → Bool) (first topIndex : Nat) :
    ∀ (fuel holeIndex : Nat) (l : List HtmlFile),
      (pushHeap comp first topIndex fuel holeIndex l).Perm l
  | 0, _, l => List.Perm.refl l
  | fuel + 1, holeIndex, l => by
    unfold pushHeap
    simp only
    split_ifs
    · exact (pushHeap_perm comp first topIndex fuel _ _).trans (iterSwap_perm _ _ _)
    · exact List.Perm.refl l

theorem adjustDown_perm (comp : HtmlFile → HtmlFile → Bool) (first len : Nat) :
    ∀ (fuel secondChild : Nat) (l : List HtmlFile),
      (adjustDown comp first len fuel secondChild l).2.Perm l
  | 0, _, l => List.Perm.refl l
  | fuel + 1, secondChild, l => by
    unfold adjustDown
    simp only
    split_ifs
    · exact (adjustDown_perm comp first len fuel _ _).trans (iterSwap_perm _ _ _)
    · exact (adjustDown_perm comp first len fuel _ _).trans (iterSwap_perm _ _ _)
    · exact List.Perm.refl l

theorem adjustHeap_perm (comp : HtmlFile → HtmlFile → Bool) (first holeIndex len : Nat)
    (l : List HtmlFile) : (adjustHeap comp first holeIndex len l).Perm l := by
  unfold adjustHeap
  simp only
  split_ifs
  · exact ((pushHeap_perm comp first holeIndex _ _ _).trans (iterSwap_perm _ _ _)).trans
      (adjustDown_perm comp first len _ _ _)
  · exact (pushHeap_perm comp first holeIndex _ _ _).trans (adjustDown_perm comp first len _ _ _)

theorem popHeap_perm (comp : HtmlFile → HtmlFile → Bool) (first last result : Nat)
    (l : List HtmlFile) : (popHeap comp first last result l).Perm l := by
  unfold popHeap
  exact (adjustHeap_perm comp first 0 _ _).trans (iterSwap_perm _ _ _)

theorem makeHeapLoop_perm (comp : HtmlFile → HtmlFile → Bool) (first len : Nat) :
    ∀ (parent : Nat) (l : List HtmlFile), (makeHeapLoop comp first len parent l).Perm l
  | 0, l => by
    unfold makeHeapLoop
    exact adjustHeap_perm comp first 0 len l
  | parent + 1, l => by
    unfold makeHeapLoop
    exact (makeHeapLoop_perm comp first len parent _).trans (adjustHeap_perm comp first _ len l)

theorem makeHeap_perm (comp : HtmlFile → HtmlFile → Bool) (first last : Nat)
    (l : List HtmlFile) : (makeHeap comp first last l).Perm l := by
  unfold makeHeap
  split_ifs
  · exact List.Perm.refl l
  · exact makeHeapLoop_perm comp first _ _ l

theorem heapSelectLoop_perm (comp : HtmlFile → HtmlFile → Bool) (first middle : Nat) :
    ∀ (count i : Nat) (l : List HtmlFile), (heapSelectLoop comp first middle count i l).Perm l
  | 0, _, l => List.Perm.refl l
  | count + 1, i, l => by
    unfold heapSelectLoop
    refine (heapSelectLoop_perm comp first middle count (i + 1) _).trans ?_
    split_ifs
    · exact popHeap_perm comp first middle i l
    · exact List.Perm.refl l

theorem sortHeapLoop_perm (comp : HtmlFile → HtmlFile → Bool) (first : Nat) :
    ∀ (n : Nat) (l : List HtmlFile), (sortHeapLoop comp first n l).Perm l
  | 0, l => List.Perm.refl l
  | n + 1, l => by
    unfold sortHeapLoop
    split_ifs
    · exact (sortHeapLoop_perm comp first n _).trans (popHeap_perm comp first _ _ l)
    · exact List.Perm.refl l

theorem partialSort_perm (comp : HtmlFile → HtmlFile → Bool) (first middle last : Nat)
    (l : List HtmlFile) : (partialSort comp first middle last l).Perm l := by
  unfold partialSort
  exact ((sortHeapLoop_perm comp first _ _).trans
    (heapSelectLoop_perm comp first middle _ _ _)).trans (makeHeap_perm comp first middle l)

theorem unguardedLinearInsert_perm (comp : HtmlFile → HtmlFile → Bool) :
    ∀ (last : Nat) (l : List HtmlFile), (unguardedLinearInsert comp last l).Perm l
  | 0, l => List.Perm.refl l
  | next + 1, l => by
    unfold unguardedLinearInsert
    split_ifs
    · exact (unguardedLinearInsert_perm comp next _).trans (iterSwap_perm _ _ _)
    · exact List.Perm.refl l

theorem moveToFirst_perm (first : Nat) :
    ∀ (i : Nat) (l : List HtmlFile), (moveToFirst first i l).Perm l
  | 0, l => List.Perm.refl l
  | i + 1, l => by
    unfold moveToFirst
    split_ifs
    · exact (moveToFirst_perm first i _).trans (iterSwap_perm _ _ _)
    · exact List.Perm.refl l

theorem insertionLoop_perm (comp : HtmlFile → HtmlFile → Bool) (first : Nat) :
    ∀ (count i : Nat) (l : List HtmlFile), (insertionLoop comp first count i l).Perm l
  | 0, _, l => List.Perm.refl l
  | count + 1, i, l => by
    unfold insertionLoop
    refine (insertionLoop_perm comp first count (i + 1) _).trans ?_
    split_ifs
    · exact moveToFirst_perm first i l
    · exact unguardedLinearInsert_perm comp i l

theorem insertionSortRange_perm (comp : HtmlFile → HtmlFile → Bool) (first last : Nat)
    (l : List HtmlFile) : (insertionSortRange comp first last l).Perm l := by
  unfold insertionSortRange
  split_ifs
  · exact List.Perm.refl l
  · exact insertionLoop_perm comp first _ _ l

theorem unguardedInsertionLoop_perm (comp : HtmlFile → HtmlFile → Bool) :
    ∀ (count i : Nat) (l : List HtmlFile), (unguardedInsertionLoop comp count i l).Perm l
  | 0, _, l => List.Perm.refl l
  | count + 1, i, l => by
    unfold unguardedInsertionLoop
    exact (unguardedInsertionLoop_perm comp count (i + 1) _).trans
      (unguardedLinearInsert_perm comp i l)

theorem finalInsertionSort_perm (comp : HtmlFile → HtmlFile → Bool) (first last : Nat)
    (l : List HtmlFile) : (finalInsertionSort comp first last l).Perm l := by
  unfold finalInsertionSort
  split_ifs
  · exact (unguardedInsertionLoop_perm comp _ _ _).trans (insertionSortRange_perm comp _ _ l)
  · exact insertionSortRange_perm comp first last l

theorem introsortLoop_perm (comp : HtmlFile → HtmlFile → Bool) :
    ∀ (depth_limit first last : Nat) (l : List HtmlFile),
      (introsortLoop comp depth_limit first last l).Perm l
  | 0, first, last, l => by
    unfold introsortLoop
    split_ifs
    · exact partialSort_perm comp first last last l
    · exact List.Perm.refl l
  | depth_limit + 1, first, last, l => by
    unfold introsortLoop
    simp only
    split_ifs
    · exact ((introsortLoop_perm comp depth_limit _ _ _).trans
        (introsortLoop_perm comp depth_limit _ _ _)).trans
        (unguardedPartitionPivot_perm comp first last l)
    · exact List.Perm.refl l

/-- The library's sort returns the elements it was given, each as often as it
was given. -/
theorem libstdcxxSort_perm (comp : HtmlFile → HtmlFile → Bool) (l : List HtmlFile) :
    (libstdcxxSort comp l).Perm l := by
  unfold libstdcxxSort
  split_ifs
  · exact List.Perm.refl l
  · exact (finalInsertionSort_perm comp _ _ _).trans (introsortLoop_perm comp _ _ _ l)

/-! ## The library's sort on at most 16 elements is an insertion sort -/

theorem getElem?_append_cons (p : List HtmlFile) (x : HtmlFile) (r : List HtmlFile) :
    (p ++ x :: r)[p.length]? = some x := by
  rw [List.getElem?_append_right (Nat.le_refl _), Nat.sub_self]
  exact List.getElem?_cons_zero

theorem getElem?_append_cons_succ (p : List HtmlFile) (y x : HtmlFile) (r : List HtmlFile) :
    (p ++ y :: x :: r)[p.length + 1]? = some x := by
  have hsub : p.length + 1 - p.length = 1 := by omega
  rw [List.getElem?_append_right (Nat.le_succ _), hsub]
  simp

theorem iterSwap_adjacent (p : List HtmlFile) (y x : HtmlFile) (r : List HtmlFile) :
    iterSwap (p.length + 1) p.length (p ++ y :: x :: r) = p ++ x :: y :: r := by
  have h1 : (p ++ y :: x :: r)[p.length + 1]? = some x := by
    exact getElem?_append_cons_succ p y x r
  have h0 : (p ++ y :: x :: r)[p.length]? = some y := getElem?_append_cons p y (x :: r)
  unfold iterSwap
  rw [h1, h0]
  show ((p ++ y :: x :: r).set (p.length + 1) y).set p.length x = p ++ x :: y :: r
  have hsub : p.length + 1 - p.length = 1 := by omega
  rw [List.set_append_right _ _ (Nat.le_succ _), hsub,
    List.set_append_right _ _ (Nat.le_refl _), Nat.sub_self]
  rfl

theorem compAt_adjacent (comp : HtmlFile → HtmlFile → Bool) (p : List HtmlFile)
    (y x : HtmlFile) (r : List HtmlFile) :
    compAt comp (p ++ y :: x :: r) (p.length + 1) p.length = comp x y := by
  have h1 : (p ++ y :: x :: r)[p.length + 1]? = some x := by
    exact getElem?_append_cons_succ p y x r
  have h0 : (p ++ y :: x :: r)[p.length]? = some y := getElem?_append_cons p y (x :: r)
  unfold compAt
  rw [h1, h0]

/-- The linear insertion moves the element at `last` down over the elements
that are greater than it, and over no other. -/
theorem unguardedLinearInsert_spec (comp : HtmlFile → HtmlFile → Bool) (x : HtmlFile) :
    ∀ (p r : List HtmlFile), ∃ p1 p2, p = p1 ++ p2 ∧
      unguardedLinearInsert comp p.length (p ++ x :: r) = p1 ++ x :: (p2 ++ r) ∧
      (∀ y ∈ p2, comp x y = true) ∧ (p1 = [] ∨ ∃ p0 y, p1 = p0 ++ [y] ∧ comp x y = false) := by
  intro p
  induction p using List.reverseRecOn with
  | nil =>
    intro r
    exact ⟨[], [], rfl, rfl, fun y hy => absurd hy (List.not_mem_nil y), Or.inl rfl⟩
  | append_singleton p y ih =>
    intro r
    have hlen : (p ++ [y]).length = p.length + 1 := by simp
    have hl : p ++ [y] ++ x :: r = p ++ y :: x :: r := by simp
    rw [hlen, hl]
    unfold unguardedLinearInsert
    rw [compAt_adjacent]
    by_cases hc : comp x y = true
    · rw [if_pos hc, iterSwap_adjacent]
      obtain ⟨p1, p2, hp, hres, hgt, hstop⟩ := ih (y :: r)
      refine ⟨p1, p2 ++ [y], by rw [hp, List.append_assoc], ?_, ?_, hstop⟩
      · rw [hres]; simp
      · intro z hz
        rcases List.mem_append.mp hz with hz | hz
        · exact hgt z hz
        · rw [List.mem_singleton.mp hz]; exact hc
    · rw [if_neg hc]
      refine ⟨p ++ [y], [], by simp, by simp, fun z hz => absurd hz (List.not_mem_nil z),
        Or.inr ⟨p, y, rfl, by simpa using hc⟩⟩

/-- The branch of the insertion sort for an element smaller than the first one
puts it in front of all the elements before it. -/
theorem moveToFirst_spec (x : HtmlFile) :
    ∀ (p r : List HtmlFile), moveToFirst 0 p.length (p ++ x :: r) = x :: (p ++ r) := by
  intro p
  induction p using List.reverseRecOn with
  | nil => intro r; rfl
  | append_singleton p y ih =>
    intro r
    have hlen : (p ++ [y]).length = p.length + 1 := by simp
    have hl : p ++ [y] ++ x :: r = p ++ y :: x :: r := by simp
    rw [hlen, hl]
    unfold moveToFirst
    rw [if_pos (Nat.succ_pos _), iterSwap_adjacent, ih (y :: r)]
    simp

theorem withTitle_append (t : Str) (a b : List HtmlFile) :
    withTitle t (a ++ b) = withTitle t a ++ withTitle t b := by
  unfold withTitle
  exact List.filter_append a b

theorem withTitle_cons (t : Str) (x : HtmlFile) (a : List HtmlFile) :
    withTitle t (x :: a) = withTitle t [x] ++ withTitle t a :=
  withTitle_append t [x] a

theorem withTitle_eq_nil (t : Str) (a : List HtmlFile) (h : ∀ y ∈ a, y.title ≠ t) :
    withTitle t a = [] := by
  unfold withTitle
  rw [List.filter_eq_nil_iff]
  intro y hy
  simpa using h y hy

/-- An element that moves down over elements with other titles only leaves
the order of the entries of every title as it was. -/
theorem withTitle_move (t : Str) (x : HtmlFile) (p1 p2 r : List HtmlFile)
    (h : ∀ y ∈ p2, y.title ≠ x.title) :
    withTitle t (p1 ++ x :: (p2 ++ r)) = withTitle t ((p1 ++ p2) ++ x :: r) := by
  rw [withTitle_append, withTitle_cons, withTitle_append, withTitle_append, withTitle_append,
    withTitle_cons t x r]
  by_cases hx : x.title = t
  · rw [withTitle_eq_nil t p2 (fun y hy => hx ▸ h y hy)]
    simp
  · have hnil : withTitle t [x] = [] :=
      withTitle_eq_nil t [x] (fun y hy => by rw [List.mem_singleton.mp hy]; exact hx)
    rw [hnil]
    simp

theorem titleLess_ne (a b : HtmlFile) (h : titleLess a b = true) : b.title ≠ a.title := by
  intro he
  unfold titleLess at h
  rw [he, strLess_irrefl] at h
  exact absurd h (by simp)

/-- The loop of the insertion sort, started behind a range whose first element
is a smallest one, leaves the order of the entries of every title as it was. -/
theorem insertionLoop_withTitle (t : Str) :
    ∀ (count : Nat) (p0 : HtmlFile) (p q : List HtmlFile), q.length = count →
      (∀ y ∈ p0 :: p, titleLess y p0 = false) →
      withTitle t (insertionLoop titleLess 0 count (p0 :: p).length ((p0 :: p) ++ q))
        = withTitle t ((p0 :: p) ++ q)
  | 0, _, _, _, _, _ => rfl
  | count + 1, p0, p, [], hq, _ => by simp at hq
  | count + 1, p0, p, x :: q, hq, hmin => by
    have hq2 : q.length = count := by simpa using hq
    have hcomp : compAt titleLess ((p0 :: p) ++ x :: q) (p0 :: p).length 0 = titleLess x p0 := by
      have h0 : ((p0 :: p) ++ x :: q)[0]? = some p0 := by simp
      unfold compAt
      rw [getElem?_append_cons, h0]
    unfold insertionLoop
    rw [hcomp]
    by_cases hc : titleLess x p0 = true
    · rw [if_pos hc, moveToFirst_spec]
      have hmin2 : ∀ y ∈ x :: p0 :: p, titleLess y x = false := by
        intro y hy
        rcases List.mem_cons.mp hy with hy | hy
        · rw [hy]; exact strLess_irrefl _
        · cases hyx : titleLess y x with
          | false => rfl
          | true =>
            have := strLess_trans _ _ _ hyx hc
            have h2 := hmin y hy
            unfold titleLess at h2
            rw [this] at h2
            exact absurd h2 (by simp)
      have ih := insertionLoop_withTitle t count x (p0 :: p) q hq2 hmin2
      have hlen : (x :: p0 :: p).length = (p0 :: p).length + 1 := rfl
      rw [hlen] at ih
      have hl : x :: (p0 :: p ++ q) = (x :: p0 :: p) ++ q := rfl
      rw [hl, ih]
      have hmove := withTitle_move t x [] (p0 :: p) q (fun y hy => by
        intro he
        have h2 := hmin y hy
        unfold titleLess at h2 hc
        rw [he, hc] at h2
        exact absurd h2 (by simp))
      exact hmove
    · rw [if_neg hc]
      obtain ⟨p1, p2, hp, hres, hgt, _⟩ := unguardedLinearInsert_spec titleLess x (p0 :: p) q
      rw [hres]
      have hcf : titleLess x p0 = false := by simpa using hc
      cases p1 with
      | nil =>
        have hmem : p0 ∈ p2 := by
          rw [List.nil_append] at hp
          rw [← hp]
          exact List.mem_cons_self _ _
        rw [hgt p0 hmem] at hcf
        exact absurd hcf (by simp)
      | cons a p1 =>
        have ha : a = p0 := by
          have := congrArg List.head? hp
          simpa using this.symm
        subst ha
        have hmin2 : ∀ y ∈ a :: (p1 ++ x :: p2), titleLess y a = false := by
          intro y hy
          rcases List.mem_cons.mp hy with hy | hy
          · rw [hy]; exact strLess_irrefl _
          · rcases List.mem_append.mp hy with hy | hy
            · exact hmin y (by rw [hp]; simp [hy])
            · rcases List.mem_cons.mp hy with hy | hy
              · rw [hy]; exact hcf
              · exact hmin y (by rw [hp]; simp [hy])
        have ih := insertionLoop_withTitle t count a (p1 ++ x :: p2) q hq2 hmin2
        have hlen : (a :: (p1 ++ x :: p2)).length = (a :: p).length + 1 := by
          have := congrArg List.length hp
          simp at this ⊢
          omega
        rw [hlen] at ih
        have hl : a :: p1 ++ x :: (p2 ++ q) = (a :: (p1 ++ x :: p2)) ++ q := by simp
        rw [hl, ih, ← hl, hp]
        exact withTitle_move t x (a :: p1) p2 q (fun y hy => titleLess_ne x y (hgt y hy))

theorem introsortLoop_small (comp : HtmlFile → HtmlFile → Bool) (depth_limit first last : Nat)
    (l : List HtmlFile) (h : last - first ≤ S_threshold) :
    introsortLoop comp depth_limit first last l = l := by
  cases depth_limit with
  | zero =>
    unfold introsortLoop
    rw [if_neg (by omega)]
  | succ d =>
    unfold introsortLoop
    simp only
    rw [if_neg (by omega)]

/-- On at most 16 entries the library's sort keeps the entries of every title
in the order in which they were given. -/
theorem libstdcxxSort_withTitle_small (t : Str) (l : List HtmlFile) (h : l.length ≤ 16) :
    withTitle t (libstdcxxSort titleLess l) = withTitle t l := by
  unfold libstdcxxSort
  by_cases h0 : l.length = 0
  · rw [if_pos h0]
  · rw [if_neg h0, introsortLoop_small titleLess _ 0 l.length l (by unfold S_threshold; omega)]
    unfold finalInsertionSort
    rw [if_neg (by unfold S_threshold; omega)]
    unfold insertionSortRange
    rw [if_neg (by omega)]
    cases l with
    | nil => exact absurd rfl h0
    | cons a q =>
      have hmin : ∀ y ∈ a :: ([] : List HtmlFile), titleLess y a = false := by
        intro y hy
        rw [List.mem_singleton.mp hy]
        exact strLess_irrefl _
      have := insertionLoop_withTitle t q.length a [] q rfl hmin
      simpa using this

/-! ## C4: the order of entries with equal titles -/

set_option maxRecDepth 100000 in
/-- C4, refuted as stated: the directory lists 17 documents `a.html` to
`q.html`, all with the title `T`, and the vector sorted by libstdc++ holds
them in the order i, q, p, o, n, m, l, k, j, a, h, g, f, e, d, c, b. With 17
elements `__introsort_loop` partitions once: no comparison is true, so
`__move_median_to_first` swaps the positions 0 and 8, and
`__unguarded_partition` stops both scans at once in every round and swaps the
positions 1 and 16, 2 and 15, up to 8 and 9; the insertion sorts that follow
move nothing. -/
theorem C4_seventeen_equal_titles_reordered :
    ∃ collected files, collectFiles seventeenSameTitleDir [] = .ok collected ∧
      sortedFiles libstdcxxSort seventeenSameTitleDir = .ok files ∧
      collected = ["a", "b", "c", "d", "e", "f", "g", "h", "i", "j", "k", "l", "m", "n", "o",
        "p", "q"].map sameTitleFile ∧
      files = ["i", "q", "p", "o", "n", "m", "l", "k", "j", "a", "h", "g", "f", "e", "d", "c",
        "b"].map sameTitleFile ∧
      withTitle "T".toList files ≠ withTitle "T".toList collected :=
  ⟨["a", "b", "c", "d", "e", "f", "g", "h", "i", "j", "k", "l", "m", "n", "o", "p", "q"].map
      sameTitleFile,
    ["i", "q", "p", "o", "n", "m", "l", "k", "j", "a", "h", "g", "f", "e", "d", "c", "b"].map
      sameTitleFile,
    by rfl, by rfl, rfl, rfl, by decide⟩

/-- C4, amended: with the `std::sort` of libstdc++ the entries that carry a
given title `t` are, in the sorted vector, the same entries as in the
enumeration order, none lost or repeated; when at most 16 entries are
cataloged they also stand in the same relative order as in the enumeration
order. -/
theorem C4_equal_titles_order (entries : List DirEntry) :
    ∃ collected files, collectFiles entries [] = .ok collected ∧
      sortedFiles libstdcxxSort entries = .ok files ∧
      (∀ t : Str, (withTitle t files).Perm (withTitle t collected)) ∧
      (collected.length ≤ 16 → ∀ t : Str, withTitle t files = withTitle t collected) := by
  obtain ⟨collected, hcol, _⟩ := collectFiles_spec entries []
  rw [List.nil_append] at hcol
  refine ⟨collected, libstdcxxSort titleLess collected, hcol, ?_, ?_, ?_⟩
  · unfold sortedFiles
    rw [hcol]
  · intro t
    exact (libstdcxxSort_perm titleLess collected).filter _
  · intro hlen t
    exact libstdcxxSort_withTitle_small t collected hlen

/-- The amended C4 on the directory with two equal titles: `a.html` stays
before `b.html`. -/
theorem C4_equal_titles_order_witness :
    ∃ collected files, collectFiles sameTitleDir [] = .ok collected ∧
      sortedFiles libstdcxxSort sameTitleDir = .ok files ∧
      collected.length ≤ 16 ∧
      (∀ t : Str, (withTitle t files).Perm (withTitle t collected)) ∧
      ∀ t : Str, withTitle t files = withTitle t collected := by
  obtain ⟨collected, files, hcol, hfiles, hperm, hsame⟩ := C4_equal_titles_order sameTitleDir
  have hval : collectFiles sameTitleDir [] = .ok
      [ { filename := "a.html".toList, title := "T".toList, description := "first".toList },
        { filename := "b.html".toList, title := "T".toList,
          description := "second".toList } ] := by rfl
  have hlen : collected.length ≤ 16 := by
    rw [hval] at hcol
    injection hcol with hcol
    rw [← hcol]
    decide
  exact ⟨collected, files, hcol, hfiles, hlen, hperm, hsame hlen⟩

/-! ## C5: which directory entries are rendered -/

theorem forall₂_map_eq {α β γ : Type} (R : α → β → Prop) (f : α → γ) (g : β → γ)
    (hR : ∀ a b, R a b → g b = f a) (l1 : List α) (l2 : List β)
    (h : List.Forall₂ R l1 l2) : l2.map g = l1.map f := by
  induction h with
  | nil => rfl
  | cons hr _ ih =>
    simp only [List.map_cons, ih, hR _ _ hr]

/-- C5: the file names of the vector that `generateIndex` renders are a
rearrangement of the names of the directory entries that are regular files,
have the extension `.html` and are not named `index.html`, one name per such
entry (so no name is repeated when no two directory entries share a name). No
rendered entry is named `index.html`, and each one is the name of a regular
file with the extension `.html`. -/
theorem C5_cataloged_file_names
    (sort : (HtmlFile → HtmlFile → Bool) → List HtmlFile → List HtmlFile)
    (hsort : StdSortContract sort) (entries : List DirEntry) :
    ∃ files, sortedFiles sort entries = .ok files ∧
      (files.map (fun f => f.filename)).Perm
        ((entries.filter (fun e => e.is_regular_file
            && pathExtension e.path == ".html".toList
            && pathFilename e.path != "index.html".toList)).map
          (fun e => pathFilename e.path)) ∧
      ((entries.map (fun e => pathFilename e.path)).Nodup →
        (files.map (fun f => f.filename)).Nodup) ∧
      ∀ f ∈ files, f.filename ≠ "index.html".toList ∧
        ∃ e ∈ entries, pathFilename e.path = f.filename ∧ e.is_regular_file = true ∧
          pathExtension e.path = ".html".toList := by
  obtain ⟨collected, _, hall, hfiles, hperm, _⟩ := sortedFiles_spec sort hsort entries
  have hnames : collected.map (fun f => f.filename)
      = (entries.filter isCataloged).map (fun e => pathFilename e.path) :=
    forall₂_map_eq Catalogs _ _ (fun a b h => h.1) _ _ hall
  have hp : ((sort titleLess collected).map (fun f => f.filename)).Perm
      ((entries.filter isCataloged).map (fun e => pathFilename e.path)) := by
    rw [← hnames]
    exact hperm.map _
  refine ⟨_, hfiles, hp, ?_, ?_⟩
  · intro hnd
    refine hp.nodup_iff.mpr ?_
    exact (List.Sublist.map _ (List.filter_sublist _)).nodup hnd
  · intro f hf
    have hf2 : f ∈ collected := hperm.mem_iff.mp hf
    obtain ⟨e, he, hname, _⟩ := forall₂_exists_left Catalogs _ _ hall f hf2
    obtain ⟨hmem, hcat⟩ := List.mem_filter.mp he
    obtain ⟨hreg, hext, hidx⟩ := (isCataloged_iff e).mp hcat
    refine ⟨?_, e, hmem, hname.symm, hreg, hext⟩
    rw [hname]
    exact hidx

/-- C5 on the example directory, sorted by insertion sort. -/
theorem C5_cataloged_file_names_witness :
    ∃ files, sortedFiles insertionSort exampleDir = .ok files ∧
      (files.map (fun f => f.filename)).Perm
        ((exampleDir.filter (fun e => e.is_regular_file
            && pathExtension e.path == ".html".toList
            && pathFilename e.path != "index.html".toList)).map
          (fun e => pathFilename e.path)) ∧
      ((exampleDir.map (fun e => pathFilename e.path)).Nodup →
        (files.map (fun f => f.filename)).Nodup) ∧
      ∀ f ∈ files, f.filename ≠ "index.html".toList ∧
        ∃ e ∈ exampleDir, pathFilename e.path = f.filename ∧ e.is_regular_file = true ∧
          pathExtension e.path = ".html".toList :=
  C5_cataloged_file_names insertionSort insertionSort_contract exampleDir

/-! ## C6: the example of the specification -/

/-- C6: for `a.html` with the content
`<h1>Hello &nbsp; <b>World</b></h1><p>Some <i>text</i> here.</p>` the function
returns the title `Hello World` and the description `Some text here.`. -/
theorem C6_hello_world :
    extractTitleAndDescription (some helloWorld) "a.html".toList
      = .ok ("Hello World".toList, "Some text here.".toList) := by
  rfl

/-! ## C7: no heading, no paragraph -/

theorem findFrom_occurs (pat : Str) : ∀ (s : Str) (i k : Nat),
    findFrom pat s i = k → k ≠ npos → pat.isPrefixOf (s.drop (k - i)) = true
  | [], i, k, h, hk => by
    unfold findFrom at h
    split at h
    · rename_i hp
      subst h
      simpa using hp
    · exact absurd h.symm hk
  | c :: cs, i, k, h, hk => by
    unfold findFrom at h
    split at h
    · rename_i hp
      subst h
      simpa using hp
    · have hb := findFrom_bounds pat cs (i + 1) k h hk
      have ih := findFrom_occurs pat cs (i + 1) k h hk
      have : k - i = (k - (i + 1)) + 1 := by omega
      rw [this, List.drop_succ_cons]
      exact ih

theorem find_occurs (s pat : Str) (pos k : Nat) (h : find s pat pos = k) (hk : k ≠ npos) :
    occursAt s pat k = true := by
  have hb := find_bounds s pat pos k h hk
  unfold find at h
  split at h
  · exact absurd h.symm hk
  · have := findFrom_occurs pat (s.drop pos) pos k h hk
    rw [List.drop_drop] at this
    unfold occursAt
    have e : pos + (k - pos) = k := by omega
    rw [e] at this
    exact this

/-- C7: when the content has no `<h1` at all, or its first `<h1` (at index `h`)
has no `</h1>` at or after it, the function returns the base name of the path
as title and the placeholder as description, whatever paragraphs the content
holds. -/
theorem C7_no_heading_gives_fallbacks (content filepath : Str)
    (hno : (∀ i, i < content.length → occursAt content "<h1".toList i = false) ∨
      ∃ h, occursAt content "<h1".toList h = true ∧
        (∀ i, i < h → occursAt content "<h1".toList i = false) ∧
        ∀ j, h ≤ j → j < content.length → occursAt content "</h1>".toList j = false) :
    extractTitleAndDescription (some content) filepath
      = .ok (pathStem filepath, DESCRIPTION_UNAVAILABLE) := by
  have hstep : ∀ st : ScanState,
      (st.found_h1 = false ∧ st.title = [] ∧ st.description = []) →
      st.pos < content.length →
      ∃ r, scanStep content st = .ok r ∧
        (match r with
          | .next st1 => st.pos < st1.pos ∧
              (st1.found_h1 = false ∧ st1.title = [] ∧ st1.description = [])
          | .brk st1 => st1.found_h1 = false ∧ st1.title = [] ∧ st1.description = []) := by
    intro st hP _
    obtain ⟨hf, ht, hd⟩ := hP
    have hnext : scanStep content st = .ok (.next { st with pos := st.pos + 1 }) := by
      unfold scanStep
      simp only [hf, Bool.not_false, if_true]
      by_cases hp : find content "<h1".toList st.pos ≠ npos
      · rw [if_pos hp]
        have hocc := find_occurs content "<h1".toList st.pos _ rfl hp
        have hb := find_bounds content "<h1".toList st.pos _ rfl hp
        have hl3 : ("<h1".toList).length = 3 := rfl
        rw [hl3] at hb
        by_cases hq : find content "</h1>".toList (find content "<h1".toList st.pos) ≠ npos
        · exfalso
          have hocc2 := find_occurs content "</h1>".toList _ _ rfl hq
          have hb2 := find_bounds content "</h1>".toList _ _ rfl hq
          have hl5 : ("</h1>".toList).length = 5 := rfl
          rw [hl5] at hb2
          rcases hno with hno | ⟨h, _, hfirst, hclose⟩
          · rw [hno _ (by omega)] at hocc
            exact absurd hocc (by simp)
          · have hge : h ≤ find content "<h1".toList st.pos := by
              by_contra hlt
              rw [hfirst _ (by omega)] at hocc
              exact absurd hocc (by simp)
            rw [hclose _ (by omega) (by omega)] at hocc2
            exact absurd hocc2 (by simp)
        · rw [if_neg hq]
      · rw [if_neg hp]
    refine ⟨_, hnext, ?_⟩
    exact ⟨Nat.lt_succ_self _, hf, ht, hd⟩
  obtain ⟨st, hst, hf, ht, hd⟩ := scanLoop_invariant content
    (fun st => st.found_h1 = false ∧ st.title = [] ∧ st.description = []) hstep
    content.length { pos := 0, found_h1 := false, title := [], description := [] }
    ⟨rfl, rfl, rfl⟩ (by simp)
  unfold extractTitleAndDescription
  simp only [hst, ht, hd, List.isEmpty_nil, if_true]

/-- C7 on `b.html` with two paragraphs and no heading: the title is `b`. -/
theorem C7_no_heading_gives_fallbacks_witness :
    extractTitleAndDescription (some "<p>One</p><p>Two</p>".toList) "docs/b.html".toList
      = .ok (pathStem "docs/b.html".toList, DESCRIPTION_UNAVAILABLE) ∧
    pathStem "docs/b.html".toList = "b".toList :=
  ⟨C7_no_heading_gives_fallbacks "<p>One</p><p>Two</p>".toList "docs/b.html".toList
    (Or.inl (by decide)), by rfl⟩

/-! ## C8: an open tag without `>` before the close tag -/

/-- C8, evaluated where the code departs from it: in `<h1 </h1>abc` the first
`<h1` is at 0, the first `</h1>` at 4 and the first `>` at 8, after the close
tag; the function returns the title `abc`, the text after the `</h1>`, and not
the base name `a` of the path. -/
theorem C8_text_after_close_tag_becomes_title :
    find "<h1 </h1>abc".toList "<h1".toList 0 = 0 ∧
    find "<h1 </h1>abc".toList "</h1>".toList 0 = 4 ∧
    find "<h1 </h1>abc".toList ['>'] 0 = 8 ∧
    extractTitleAndDescription (some "<h1 </h1>abc".toList) "a.html".toList
      = .ok ("abc".toList, DESCRIPTION_UNAVAILABLE) ∧
    pathStem "a.html".toList = "a".toList := by
  refine ⟨by rfl, by rfl, by rfl, by rfl, by rfl⟩

/-! ## C9: the first heading and the first paragraph after it -/

/-- C9, evaluated where the code departs from it: the content
`<h1 </h1>x</h1><p>y</p>` has the form of the claim with `a = " </h1"`,
`T = "x"`, `D = "y"` and the other parts empty; `a` holds no `>` and `T` no
`</h1>`, `cleanContent T` is `x`, and the function returns the title `xy`. -/
theorem C9_title_runs_past_close_tag :
    "<h1 </h1>x</h1><p>y</p>".toList
      = [] ++ "<h1".toList ++ " </h1".toList ++ ['>'] ++ "x".toList ++ "</h1>".toList ++ []
        ++ "<p".toList ++ [] ++ ['>'] ++ "y".toList ++ "</p>".toList ++ [] ∧
    (" </h1".toList).contains '>' = false ∧
    (∀ i, i < ("x".toList).length → occursAt "x".toList "</h1>".toList i = false) ∧
    cleanContent "x".toList = .ok "x".toList ∧
    cleanContent "y".toList = .ok "y".toList ∧
    extractTitleAndDescription (some "<h1 </h1>x</h1><p>y</p>".toList) "a.html".toList
      = .ok ("xy".toList, "y".toList) := by
  refine ⟨by rfl, by rfl, by decide, by rfl, by rfl, by rfl⟩

/-! ## C10: one entry block per entry -/

theorem writeEntries_eq : ∀ (files : List HtmlFile) (out : Str),
    writeEntries files out = out ++ (files.map entryBlock).flatten
  | [], out => by simp [writeEntries]
  | file :: rest, out => by
    unfold writeEntries
    rw [writeEntries_eq rest]
    simp only [List.map_cons, List.flatten_cons, entryBlock, List.append_assoc]

/-- C10: when the output file can be created, the document that
`generateIndex` writes is the page head, then the entry blocks of the sorted
vector, one block per entry and in the order of the vector, each built from the
file name, the title and the description of its entry, then the footer with the
date. There are as many blocks as cataloged directory entries; when no
directory entry has the extension `.html` the document is the page head
followed directly by the footer. -/
theorem C10_one_block_per_entry
    (sort : (HtmlFile → HtmlFile → Bool) → List HtmlFile → List HtmlFile)
    (hsort : StdSortContract sort) (entries : List DirEntry) (ltm : Tm) :
    ∃ files, sortedFiles sort entries = .ok files ∧
      generateIndex sort entries true ltm = .ok (some
        (PAGE_HEAD ++ (files.map entryBlock).flatten
          ++ PAGE_FOOT_OPEN ++ getCurrentDate ltm ++ PAGE_FOOT_CLOSE)) ∧
      (files.map entryBlock).length = (entries.filter isCataloged).length ∧
      ((∀ e ∈ entries, pathExtension e.path ≠ ".html".toList) →
        files = [] ∧
        generateIndex sort entries true ltm = .ok (some
          (PAGE_HEAD ++ PAGE_FOOT_OPEN ++ getCurrentDate ltm ++ PAGE_FOOT_CLOSE))) := by
  obtain ⟨collected, _, hall, hfiles, hperm, _⟩ := sortedFiles_spec sort hsort entries
  have hgen : generateIndex sort entries true ltm = .ok (some
      (PAGE_HEAD ++ ((sort titleLess collected).map entryBlock).flatten
        ++ PAGE_FOOT_OPEN ++ getCurrentDate ltm ++ PAGE_FOOT_CLOSE)) := by
    unfold generateIndex
    rw [hfiles]
    simp only [Bool.not_true, Bool.false_eq_true, if_false, writeEntries_eq]
  have hlen : (sort titleLess collected).length = (entries.filter isCataloged).length := by
    rw [hperm.length_eq]
    exact hall.length_eq.symm
  refine ⟨_, hfiles, hgen, ?_, ?_⟩
  · rw [List.length_map]
    exact hlen
  · intro hnone
    have hfilter : entries.filter isCataloged = [] := by
      rw [List.filter_eq_nil_iff]
      intro e he hcat
      exact hnone e he ((isCataloged_iff e).mp hcat).2.1
    have hnil : sort titleLess collected = [] := by
      rw [hfilter] at hlen
      exact List.length_eq_zero.mp hlen
    refine ⟨hnil, ?_⟩
    rw [hgen, hnil]
    simp

/-- C10 on the example directory, which has three cataloged files and so three
blocks, and on a directory without HTML documents, which has none. -/
theorem C10_one_block_per_entry_witness :
    ((exampleDir.filter isCataloged).length = 3 ∧
      ∃ files, sortedFiles insertionSort exampleDir = .ok files ∧
        generateIndex insertionSort exampleDir true exampleTime = .ok (some
          (PAGE_HEAD ++ (files.map entryBlock).flatten
            ++ PAGE_FOOT_OPEN ++ getCurrentDate exampleTime ++ PAGE_FOOT_CLOSE)) ∧
        (files.map entryBlock).length = (exampleDir.filter isCataloged).length ∧
        ((∀ e ∈ exampleDir, pathExtension e.path ≠ ".html".toList) →
          files = [] ∧
          generateIndex insertionSort exampleDir true exampleTime = .ok (some
            (PAGE_HEAD ++ PAGE_FOOT_OPEN ++ getCurrentDate exampleTime ++ PAGE_FOOT_CLOSE)))) ∧
    ((∀ e ∈ noHtmlDir, pathExtension e.path ≠ ".html".toList) ∧
      ∃ files, sortedFiles insertionSort noHtmlDir = .ok files ∧
        generateIndex insertionSort noHtmlDir true exampleTime = .ok (some
          (PAGE_HEAD ++ (files.map entryBlock).flatten
            ++ PAGE_FOOT_OPEN ++ getCurrentDate exampleTime ++ PAGE_FOOT_CLOSE)) ∧
        (files.map entryBlock).length = (noHtmlDir.filter isCataloged).length ∧
        ((∀ e ∈ noHtmlDir, pathExtension e.path ≠ ".html".toList) →
          files = [] ∧
          generateIndex insertionSort noHtmlDir true exampleTime = .ok (some
            (PAGE_HEAD ++ PAGE_FOOT_OPEN ++ getCurrentDate exampleTime ++ PAGE_FOOT_CLOSE)))) :=
  ⟨⟨by rfl,
      C10_one_block_per_entry insertionSort insertionSort_contract exampleDir exampleTime⟩,
    ⟨by decide,
      C10_one_block_per_entry insertionSort insertionSort_contract noHtmlDir exampleTime⟩⟩

/-! ## Occurrences of a pattern in a concatenation -/

theorem occursAt_getElem? (s pat : Str) (i : Nat) (h : occursAt s pat i = true) :
    ∀ k, k < pat.length → s[i + k]? = pat[k]? := by
  intro k hk
  unfold occursAt at h
  obtain ⟨t, ht⟩ := List.isPrefixOf_iff_prefix.mp h
  rw [← List.getElem?_drop, ← ht, List.getElem?_append_left hk]

theorem occursAt_append_left (X Y pat : Str) (i : Nat) (h : i + pat.length ≤ X.length) :
    occursAt (X ++ Y) pat i = occursAt X pat i := by
  unfold occursAt
  rw [List.drop_append_of_le_length (by omega)]
  rw [Bool.eq_iff_iff, List.isPrefixOf_iff_prefix, List.isPrefixOf_iff_prefix]
  constructor
  · intro hp
    exact List.prefix_of_prefix_length_le hp (List.prefix_append _ _)
      (by rw [List.length_drop]; omega)
  · intro hp
    exact hp.trans (List.prefix_append _ _)

theorem occursAt_append_right (X Y pat : Str) (j : Nat) :
    occursAt (X ++ Y) pat (X.length + j) = occursAt Y pat j := by
  unfold occursAt
  rw [List.drop_append]

theorem occursAt_self_append (pat Y : Str) : occursAt (pat ++ Y) pat 0 = true := by
  unfold occursAt
  rw [List.drop_zero, List.isPrefixOf_iff_prefix]
  exact List.prefix_append _ _

theorem occursAt_singleton_mem (X : Str) (c : Char) (i : Nat)
    (h : occursAt X [c] i = true) : c ∈ X := by
  have := occursAt_getElem? X [c] i h 0 (by simp)
  simp only [Nat.add_zero, List.getElem?_cons_zero] at this
  exact List.getElem?_mem this

/-- A pattern whose first character occurs nowhere else in it cannot start in
`X` and run into a text that starts with that character. -/
theorem not_occursAt_across_first (X Y pat rest Yrest : Str) (c : Char)
    (hpat : pat = c :: rest) (hc : c ∉ rest) (hY : Y = c :: Yrest)
    (hX : ∀ i, i < X.length → occursAt X pat i = false) :
    ∀ i, i < X.length → occursAt (X ++ Y) pat i = false := by
  intro i hi
  by_cases hfit : i + pat.length ≤ X.length
  · rw [occursAt_append_left X Y pat i hfit]
    exact hX i hi
  · cases hocc : occursAt (X ++ Y) pat i with
    | false => rfl
    | true =>
      exfalso
      have hk : X.length - i < pat.length := by omega
      have h1 := occursAt_getElem? (X ++ Y) pat i hocc (X.length - i) hk
      have e : i + (X.length - i) = X.length := by omega
      rw [e, List.getElem?_append_right (le_refl _), Nat.sub_self, hY,
        List.getElem?_cons_zero, hpat] at h1
      obtain ⟨m, hm⟩ : ∃ m, X.length - i = m + 1 := ⟨X.length - i - 1, by omega⟩
      rw [hm, List.getElem?_cons_succ] at h1
      exact hc (List.getElem?_mem h1.symm)

/-- A pattern whose last character occurs nowhere else in it cannot start in a
text `X` that ends with that character and run beyond it. -/
theorem not_occursAt_across_last (X Y pat front Xfront : Str) (d : Char)
    (hpat : pat = front ++ [d]) (hd : d ∉ front) (hXd : X = Xfront ++ [d])
    (hX : ∀ i, i < X.length → occursAt X pat i = false) :
    ∀ i, i < X.length → occursAt (X ++ Y) pat i = false := by
  intro i hi
  by_cases hfit : i + pat.length ≤ X.length
  · rw [occursAt_append_left X Y pat i hfit]
    exact hX i hi
  · cases hocc : occursAt (X ++ Y) pat i with
    | false => rfl
    | true =>
      exfalso
      have hlenP : pat.length = front.length + 1 := by rw [hpat]; simp
      have hlenX : X.length = Xfront.length + 1 := by rw [hXd]; simp
      have hk : Xfront.length - i < pat.length := by omega
      have h1 := occursAt_getElem? (X ++ Y) pat i hocc (Xfront.length - i) hk
      have e : i + (Xfront.length - i) = Xfront.length := by omega
      have h2 : (X ++ Y)[Xfront.length]? = some d := by
        rw [List.getElem?_append_left (by omega), hXd,
          List.getElem?_append_right (le_refl _), Nat.sub_self, List.getElem?_cons_zero]
      have h3 : pat[Xfront.length - i]? = front[Xfront.length - i]? := by
        rw [hpat, List.getElem?_append_left (by omega)]
      rw [e, h2, h3] at h1
      exact hd (List.getElem?_mem h1.symm)

theorem findFrom_eq_first (pat : Str) : ∀ (s : Str) (i j : Nat),
    pat.isPrefixOf (s.drop j) = true →
    (∀ k, k < j → pat.isPrefixOf (s.drop k) = false) →
    findFrom pat s i = i + j
  | [], i, j, hocc, hmin => by
    have hj : j = 0 := by
      by_contra hne
      have := hmin 0 (by omega)
      rw [List.drop_nil] at hocc
      rw [List.drop_zero, hocc] at this
      exact absurd this (by simp)
    subst hj
    unfold findFrom
    rw [List.drop_zero] at hocc
    rw [if_pos hocc]
    rfl
  | c :: cs, i, 0, hocc, _ => by
    unfold findFrom
    rw [List.drop_zero] at hocc
    rw [if_pos hocc]
    rfl
  | c :: cs, i, j + 1, hocc, hmin => by
    unfold findFrom
    have h0 := hmin 0 (by omega)
    rw [List.drop_zero] at h0
    rw [if_neg (by rw [h0]; simp)]
    rw [findFrom_eq_first pat cs (i + 1) j (by simpa using hocc)
      (fun k hk => by simpa using hmin (k + 1) (by omega))]
    omega

/-- The call `find` returns the first index at or after `pos` where the
pattern occurs. -/
theorem find_eq_first (s pat : Str) (pos j : Nat) (hpos : pos ≤ s.length)
    (hocc : occursAt s pat (pos + j) = true)
    (hmin : ∀ k, k < j → occursAt s pat (pos + k) = false) :
    find s pat pos = pos + j := by
  unfold find
  rw [if_neg (by omega)]
  unfold occursAt at hocc hmin
  apply findFrom_eq_first
  · rw [List.drop_drop]
    exact hocc
  · intro k hk
    rw [List.drop_drop]
    exact hmin k hk

theorem occursAt_skip (X Y pat : Str) (n j : Nat) (h : n = X.length + j) :
    occursAt (X ++ Y) pat n = occursAt Y pat j := by
  subst h
  exact occursAt_append_right X Y pat j

/-- The three searches of a branch of the scan, on a content in which, from the
scan position `W.length` on, the text `B` without open pattern is followed by
an open tag `openPat ++ a ++ ">"`, a fragment `T` and the close pattern. -/
theorem fragment_finds (openPat closePat W B a T rest restO restC frontC : Str) (c : Char)
    (hop : openPat = c :: restO) (hcO : c ∉ restO) (hgtO : '>' ∉ openPat)
    (hcp : closePat = c :: restC) (hcC : c ∉ restC)
    (hcq : closePat = frontC ++ ['>']) (hgtC : '>' ∉ frontC)
    (hB : noOccurrence B openPat) (ha : '>' ∉ a)
    (hO : noOccurrence (openPat ++ a ++ ['>']) closePat)
    (hT : noOccurrence T closePat) :
    find (W ++ (B ++ ((openPat ++ a ++ ['>']) ++ (T ++ (closePat ++ rest))))) openPat W.length
      = W.length + B.length ∧
    find (W ++ (B ++ ((openPat ++ a ++ ['>']) ++ (T ++ (closePat ++ rest))))) closePat
        (W.length + B.length)
      = W.length + B.length + ((openPat ++ a ++ ['>']).length + T.length) ∧
    find (W ++ (B ++ ((openPat ++ a ++ ['>']) ++ (T ++ (closePat ++ rest))))) ['>']
        (W.length + B.length)
      = W.length + B.length + (openPat.length + a.length) := by
  refine ⟨?_, ?_, ?_⟩
  · apply find_eq_first
    · simp only [List.length_append]
      omega
    · rw [occursAt_skip W _ _ _ (B.length + 0) (by omega),
        occursAt_skip B _ _ _ 0 rfl, List.append_assoc, List.append_assoc]
      exact occursAt_self_append _ _
    · intro k hk
      rw [occursAt_skip W _ _ _ k rfl]
      refine not_occursAt_across_first B _ openPat restO
        (restO ++ a ++ ['>'] ++ (T ++ (closePat ++ rest))) c hop hcO ?_ hB k hk
      rw [hop]
      simp
  · apply find_eq_first
    · simp only [List.length_append]
      omega
    · rw [occursAt_skip W _ _ _ (B.length + ((openPat ++ a ++ ['>']).length + (T.length + 0)))
          (by omega),
        occursAt_skip B _ _ _ ((openPat ++ a ++ ['>']).length + (T.length + 0)) rfl,
        occursAt_skip (openPat ++ a ++ ['>']) _ _ _ (T.length + 0) rfl,
        occursAt_skip T _ _ _ 0 rfl]
      exact occursAt_self_append _ _
    · intro k hk
      rw [occursAt_skip W _ _ _ (B.length + k) (by omega), occursAt_skip B _ _ _ k rfl]
      by_cases hkO : k < (openPat ++ a ++ ['>']).length
      · exact not_occursAt_across_last (openPat ++ a ++ ['>']) _ closePat frontC
          (openPat ++ a) '>' hcq hgtC rfl hO k hkO
      · rw [occursAt_skip (openPat ++ a ++ ['>']) _ _ _ (k - (openPat ++ a ++ ['>']).length)
          (by omega)]
        refine not_occursAt_across_first T _ closePat restC (restC ++ rest) c hcp hcC ?_ hT _
          (by omega)
        rw [hcp]
        rfl
  · apply find_eq_first
    · simp only [List.length_append]
      omega
    · rw [occursAt_skip W _ _ _ (B.length + (openPat.length + a.length)) (by omega),
        occursAt_skip B _ _ _ (openPat.length + a.length) rfl,
        List.append_assoc (openPat ++ a),
        occursAt_skip (openPat ++ a) _ _ _ 0 (by simp)]
      exact occursAt_self_append _ _
    · intro k hk
      rw [occursAt_skip W _ _ _ (B.length + k) (by omega), occursAt_skip B _ _ _ k rfl,
        List.append_assoc (openPat ++ a),
        occursAt_append_left (openPat ++ a) _ ['>'] k (by simp; omega)]
      cases hocc : occursAt (openPat ++ a) ['>'] k with
      | false => rfl
      | true =>
        exfalso
        rcases List.mem_append.mp (occursAt_singleton_mem _ _ _ hocc) with h | h
        · exact hgtO h
        · exact ha h

/-- The fragment that a branch of the scan cuts out of such a content is `T`:
both searches succeed, the `>` of the open tag lies before the close pattern and
nothing wraps around. -/
theorem fragment_substr (openPat closePat W B a T rest restO restC frontC : Str) (c : Char)
    (hop : openPat = c :: restO) (hcO : c ∉ restO) (hgtO : '>' ∉ openPat)
    (hcp : closePat = c :: restC) (hcC : c ∉ restC)
    (hcq : closePat = frontC ++ ['>']) (hgtC : '>' ∉ frontC)
    (hB : noOccurrence B openPat) (ha : '>' ∉ a)
    (hO : noOccurrence (openPat ++ a ++ ['>']) closePat)
    (hT : noOccurrence T closePat)
    (content : Str)
    (hcontent : content = W ++ (B ++ ((openPat ++ a ++ ['>']) ++ (T ++ (closePat ++ rest)))))
    (hlen : content.length < npos) :
    find content openPat W.length ≠ npos ∧
    find content closePat (find content openPat W.length) ≠ npos ∧
    find content closePat (find content openPat W.length) + closePat.length
      = (W ++ (B ++ ((openPat ++ a ++ ['>']) ++ (T ++ closePat)))).length ∧
    substr content ((find content ['>'] (find content openPat W.length) + 1) % SIZE_MOD)
      ((find content closePat (find content openPat W.length) + SIZE_MOD
        - (find content ['>'] (find content openPat W.length) + 1) % SIZE_MOD) % SIZE_MOD)
      = .ok T := by
  obtain ⟨h1, h2, h3⟩ := fragment_finds openPat closePat W B a T rest restO restC frontC c
    hop hcO hgtO hcp hcC hcq hgtC hB ha hO hT
  rw [← hcontent] at h1 h2 h3
  have hl : content.length = W.length + (B.length + (((openPat.length + a.length) + 1)
      + (T.length + (closePat.length + rest.length)))) := by
    rw [hcontent]
    simp only [List.length_append, List.length_singleton]
  have hnpos : npos = 2 ^ 64 - 1 := rfl
  have hmod : SIZE_MOD = 2 ^ 64 := rfl
  have hOlen : (openPat ++ a ++ ['>']).length = openPat.length + a.length + 1 := by
    simp only [List.length_append, List.length_singleton]
  rw [h1, h2, h3, hOlen]
  have hcs : (W.length + B.length + (openPat.length + a.length) + 1) % SIZE_MOD
      = W.length + B.length + (openPat.length + a.length) + 1 := by
    rw [hmod]
    exact Nat.mod_eq_of_lt (by omega)
  rw [hcs]
  have hn : (W.length + B.length + (openPat.length + a.length + 1 + T.length) + SIZE_MOD
      - (W.length + B.length + (openPat.length + a.length) + 1)) % SIZE_MOD = T.length := by
    have e : W.length + B.length + (openPat.length + a.length + 1 + T.length) + SIZE_MOD
        - (W.length + B.length + (openPat.length + a.length) + 1) = T.length + SIZE_MOD := by
      omega
    rw [e, Nat.add_mod_right, hmod]
    exact Nat.mod_eq_of_lt (by omega)
  rw [hn]
  refine ⟨by omega, by omega, ?_, ?_⟩
  · simp only [List.length_append, List.length_singleton]
    omega
  · rw [substr_ok content _ _ (by omega), hcontent]
    have e : W.length + B.length + (openPat.length + a.length) + 1
        = W.length + (B.length + ((openPat ++ a ++ ['>']).length + 0)) := by
      rw [hOlen]
      omega
    rw [e, List.drop_append, List.drop_append, List.drop_append, List.drop_zero,
      List.take_left]

/-! ## The first heading and the first paragraph, when the open tags end before the close tags -/

/-- Away from the case of C8 and C9: on a content of the form
`A <h1 a > T </h1> B <p b > D </p> R`, where `A` holds no `<h1`, `a` and `b` no
`>`, `T` no `</h1>`, `B` no `<p`, `D` no `</p>`, and where in addition neither
open tag holds its own close pattern, the function returns the cleaned `T` (or
the base name when that is empty) and the capped, cleaned `D` (or the
placeholder), whatever `A`, `a`, `B`, `b` and `R` are. -/
theorem first_heading_first_paragraph (A a T B b D R filepath content : Str)
    (hcontent : content = A ++ "<h1".toList ++ a ++ ['>'] ++ T ++ "</h1>".toList ++ B
      ++ "<p".toList ++ b ++ ['>'] ++ D ++ "</p>".toList ++ R)
    (hA : noOccurrence A "<h1".toList) (ha : '>' ∉ a)
    (hT : noOccurrence T "</h1>".toList)
    (hB : noOccurrence B "<p".toList) (hb : '>' ∉ b)
    (hD : noOccurrence D "</p>".toList)
    (hopen1 : noOccurrence ("<h1".toList ++ a ++ ['>']) "</h1>".toList)
    (hopen2 : noOccurrence ("<p".toList ++ b ++ ['>']) "</p>".toList)
    (hlen : content.length < npos) :
    ∃ t d, cleanContent T = .ok t ∧ cleanContent D = .ok d ∧
      extractTitleAndDescription (some content) filepath
        = .ok (if t.isEmpty then pathStem filepath else t,
               if (capped d).isEmpty then DESCRIPTION_UNAVAILABLE else capped d) := by
  obtain ⟨t, ht⟩ := cleanContent_ok T
  obtain ⟨d, hd⟩ := cleanContent_ok D
  refine ⟨t, d, ht, hd, ?_⟩
  have hc1 : content = [] ++ (A ++ (("<h1".toList ++ a ++ ['>']) ++ (T ++ ("</h1>".toList
      ++ (B ++ "<p".toList ++ b ++ ['>'] ++ D ++ "</p>".toList ++ R))))) := by
    rw [hcontent]
    simp only [List.append_assoc, List.nil_append]
  obtain ⟨hh1, hh2, hh3, hh4⟩ := fragment_substr "<h1".toList "</h1>".toList [] A a T
    (B ++ "<p".toList ++ b ++ ['>'] ++ D ++ "</p>".toList ++ R)
    ['h', '1'] ['/', 'h', '1', '>'] ['<', '/', 'h', '1'] '<'
    rfl (by decide) (by decide) rfl (by decide) rfl (by decide)
    hA ha hopen1 hT content hc1 hlen
  have hc2 : content = ([] ++ (A ++ (("<h1".toList ++ a ++ ['>']) ++ (T ++ "</h1>".toList))))
      ++ (B ++ (("<p".toList ++ b ++ ['>']) ++ (D ++ ("</p>".toList ++ R)))) := by
    rw [hcontent]
    simp only [List.append_assoc, List.nil_append]
  obtain ⟨hp1, hp2, _, hp4⟩ := fragment_substr "<p".toList "</p>".toList
    ([] ++ (A ++ (("<h1".toList ++ a ++ ['>']) ++ (T ++ "</h1>".toList)))) B b D R
    ['p'] ['/', 'p', '>'] ['<', '/', 'p'] '<'
    rfl (by decide) (by decide) rfl (by decide) rfl (by decide)
    hB hb hopen2 hD content hc2 hlen
  have h5 : ("</h1>".toList).length = 5 := rfl
  rw [h5] at hh3
  rw [← hh3] at hp1 hp2 hp4
  rw [List.length_nil] at hh1 hh2 hh3 hh4 hp1 hp2 hp4
  have hstep1 : scanStep content { pos := 0, found_h1 := false, title := [], description := [] }
      = .ok (.next { pos := find content "</h1>".toList (find content "<h1".toList 0) + 5,
                     found_h1 := true, title := t, description := [] }) := by
    unfold scanStep
    simp only [Bool.not_false, if_true]
    rw [if_pos hh1, if_pos hh2, hh4]
    simp only
    rw [ht]
  have hstep2 : scanStep content
      { pos := find content "</h1>".toList (find content "<h1".toList 0) + 5,
        found_h1 := true, title := t, description := [] }
      = .ok (.brk { pos := find content "</h1>".toList (find content "<h1".toList 0) + 5,
                    found_h1 := true, title := t, description := capped d }) := by
    unfold scanStep
    simp only [Bool.not_true, Bool.false_eq_true, if_false]
    rw [if_pos hp1, if_pos hp2, hp4]
    simp only
    rw [hd]
    rfl
  have hpos1 : find content "</h1>".toList (find content "<h1".toList 0) + 5
      < content.length := by
    have hb1 := find_bounds content "<p".toList _ _ rfl hp1
    have h2 : ("<p".toList).length = 2 := rfl
    omega
  obtain ⟨n, hn⟩ : ∃ n, content.length = n + 2 := ⟨content.length - 2, by omega⟩
  unfold extractTitleAndDescription
  simp only
  have hloop : scanLoop content content.length
      { pos := 0, found_h1 := false, title := [], description := [] }
      = .ok { pos := find content "</h1>".toList (find content "<h1".toList 0) + 5,
              found_h1 := true, title := t, description := capped d } := by
    rw [hn]
    unfold scanLoop
    rw [if_pos (by simp only; omega), hstep1]
    simp only
    unfold scanLoop
    rw [if_pos (by simp only; omega), hstep2]
  rw [hloop]

/-- The theorem above on a page with a paragraph before the heading, attributes
in both open tags and a second heading and paragraph at the end. -/
theorem first_heading_first_paragraph_example :
    ∃ t d, cleanContent "Hello".toList = .ok t ∧ cleanContent "World".toList = .ok d ∧
      extractTitleAndDescription
        (some ("<p>intro</p>".toList ++ "<h1".toList ++ " id=\"top\"".toList ++ ['>']
          ++ "Hello".toList ++ "</h1>".toList ++ "\n".toList ++ "<p".toList
          ++ " class=\"lead\"".toList ++ ['>'] ++ "World".toList ++ "</p>".toList
          ++ "<h1>Later</h1><p>more</p>".toList))
        "docs/page.html".toList
        = .ok (if t.isEmpty then pathStem "docs/page.html".toList else t,
               if (capped d).isEmpty then DESCRIPTION_UNAVAILABLE else capped d) :=
  first_heading_first_paragraph "<p>intro</p>".toList " id=\"top\"".toList "Hello".toList
    "\n".toList " class=\"lead\"".toList "World".toList "<h1>Later</h1><p>more</p>".toList
    "docs/page.html".toList _ rfl
    (by unfold noOccurrence; decide) (by decide) (by unfold noOccurrence; decide)
    (by unfold noOccurrence; decide) (by decide) (by unfold noOccurrence; decide)
    (by unfold noOccurrence; decide) (by unfold noOccurrence; decide) (by decide)

/-! ## C11: two runs differ only in the date -/

/-- C11: for every listing the document written is
`prefix ++ getCurrentDate ltm ++ suffix`, where `prefix` and `suffix` are the
same for every clock reading `ltm`: they are built from the listing and the
file contents alone. Two runs with the readings `t1` and `t2` so write
documents that differ in the date text only, and the same document when the
two date texts agree. When the output file cannot be created, neither run
writes anything. -/
theorem C11_same_document_up_to_the_date
    (sort : (HtmlFile → HtmlFile → Bool) → List HtmlFile → List HtmlFile)
    (entries : List DirEntry) :
    ∃ pre suf : Str,
      (∀ ltm, generateIndex sort entries true ltm
        = .ok (some (pre ++ getCurrentDate ltm ++ suf))) ∧
      (∀ t1 t2, getCurrentDate t1 = getCurrentDate t2 →
        generateIndex sort entries true t1 = generateIndex sort entries true t2) ∧
      (∀ ltm, generateIndex sort entries false ltm = .ok none) := by
  obtain ⟨new, hnew, _⟩ := collectFiles_spec entries []
  rw [List.nil_append] at hnew
  have hfiles : sortedFiles sort entries = .ok (sort titleLess new) := by
    unfold sortedFiles
    rw [hnew]
  have hgen : ∀ ltm, generateIndex sort entries true ltm
      = .ok (some ((PAGE_HEAD ++ ((sort titleLess new).map entryBlock).flatten ++ PAGE_FOOT_OPEN)
        ++ getCurrentDate ltm ++ PAGE_FOOT_CLOSE)) := by
    intro ltm
    unfold generateIndex
    rw [hfiles]
    simp only [Bool.not_true, Bool.false_eq_true, if_false, writeEntries_eq]
  refine ⟨PAGE_HEAD ++ ((sort titleLess new).map entryBlock).flatten ++ PAGE_FOOT_OPEN,
    PAGE_FOOT_CLOSE, hgen, ?_, ?_⟩
  · intro t1 t2 h
    rw [hgen t1, hgen t2, h]
  · intro ltm
    unfold generateIndex
    rw [hfiles]
    simp

/-! ## C12 and C13: the command line -/

theorem isValueFlag_cases (flag : Str) (h : isValueFlag flag = true) :
    ¬ (flag = "-h".toList ∨ flag = "--help".toList) ∧
    (isPathFlag flag = true ∧ (flag = "-p".toList ∨ flag = "--path".toList) ∨
      isPathFlag flag = false ∧ ¬ (flag = "-p".toList ∨ flag = "--path".toList) ∧
        (flag = "-o".toList ∨ flag = "--output".toList)) := by
  unfold isValueFlag isOutputFlag at h
  unfold isPathFlag at h ⊢
  simp only [Bool.or_eq_true, beq_iff_eq] at h
  rcases h with (h | h) | (h | h) <;> subst h <;> decide

/-- The loop consumes flags that take a value together with their values. -/
theorem parseArgs_flagPairs : ∀ (pairs : List (Str × Str)) (rest : List Str)
    (inputPath outputPath : Str), (∀ p ∈ pairs, isValueFlag p.1 = true) →
    parseArgs (flagPairs pairs ++ rest) inputPath outputPath
      = parseArgs rest (supplied pairs (inputPath, outputPath)).1
          (supplied pairs (inputPath, outputPath)).2
  | [], rest, inputPath, outputPath, _ => rfl
  | (flag, value) :: pairs, rest, inputPath, outputPath, h => by
    have hflag := isValueFlag_cases flag (h (flag, value) (List.mem_cons_self _ _))
    have hrest : ∀ p ∈ pairs, isValueFlag p.1 = true :=
      fun p hp => h p (List.mem_cons_of_mem _ hp)
    obtain ⟨hnh, hcase⟩ := hflag
    rcases hcase with ⟨hp, hpf⟩ | ⟨hp, hnp, hof⟩
    · simp only [flagPairs, List.cons_append, parseArgs, if_neg hnh, if_pos hpf, supplied, hp,
        if_true]
      exact parseArgs_flagPairs pairs rest value outputPath hrest
    · simp only [flagPairs, List.cons_append, parseArgs, if_neg hnh, if_neg hnp, if_pos hof,
        supplied, hp, Bool.false_eq_true, if_false]
      exact parseArgs_flagPairs pairs rest inputPath value hrest

/-- The function `main` on a non-empty argument list. -/
theorem main_cons (fs_exists : Str → Bool) (current_path : Str) (arg : Str)
    (rest : List Str) :
    main fs_exists current_path (arg :: rest)
      = match parseArgs (arg :: rest) [] ['.'] with
        | .returned outcome => outcome
        | .done inputPath outputPath =>
          if inputPath.isEmpty then
            { stdout := USAGE,
              stderr := "Error: Debes especificar una ruta con --path\n".toList,
              generated := none, exitCode := 1 }
          else if !fs_exists inputPath then
            { stdout := [],
              stderr := "Error: El directorio no existe: ".toList ++ inputPath ++ ['\n'],
              generated := none, exitCode := 1 }
          else
            { stdout := [], stderr := [],
              generated := some (inputPath,
                if outputPath = ".".toList ∨ outputPath = "./".toList then current_path
                else outputPath),
              exitCode := 0 } := by
  unfold main
  rw [if_neg (by simp)]

/-- C12, refuted as stated: the argument list `foo --help` contains `--help`
and `main` returns 1; the argument list `-p --help` contains `--help`, which
is taken as the value of `-p`, and when a directory of that name exists `main`
calls `generateIndex` on it. -/
theorem C12_help_not_reached :
    "--help".toList ∈ ["foo".toList, "--help".toList] ∧
    (main (fun _ => false) "/home".toList ["foo".toList, "--help".toList]).exitCode = 1 ∧
    "--help".toList ∈ ["-p".toList, "--help".toList] ∧
    main (fun _ => true) "/home".toList ["-p".toList, "--help".toList]
      = { stdout := [], stderr := [],
          generated := some ("--help".toList, "/home".toList), exitCode := 0 } := by
  refine ⟨by decide, by rfl, by decide, by rfl⟩

/-- C12, amended: when the left-to-right scan reaches `-h` or `--help`, that
is, when every argument before it is a flag that takes a value (`-p`, `--path`,
`-o`, `--output`) or the value of such a flag, `main` prints the usage text,
writes nothing to the error stream, does not call `generateIndex` and returns
0, whatever follows the help flag. -/
theorem C12_help_reached (fs_exists : Str → Bool) (current_path : Str)
    (pairs : List (Str × Str)) (flag : Str) (rest : List Str)
    (hpairs : ∀ p ∈ pairs, isValueFlag p.1 = true)
    (hflag : flag = "-h".toList ∨ flag = "--help".toList) :
    main fs_exists current_path (flagPairs pairs ++ flag :: rest)
      = { stdout := USAGE, stderr := [], generated := none, exitCode := 0 } := by
  have hparse : parseArgs (flagPairs pairs ++ flag :: rest) [] ['.']
      = .returned { stdout := USAGE, stderr := [], generated := none, exitCode := 0 } := by
    rw [parseArgs_flagPairs pairs (flag :: rest) [] ['.'] hpairs]
    unfold parseArgs
    rw [if_pos hflag]
  cases hargs : flagPairs pairs ++ flag :: rest with
  | nil => simp at hargs
  | cons a as =>
    rw [hargs] at hparse
    rw [main_cons, hparse]

/-- The amended C12 on `--path docs -o out --help extra`. -/
theorem C12_help_reached_witness :
    main (fun _ => true) "/home".toList
        (flagPairs [("--path".toList, "docs".toList), ("-o".toList, "out".toList)]
          ++ "--help".toList :: ["extra".toList])
      = { stdout := USAGE, stderr := [], generated := none, exitCode := 0 } :=
  C12_help_reached (fun _ => true) "/home".toList
    [("--path".toList, "docs".toList), ("-o".toList, "out".toList)] "--help".toList
    ["extra".toList] (by decide) (Or.inr rfl)

theorem findFrom_min (pat : Str) : ∀ (s : Str) (i k : Nat),
    findFrom pat s i = k → ∀ j, i + j < k → j < s.length → pat.isPrefixOf (s.drop j) = false
  | [], _, _, _, j, _, hj => by simp at hj
  | c :: cs, i, k, h, j, hjk, hj => by
    unfold findFrom at h
    simp only [List.length_cons] at hj
    split at h
    · omega
    · rename_i hp
      cases j with
      | zero =>
        rw [List.drop_zero]
        exact Bool.eq_false_iff.mpr hp
      | succ j =>
        rw [List.drop_succ_cons]
        exact findFrom_min pat cs (i + 1) k h j (by omega) (by omega)

/-- Before the index that `find` returns, and from `pos` on, the pattern does
not occur. -/
theorem find_min (s pat : Str) (pos : Nat) (hpat : pat ≠ []) :
    ∀ j, pos ≤ j → j < find s pat pos → occursAt s pat j = false := by
  intro j hpj hj
  unfold occursAt
  by_cases hjl : j < s.length
  · unfold find at hj
    rw [if_neg (by omega)] at hj
    have := findFrom_min pat (s.drop pos) pos _ rfl (j - pos) (by omega)
      (by rw [List.length_drop]; omega)
    rw [List.drop_drop] at this
    have e : pos + (j - pos) = j := by omega
    rw [e] at this
    exact this
  · rw [List.drop_eq_nil_of_le (by omega)]
    cases pat with
    | nil => exact absurd rfl hpat
    | cons p ps => rfl

theorem occursAt_singleton (s : Str) (c : Char) (i : Nat) :
    occursAt s [c] i = true ↔ s[i]? = some c := by
  unfold occursAt
  rw [List.isPrefixOf_iff_prefix]
  constructor
  · intro h
    obtain ⟨t, ht⟩ := h
    have := List.getElem?_drop s i 0
    rw [← ht] at this
    simpa using this.symm
  · intro h
    obtain ⟨hi, hc⟩ := List.getElem?_eq_some.mp h
    refine ⟨s.drop (i + 1), ?_⟩
    rw [← hc]
    simp

/-- Before the index that `find` returns for a character, and from `pos` on,
the text does not hold that character. -/
theorem find_char_before (s : Str) (c : Char) (pos : Nat) :
    ∀ j, pos ≤ j → j < find s [c] pos → s[j]? ≠ some c := by
  intro j hpj hj h
  have := find_min s [c] pos (by simp) j hpj hj
  rw [(occursAt_singleton s c j).mpr h] at this
  exact absurd this (by simp)

/-- At the index that `find` returns for a character the text holds it. -/
theorem find_char_at (s : Str) (c : Char) (pos : Nat) (h : find s [c] pos ≠ npos) :
    s[find s [c] pos]? = some c :=
  (occursAt_singleton s c _).mp (find_occurs s [c] pos _ rfl h)

theorem findFrom_none (pat : Str) (hpat : pat ≠ []) : ∀ (s : Str) (i : Nat),
    (∀ j, j < s.length → pat.isPrefixOf (s.drop j) = false) → findFrom pat s i = npos
  | [], i, _ => by
    unfold findFrom
    cases pat with
    | nil => exact absurd rfl hpat
    | cons p ps => rfl
  | c :: cs, i, h => by
    unfold findFrom
    have h0 := h 0 (by simp)
    rw [List.drop_zero] at h0
    rw [if_neg (by rw [h0]; simp)]
    apply findFrom_none pat hpat cs (i + 1)
    intro j hj
    have := h (j + 1) (by simp; omega)
    rw [List.drop_succ_cons] at this
    exact this

/-- A character that the text does not hold is not found. -/
theorem find_char_none (s : Str) (c : Char) (pos : Nat) (h : c ∉ s) :
    find s [c] pos = npos := by
  unfold find
  split
  · rfl
  · apply findFrom_none [c] (by simp)
    intro j _
    cases hocc : List.isPrefixOf [c] (List.drop j (List.drop pos s)) with
    | false => rfl
    | true =>
      exfalso
      rw [List.drop_drop] at hocc
      exact h (occursAt_singleton_mem s c _ hocc)

/-! ## C14: no tag span is left by `cleanContent` -/

theorem noSpan_iff_pairwise (a b : Char) (s : Str) :
    NoSpan a b s ↔ s.Pairwise (fun x y => ¬ (x = a ∧ y = b)) := by
  unfold NoSpan
  rw [List.pairwise_iff_getElem]
  constructor
  · intro h i j hi hj hij hab
    refine h i j hij ?_ ?_
    · rw [List.getElem?_eq_getElem hi, hab.1]
    · rw [List.getElem?_eq_getElem hj, hab.2]
  · intro h i j hij hi hj
    obtain ⟨hi1, hi2⟩ := List.getElem?_eq_some.mp hi
    obtain ⟨hj1, hj2⟩ := List.getElem?_eq_some.mp hj
    exact h i j hi1 hj1 hij ⟨hi2, hj2⟩

theorem erase_length_le (s : Str) (pos n : Nat) (r : Str) (h : erase s pos n = .ok r) :
    r.length ≤ s.length := by
  unfold erase at h
  split at h
  · exact Except.noConfusion h
  · rw [← Except.ok.inj h]
    simp only [List.length_append, List.length_take, List.length_drop]
    omega

theorem lt_npos_of_getElem? (s : Str) (hlen : s.length < SIZE_MOD) (i : Nat) (c : Char)
    (h : s[i]? = some c) : i < npos := by
  obtain ⟨hi, _⟩ := List.getElem?_eq_some.mp h
  have hmod : SIZE_MOD = 2 ^ 64 := rfl
  have hnpos : npos = 2 ^ 64 - 1 := rfl
  omega

/-- When the tag loop stops, no `<` of the text has a `>` after it. -/
theorem noSpan_of_search_failed (content : Str) (hlen : content.length < SIZE_MOD)
    (h : find content ['<'] 0 = npos ∨ find content ['>'] (find content ['<'] 0) = npos) :
    NoSpan '<' '>' content := by
  unfold NoSpan
  intro i j hij hi hj
  have hi2 := lt_npos_of_getElem? content hlen i _ hi
  have hj2 := lt_npos_of_getElem? content hlen j _ hj
  rcases h with h | h
  · exact find_char_before content '<' 0 i (Nat.zero_le _) (by omega) hi
  · by_cases hlt : i < find content ['<'] 0
    · exact find_char_before content '<' 0 i (Nat.zero_le _) hlt hi
    · exact find_char_before content '>' (find content ['<'] 0) j (by omega) (by omega) hj

theorem tagLoop_noSpan : ∀ (fuel : Nat) (content r : Str),
    content.length < SIZE_MOD →
    tagLoop fuel content (find content ['<'] 0) = .ok r → NoSpan '<' '>' r
  | 0, content, r, hlen, h => by
    unfold tagLoop at h
    split at h
    · exact Except.noConfusion h
    · rename_i hts
      rw [← Except.ok.inj h]
      exact noSpan_of_search_failed content hlen (Or.inl (by simpa using hts))
  | fuel + 1, content, r, hlen, h => by
    unfold tagLoop at h
    split at h
    · simp only at h
      split at h
      · rename_i hte
        rw [← Except.ok.inj h]
        exact noSpan_of_search_failed content hlen (Or.inr hte)
      · cases herase : erase content (find content ['<'] 0)
            (find content ['>'] (find content ['<'] 0) - find content ['<'] 0 + 1) with
        | error e =>
          rw [herase] at h
          exact Except.noConfusion h
        | ok content1 =>
          rw [herase] at h
          simp only at h
          have hle := erase_length_le _ _ _ _ herase
          exact tagLoop_noSpan fuel content1 r (by omega) h
    · rename_i hts
      rw [← Except.ok.inj h]
      exact noSpan_of_search_failed content hlen (Or.inl (by simpa using hts))

/-- The text after a `replace` that puts one space in the place of a span. -/
theorem pairwise_replace_space (R : Char → Char → Prop) (hl : ∀ x, R x ' ')
    (hr : ∀ y, R ' ' y) (s : Str) (pos n : Nat) (h : s.Pairwise R) :
    (s.take pos ++ [' '] ++ (s.drop pos).drop n).Pairwise R := by
  rw [List.append_assoc, List.pairwise_append]
  have hsub : (s.take pos ++ (s.drop pos).drop n).Sublist s := by
    conv => rhs; rw [← List.take_append_drop pos s]
    exact List.Sublist.append (List.Sublist.refl _) (List.drop_sublist _ _)
  have hp := h.sublist hsub
  rw [List.pairwise_append] at hp
  refine ⟨hp.1, ?_, ?_⟩
  · rw [List.singleton_append, List.pairwise_cons]
    exact ⟨fun y _ => hr y, hp.2.1⟩
  · intro x hx y hy
    rcases List.mem_append.mp hy with hy | hy
    · rw [List.mem_singleton.mp hy]
      exact hl x
    · exact hp.2.2 x hx y hy

theorem entityLoop_pairwise (R : Char → Char → Prop) (hl : ∀ x, R x ' ')
    (hr : ∀ y, R ' ' y) : ∀ (fuel : Nat) (content : Str) (entity : Nat) (r : Str),
    content.Pairwise R → entityLoop fuel content entity = .ok r → r.Pairwise R
  | 0, content, entity, r, hp, h => by
    unfold entityLoop at h
    split at h
    · exact Except.noConfusion h
    · rw [← Except.ok.inj h]
      exact hp
  | fuel + 1, content, entity, r, hp, h => by
    unfold entityLoop at h
    split at h
    · simp only at h
      split at h
      · exact Except.noConfusion h
      · rename_i content1 hstep
        refine entityLoop_pairwise R hl hr fuel content1 _ r ?_ h
        split at hstep
        · unfold replace at hstep
          split at hstep
          · exact Except.noConfusion hstep
          · rw [← Except.ok.inj hstep]
            exact pairwise_replace_space R hl hr content _ _ hp
        · rw [← Except.ok.inj hstep]
          exact hp
    · rw [← Except.ok.inj h]
      exact hp

theorem uniqueFrom_sublist (pred : Char → Char → Bool) : ∀ (s : Str) (last : Char),
    (uniqueFrom pred last s).Sublist s
  | [], _ => List.Sublist.refl _
  | c :: cs, last => by
    unfold uniqueFrom
    split
    · exact (uniqueFrom_sublist pred cs last).cons c
    · exact (uniqueFrom_sublist pred cs c).cons₂ c

theorem unique_sublist (pred : Char → Char → Bool) : ∀ s : Str, (unique pred s).Sublist s
  | [] => List.Sublist.refl _
  | c :: cs => by
    unfold unique
    exact (uniqueFrom_sublist pred cs c).cons₂ c

/-- The four stages of `cleanContent`: the text after the trim is not longer
than the input, and the result is the `unique` of what the entity loop makes
of what the tag loop makes of it. -/
theorem cleanContent_stages (content out : Str) (h : cleanContent content = .ok out) :
    ∃ c2 c3 c4, c2.length ≤ content.length ∧
      tagLoop c2.length c2 (find c2 ['<'] 0) = .ok c3 ∧
      entityLoop c3.length c3 (find c3 ['&'] 0) = .ok c4 ∧
      out = unique (fun lhs rhs => lhs == rhs && lhs == ' ') c4 := by
  unfold cleanContent at h
  cases h1 : erase content 0 (find_first_not_of content WHITESPACE) with
  | error e =>
    rw [h1] at h
    exact Except.noConfusion h
  | ok c1 =>
    rw [h1] at h
    simp only at h
    cases h2 : erase c1 ((find_last_not_of c1 WHITESPACE + 1) % SIZE_MOD) npos with
    | error e =>
      rw [h2] at h
      exact Except.noConfusion h
    | ok c2 =>
      rw [h2] at h
      simp only at h
      cases h3 : tagLoop c2.length c2 (find c2 ['<'] 0) with
      | error e =>
        rw [h3] at h
        exact Except.noConfusion h
      | ok c3 =>
        rw [h3] at h
        simp only at h
        cases h4 : entityLoop c3.length c3 (find c3 ['&'] 0) with
        | error e =>
          rw [h4] at h
          exact Except.noConfusion h
        | ok c4 =>
          rw [h4] at h
          simp only at h
          refine ⟨c2, c3, c4, ?_, h3, h4, (Except.ok.inj h).symm⟩
          have := erase_length_le _ _ _ _ h1
          have := erase_length_le _ _ _ _ h2
          omega

/-- C14: for every input string (a `std::string`, so shorter than `2^64`)
`cleanContent` returns a text in which no `<` has a `>` anywhere after it:
there are no positions `i < j` with `out[i] = '<'` and `out[j] = '>'`. -/
theorem C14_no_tag_span_left (content : Str) (hlen : content.length < SIZE_MOD) :
    ∃ out, cleanContent content = .ok out ∧
      ∀ i j : Nat, i < j → out[i]? = some '<' → out[j]? ≠ some '>' := by
  obtain ⟨out, hout⟩ := cleanContent_ok content
  refine ⟨out, hout, ?_⟩
  obtain ⟨c2, c3, c4, hc2, h3, h4, hu⟩ := cleanContent_stages content out hout
  have hp3 : c3.Pairwise (fun x y => ¬ (x = '<' ∧ y = '>')) :=
    (noSpan_iff_pairwise '<' '>' c3).mp (tagLoop_noSpan _ c2 c3 (by omega) h3)
  have hp4 := entityLoop_pairwise (fun x y => ¬ (x = '<' ∧ y = '>'))
    (fun x h => by simp at h) (fun y h => by simp at h) _ c3 _ c4 hp3 h4
  have hp5 : out.Pairwise (fun x y => ¬ (x = '<' ∧ y = '>')) := by
    rw [hu]
    exact hp4.sublist (unique_sublist _ c4)
  intro i j hij hi hj
  exact (noSpan_iff_pairwise '<' '>' out).mpr hp5 i j hij hi hj

/-- C14 on a text with tags, an entity and a `<` that is never closed. -/
theorem C14_no_tag_span_left_witness :
    ∃ out, cleanContent "a <b>bold</b> &gt; 1 < 2".toList = .ok out ∧
      ∀ i j : Nat, i < j → out[i]? = some '<' → out[j]? ≠ some '>' :=
  C14_no_tag_span_left "a <b>bold</b> &gt; 1 < 2".toList (by decide)

/-! ## C15: no entity span is left by `cleanContent` -/

/-- The characters of the text after a `replace` that puts one space in the
place of `n` characters at `pos`. -/
theorem replace_space_getElem? (s : Str) (pos n : Nat) (hpos : pos ≤ s.length) (i : Nat) :
    (s.take pos ++ [' '] ++ (s.drop pos).drop n)[i]?
      = if i < pos then s[i]? else if i = pos then some ' ' else s[i - 1 + n]? := by
  have htake : (s.take pos).length = pos := by
    rw [List.length_take]
    omega
  by_cases h1 : i < pos
  · rw [if_pos h1, List.append_assoc, List.getElem?_append_left (by omega),
      List.getElem?_take_of_lt h1]
  · rw [if_neg h1]
    by_cases h2 : i = pos
    · rw [if_pos h2, List.append_assoc, List.getElem?_append_right (by omega), htake, h2,
        Nat.sub_self]
      simp
    · rw [if_neg h2, List.getElem?_append_right (by simp; omega), List.drop_drop,
        List.getElem?_drop]
      congr 1
      simp only [List.length_append, htake, List.length_singleton]
      omega

theorem tagLoop_length_le : ∀ (fuel : Nat) (content : Str) (tag_start : Nat) (r : Str),
    tagLoop fuel content tag_start = .ok r → r.length ≤ content.length
  | 0, content, tag_start, r, h => by
    unfold tagLoop at h
    split at h
    · exact Except.noConfusion h
    · rw [← Except.ok.inj h]
  | fuel + 1, content, tag_start, r, h => by
    unfold tagLoop at h
    split at h
    · simp only at h
      split at h
      · rw [← Except.ok.inj h]
      · split at h
        · exact Except.noConfusion h
        · rename_i content1 herase
          have h1 := erase_length_le _ _ _ _ herase
          have h2 := tagLoop_length_le fuel content1 _ r h
          omega
    · rw [← Except.ok.inj h]

/-- The invariant of the entity loop: before the search position `entity` no
`&` of the text has a `;` after it. -/
theorem entityLoop_noSpan : ∀ (fuel : Nat) (content : Str) (entity : Nat) (r : Str),
    content.length < SIZE_MOD →
    (∀ i j : Nat, i < j → i < entity → content[i]? = some '&' → content[j]? ≠ some ';') →
    entityLoop fuel content entity = .ok r → NoSpan '&' ';' r
  | 0, content, entity, r, hlen, hinv, h => by
    unfold entityLoop at h
    split at h
    · exact Except.noConfusion h
    · rename_i he
      rw [← Except.ok.inj h]
      unfold NoSpan
      intro i j hij hi hj
      have := lt_npos_of_getElem? content hlen i _ hi
      exact hinv i j hij (by simp at he; omega) hi hj
  | fuel + 1, content, entity, r, hlen, hinv, h => by
    unfold entityLoop at h
    split at h
    · simp only at h
      split at h
      · exact Except.noConfusion h
      · rename_i content1 hstep
        split at hstep
        · rename_i hend
          have hb := find_bounds content [';'] entity _ rfl hend
          unfold replace at hstep
          split at hstep
          · exact Except.noConfusion hstep
          · rename_i hpos
            have hc1 := Except.ok.inj hstep
            have hlen1 : content1.length < SIZE_MOD := by
              rw [← hc1]
              simp only [List.length_append, List.length_take, List.length_drop,
                List.length_singleton]
              simp only [List.length_singleton] at hb
              omega
            refine entityLoop_noSpan fuel content1 _ r hlen1 ?_ h
            intro i j hij hi1 hi hj
            have hi0 := hi
            rw [← hc1, replace_space_getElem? content entity _ (by omega)] at hi hj
            by_cases hie : i < entity
            · rw [if_pos hie] at hi
              by_cases hje : j < entity
              · rw [if_pos hje] at hj
                exact hinv i j hij hie hi hj
              · rw [if_neg hje] at hj
                by_cases hje2 : j = entity
                · rw [if_pos hje2] at hj
                  exact absurd hj (by decide)
                · rw [if_neg hje2] at hj
                  exact hinv i _ (by omega) hie hi hj
            · rw [if_neg hie] at hi
              by_cases hie2 : i = entity
              · rw [if_pos hie2] at hi
                exact absurd hi (by decide)
              · exact find_char_before content1 '&' (entity + 1) i (by omega) hi1 hi0
        · rename_i hend
          have hc1 := Except.ok.inj hstep
          rw [← hc1] at h
          refine entityLoop_noSpan fuel content _ r hlen ?_ h
          intro i j hij hi1 hi hj
          by_cases hie : i < entity
          · exact hinv i j hij hie hi hj
          · by_cases hie2 : i = entity
            · have hjn := lt_npos_of_getElem? content hlen j _ hj
              have hend2 : find content [';'] entity = npos := by
                by_contra hne
                exact hend hne
              exact find_char_before content ';' entity j (by omega) (by omega) hj
            · exact find_char_before content '&' (entity + 1) i (by omega) hi1 hi
    · rename_i he
      rw [← Except.ok.inj h]
      unfold NoSpan
      intro i j hij hi hj
      have := lt_npos_of_getElem? content hlen i _ hi
      exact hinv i j hij (by simp at he; omega) hi hj

/-- An `&` without any `;` after it stays where it is, with all that follows
it. -/
theorem entityLoop_keeps_suffix : ∀ (fuel : Nat) (x post : Str) (entity : Nat) (r : Str),
    ';' ∉ post → entityLoop fuel (x ++ '&' :: post) entity = .ok r →
    ∃ front, r = front ++ '&' :: post
  | 0, x, post, entity, r, _, h => by
    unfold entityLoop at h
    split at h
    · exact Except.noConfusion h
    · exact ⟨x, (Except.ok.inj h).symm⟩
  | fuel + 1, x, post, entity, r, hpost, h => by
    unfold entityLoop at h
    split at h
    · simp only at h
      split at h
      · exact Except.noConfusion h
      · rename_i content1 hstep
        split at hstep
        · rename_i hend
          have hb := find_bounds (x ++ '&' :: post) [';'] entity _ rfl hend
          have hat := find_char_at (x ++ '&' :: post) ';' entity hend
          have hlt : find (x ++ '&' :: post) [';'] entity < x.length := by
            by_contra hge
            rw [List.getElem?_append_right (by omega)] at hat
            have hmem := List.getElem?_mem hat
            rcases List.mem_cons.mp hmem with hmem | hmem
            · exact absurd hmem (by decide)
            · exact hpost hmem
          unfold replace at hstep
          split at hstep
          · exact Except.noConfusion hstep
          · have hc1 := Except.ok.inj hstep
            rw [List.take_append_of_le_length (by omega), List.drop_drop,
              List.drop_append_of_le_length (by omega), ← List.append_assoc] at hc1
            rw [← hc1] at h
            exact entityLoop_keeps_suffix fuel _ post _ r hpost h
        · have hc1 := Except.ok.inj hstep
          rw [← hc1] at h
          exact entityLoop_keeps_suffix fuel x post _ r hpost h
    · exact ⟨x, (Except.ok.inj h).symm⟩

/-- C15: for every input string (a `std::string`, so shorter than `2^64`)
`cleanContent` returns a text in which no `&` has a `;` anywhere after it:
there are no positions `i < j` with `out[i] = '&'` and `out[j] = ';'`. An `&`
that the entity loop meets without any `;` after it is left as it is: the loop
returns a text that ends with that `&` and everything that followed it. -/
theorem C15_no_entity_span_left (content : Str) (hlen : content.length < SIZE_MOD) :
    (∃ out, cleanContent content = .ok out ∧
      ∀ i j : Nat, i < j → out[i]? = some '&' → out[j]? ≠ some ';') ∧
    (∀ x post r : Str, ';' ∉ post →
      entityLoop (x ++ '&' :: post).length (x ++ '&' :: post)
        (find (x ++ '&' :: post) ['&'] 0) = .ok r →
      ∃ front, r = front ++ '&' :: post) := by
  refine ⟨?_, fun x post r hpost h => entityLoop_keeps_suffix _ x post _ r hpost h⟩
  obtain ⟨out, hout⟩ := cleanContent_ok content
  refine ⟨out, hout, ?_⟩
  obtain ⟨c2, c3, c4, hc2, h3, h4, hu⟩ := cleanContent_stages content out hout
  have hlen3 : c3.length < SIZE_MOD := by
    have := tagLoop_length_le _ _ _ _ h3
    omega
  have hn4 : NoSpan '&' ';' c4 := by
    refine entityLoop_noSpan _ c3 _ c4 hlen3 ?_ h4
    intro i j _ hi hic _
    exact absurd hic (find_char_before c3 '&' 0 i (Nat.zero_le _) hi)
  have hp5 : out.Pairwise (fun x y => ¬ (x = '&' ∧ y = ';')) := by
    rw [hu]
    exact ((noSpan_iff_pairwise '&' ';' c4).mp hn4).sublist (unique_sublist _ c4)
  intro i j hij hi hj
  exact (noSpan_iff_pairwise '&' ';' out).mpr hp5 i j hij hi hj

/-- C15 on a text with two entities and an `&` that no `;` follows. -/
theorem C15_no_entity_span_left_witness :
    (∃ out, cleanContent "AT&amp;T &lt; R&D".toList = .ok out ∧
      ∀ i j : Nat, i < j → out[i]? = some '&' → out[j]? ≠ some ';') ∧
    (∀ x post r : Str, ';' ∉ post →
      entityLoop (x ++ '&' :: post).length (x ++ '&' :: post)
        (find (x ++ '&' :: post) ['&'] 0) = .ok r →
      ∃ front, r = front ++ '&' :: post) :=
  C15_no_entity_span_left "AT&amp;T &lt; R&D".toList (by decide)

/-! ## C16: runs of spaces -/

theorem uniqueFrom_chain (s : Str) : ∀ last : Char,
    List.Chain (fun a b => ¬ (a = ' ' ∧ b = ' ')) last
      (uniqueFrom (fun lhs rhs => lhs == rhs && lhs == ' ') last s) := by
  induction s with
  | nil =>
    intro last
    exact List.Chain.nil
  | cons c cs ih =>
    intro last
    unfold uniqueFrom
    by_cases hp : (last == c && last == ' ') = true
    · rw [if_pos hp]
      exact ih last
    · rw [if_neg hp]
      refine List.Chain.cons ?_ (ih c)
      intro h
      apply hp
      rw [h.1, h.2]
      rfl

theorem unique_chain' (s : Str) :
    List.Chain' (fun a b => ¬ (a = ' ' ∧ b = ' '))
      (unique (fun lhs rhs => lhs == rhs && lhs == ' ') s) := by
  cases s with
  | nil => exact List.chain'_nil
  | cons c cs =>
    unfold unique
    exact uniqueFrom_chain cs c

theorem uniqueFrom_filter (s : Str) : ∀ last : Char,
    (uniqueFrom (fun lhs rhs => lhs == rhs && lhs == ' ') last s).filter (fun c => c != ' ')
      = s.filter (fun c => c != ' ') := by
  induction s with
  | nil =>
    intro last
    rfl
  | cons c cs ih =>
    intro last
    unfold uniqueFrom
    by_cases hp : (last == c && last == ' ') = true
    · rw [if_pos hp, ih last]
      have hc : c = ' ' := by
        simp only [Bool.and_eq_true, beq_iff_eq] at hp
        rw [← hp.1, hp.2]
      rw [hc]
      rfl
    · rw [if_neg hp, List.filter_cons, List.filter_cons, ih c]

theorem unique_filter (s : Str) :
    (unique (fun lhs rhs => lhs == rhs && lhs == ' ') s).filter (fun c => c != ' ')
      = s.filter (fun c => c != ' ') := by
  cases s with
  | nil => rfl
  | cons c cs =>
    unfold unique
    rw [List.filter_cons, List.filter_cons, uniqueFrom_filter cs c]

/-- C16: for every input string `cleanContent` returns a text without two
adjacent spaces. Its last step, `std::unique` with the predicate of line 58,
removes characters from the text it is given without reordering it, and
removes spaces only: every other character, tabs, newlines, carriage returns,
form feeds and vertical tabs included, stays, also in runs. The text
`a`, two tabs, two newlines, two spaces, `b` comes out with one space and both
tabs and both newlines. -/
theorem C16_no_two_adjacent_spaces :
    (∀ content : Str, ∃ out, cleanContent content = .ok out ∧
      ∀ i : Nat, out[i]? = some ' ' → out[i + 1]? ≠ some ' ') ∧
    (∀ c : Str,
      (unique (fun lhs rhs => lhs == rhs && lhs == ' ') c).Sublist c ∧
      (unique (fun lhs rhs => lhs == rhs && lhs == ' ') c).filter (fun x => x != ' ')
        = c.filter (fun x => x != ' ')) ∧
    cleanContent "a\t\t\n\n  b".toList = .ok "a\t\t\n\n b".toList := by
  refine ⟨?_, fun c => ⟨unique_sublist _ c, unique_filter c⟩, by rfl⟩
  intro content
  obtain ⟨out, hout⟩ := cleanContent_ok content
  refine ⟨out, hout, ?_⟩
  obtain ⟨c2, c3, c4, _, _, _, hu⟩ := cleanContent_stages content out hout
  have hchain := unique_chain' c4
  rw [← hu, List.chain'_iff_get] at hchain
  intro i hi hi1
  obtain ⟨h1, h2⟩ := List.getElem?_eq_some.mp hi
  obtain ⟨h3, h4⟩ := List.getElem?_eq_some.mp hi1
  exact hchain i (by omega) ⟨by simpa using h2, by simpa using h4⟩

/-! ## C17: a text without markup is trimmed and its runs of spaces collapsed -/

theorem contains_whitespace (c : Char) : WHITESPACE.contains c = isWhitespace c := by
  unfold WHITESPACE isWhitespace
  simp only [List.contains, List.elem]
  cases (c == ' ') <;> cases (c == '\t') <;> cases (c == '\n') <;> cases (c == '\r') <;>
    cases (c == Char.ofNat 12) <;> cases (c == Char.ofNat 11) <;> rfl

theorem firstNotOfFrom_ge (set : Str) : ∀ (s : Str) (i : Nat), i + s.length ≤ npos →
    i ≤ firstNotOfFrom set s i
  | [], i, h => by
    unfold firstNotOfFrom
    simpa using h
  | c :: cs, i, h => by
    unfold firstNotOfFrom
    simp only [List.length_cons] at h
    split
    · have := firstNotOfFrom_ge set cs (i + 1) (by omega)
      omega
    · exact le_refl _

theorem firstNotOfFrom_drop (set : Str) : ∀ (s : Str) (i : Nat), i + s.length ≤ npos →
    s.drop (firstNotOfFrom set s i - i) = s.dropWhile (fun c => set.contains c)
  | [], i, _ => by simp
  | c :: cs, i, h => by
    unfold firstNotOfFrom
    simp only [List.length_cons] at h
    by_cases hc : set.contains c = true
    · rw [if_pos hc, List.dropWhile_cons_of_pos hc]
      have hge := firstNotOfFrom_ge set cs (i + 1) (by omega)
      have e : firstNotOfFrom set cs (i + 1) - i = (firstNotOfFrom set cs (i + 1) - (i + 1)) + 1 := by
        omega
      rw [e, List.drop_succ_cons]
      exact firstNotOfFrom_drop set cs (i + 1) (by omega)
    · rw [if_neg hc, List.dropWhile_cons_of_neg hc, Nat.sub_self, List.drop_zero]

theorem rdropWhile_cons (p : Char → Bool) (c : Char) (cs : Str) :
    (c :: cs).rdropWhile p
      = if cs.rdropWhile p = [] then (if p c then [] else [c]) else c :: cs.rdropWhile p := by
  unfold List.rdropWhile
  rw [List.reverse_cons, List.dropWhile_append]
  by_cases h : (List.dropWhile p cs.reverse).isEmpty = true
  · have h2 : List.dropWhile p cs.reverse = [] := List.isEmpty_iff.mp h
    rw [if_pos h, h2]
    simp only [List.reverse_nil, if_true]
    by_cases hp : p c = true
    · rw [if_pos hp, List.dropWhile_cons_of_pos hp]
      rfl
    · rw [if_neg hp, List.dropWhile_cons_of_neg hp]
      rfl
  · have h2 : List.dropWhile p cs.reverse ≠ [] := fun e => h (List.isEmpty_iff.mpr e)
    rw [if_neg h, if_neg (by simpa using h2)]
    simp

theorem lastNotOfFrom_take (set : Str) : ∀ (s : Str) (i : Nat), i + s.length ≤ npos →
    (lastNotOfFrom set s i = npos ∧ s.rdropWhile (fun c => set.contains c) = []) ∨
    (i ≤ lastNotOfFrom set s i ∧ lastNotOfFrom set s i < i + s.length ∧
      s.take (lastNotOfFrom set s i - i + 1) = s.rdropWhile (fun c => set.contains c))
  | [], i, _ => Or.inl ⟨rfl, List.rdropWhile_nil _⟩
  | c :: cs, i, h => by
    simp only [List.length_cons] at h
    unfold lastNotOfFrom
    simp only
    rw [rdropWhile_cons]
    rcases lastNotOfFrom_take set cs (i + 1) (by omega) with ⟨hk, hr⟩ | ⟨hge, hlt, hr⟩
    · rw [if_neg (by simp [hk]), if_pos hr]
      by_cases hc : set.contains c = true
      · left
        rw [if_pos hc, if_pos hc]
        exact ⟨rfl, rfl⟩
      · right
        rw [if_neg hc, if_neg hc]
        refine ⟨le_refl _, by simp, ?_⟩
        simp
    · have hne : lastNotOfFrom set cs (i + 1) ≠ npos := by omega
      rw [if_pos hne]
      right
      have hcs : cs.rdropWhile (fun c => set.contains c) ≠ [] := by
        rw [← hr]
        intro hnil
        have hl := congrArg List.length hnil
        simp only [List.length_take, List.length_nil] at hl
        omega
      rw [if_neg hcs]
      refine ⟨by omega, by simp only [List.length_cons]; omega, ?_⟩
      have e : lastNotOfFrom set cs (i + 1) - i + 1
          = (lastNotOfFrom set cs (i + 1) - (i + 1) + 1) + 1 := by omega
      rw [e, List.take_succ_cons, hr]

theorem tagLoop_npos (fuel : Nat) (content : Str) : tagLoop fuel content npos = .ok content := by
  cases fuel <;> simp [tagLoop]

theorem entityLoop_npos (fuel : Nat) (content : Str) :
    entityLoop fuel content npos = .ok content := by
  cases fuel <;> simp [entityLoop]

theorem unique_eq_collapseSpaces : ∀ (cs : Str) (c : Char),
    c :: uniqueFrom (fun lhs rhs => lhs == rhs && lhs == ' ') c cs = collapseSpaces (c :: cs)
  | [], c => by simp [uniqueFrom, collapseSpaces]
  | b :: rest, c => by
    unfold uniqueFrom
    unfold collapseSpaces
    by_cases hp : (c == b && c == ' ') = true
    · have hcb : c = ' ' ∧ b = ' ' := by
        simp only [Bool.and_eq_true, beq_iff_eq] at hp
        exact ⟨hp.2, by rw [← hp.1, hp.2]⟩
      rw [if_pos hp, if_pos hcb, unique_eq_collapseSpaces rest c, hcb.1, hcb.2]
    · have hcb : ¬ (c = ' ' ∧ b = ' ') := by
        intro h
        apply hp
        rw [h.1, h.2]
        rfl
      rw [if_neg hp, if_neg hcb, unique_eq_collapseSpaces rest b]

/-- The trim of lines 34-35 on a text shorter than `2^64`. -/
theorem trim_eq (content : Str) (hlen : content.length < SIZE_MOD) :
    ∃ c1, erase content 0 (find_first_not_of content WHITESPACE) = .ok c1 ∧
      erase c1 ((find_last_not_of c1 WHITESPACE + 1) % SIZE_MOD) npos
        = .ok (trimWhitespace content) := by
  have hmod : SIZE_MOD = 2 ^ 64 := rfl
  have hnpos : npos = 2 ^ 64 - 1 := rfl
  have hws : (fun c => WHITESPACE.contains c) = isWhitespace := by
    funext c
    exact contains_whitespace c
  refine ⟨content.dropWhile isWhitespace, ?_, ?_⟩
  · rw [erase_ok content 0 _ (Nat.zero_le _)]
    have := firstNotOfFrom_drop WHITESPACE content 0 (by omega)
    rw [Nat.sub_zero, hws] at this
    unfold find_first_not_of
    rw [List.take_zero, List.nil_append, List.drop_zero, this]
  · have hle : (content.dropWhile isWhitespace).length ≤ content.length :=
      (List.dropWhile_sublist _).length_le
    unfold trimWhitespace find_last_not_of
    generalize content.dropWhile isWhitespace = c1 at hle ⊢
    have hdrop : ∀ pos, List.drop npos (List.drop pos c1) = [] := by
      intro pos
      apply List.drop_eq_nil_of_le
      rw [List.length_drop]
      omega
    rcases lastNotOfFrom_take WHITESPACE c1 0 (by omega) with ⟨hk, hr⟩ | ⟨_, hlt, hr⟩
    · rw [hk]
      have e : (npos + 1) % SIZE_MOD = 0 := by decide
      rw [e, erase_ok c1 0 _ (Nat.zero_le _), hdrop, List.take_zero, List.append_nil]
      rw [hws] at hr
      rw [hr]
    · rw [Nat.zero_add] at hlt
      have e : (lastNotOfFrom WHITESPACE c1 0 + 1) % SIZE_MOD
          = lastNotOfFrom WHITESPACE c1 0 + 1 := by
        rw [hmod]
        exact Nat.mod_eq_of_lt (by omega)
      rw [e, erase_ok c1 _ _ (by omega), hdrop, List.append_nil]
      rw [hws, Nat.sub_zero] at hr
      rw [hr]

/-- C17: for every string without `<` and without `&` (a `std::string`, so
shorter than `2^64`) `cleanContent` returns the string without its leading and
trailing whitespace characters and with every run of spaces made one space.
For a string made of whitespace characters only, and for the empty string, it
returns the empty string; nothing is thrown. -/
theorem C17_trim_and_collapse :
    (∀ s : Str, '<' ∉ s → '&' ∉ s → s.length < SIZE_MOD →
      cleanContent s = .ok (collapseSpaces (trimWhitespace s))) ∧
    (∀ s : Str, (∀ c ∈ s, isWhitespace c = true) → s.length < SIZE_MOD →
      cleanContent s = .ok []) ∧
    cleanContent [] = .ok [] := by
  have main : ∀ s : Str, '<' ∉ s → '&' ∉ s → s.length < SIZE_MOD →
      cleanContent s = .ok (collapseSpaces (trimWhitespace s)) := by
    intro s hlt hamp hlen
    obtain ⟨c1, h1, h2⟩ := trim_eq s hlen
    have hsub : (trimWhitespace s).Sublist s :=
      (List.rdropWhile_prefix isWhitespace _).sublist.trans (List.dropWhile_sublist _)
    have hlt2 : '<' ∉ trimWhitespace s := fun h => hlt (hsub.subset h)
    have hamp2 : '&' ∉ trimWhitespace s := fun h => hamp (hsub.subset h)
    unfold cleanContent
    rw [h1]
    simp only
    rw [h2]
    simp only
    rw [find_char_none _ '<' 0 hlt2, tagLoop_npos]
    simp only
    rw [find_char_none _ '&' 0 hamp2, entityLoop_npos]
    simp only
    cases htrim : trimWhitespace s with
    | nil => rfl
    | cons c cs =>
      simp only [unique]
      rw [unique_eq_collapseSpaces cs c]
  refine ⟨main, ?_, by rfl⟩
  intro s hws hlen
  have hlt : '<' ∉ s := fun h => absurd (hws _ h) (by decide)
  have hamp : '&' ∉ s := fun h => absurd (hws _ h) (by decide)
  rw [main s hlt hamp hlen]
  have hnil : trimWhitespace s = [] := by
    unfold trimWhitespace
    rw [List.dropWhile_eq_nil_iff.mpr hws]
    rfl
  rw [hnil]
  rfl

/-- C17 on a text with whitespace of every kind around it and runs of spaces
inside, and on a text of whitespace only. -/
theorem C17_trim_and_collapse_witness :
    cleanContent " \t\n two   words  \t and\ttabs \r\n".toList
      = .ok (collapseSpaces (trimWhitespace " \t\n two   words  \t and\ttabs \r\n".toList)) ∧
    collapseSpaces (trimWhitespace " \t\n two   words  \t and\ttabs \r\n".toList)
      = "two words \t and\ttabs".toList ∧
    cleanContent " \t\n\r ".toList = .ok [] :=
  ⟨C17_trim_and_collapse.1 _ (by decide) (by decide) (by decide), by rfl,
    C17_trim_and_collapse.2.1 _ (by decide) (by decide)⟩

/-! ## C18: the extraction of a fragment never starts out of range -/

theorem findFrom_le (pat : Str) : ∀ (s : Str) (i j : Nat),
    pat.isPrefixOf (s.drop j) = true → findFrom pat s i ≤ i + j
  | [], i, j, h => by
    unfold findFrom
    rw [List.drop_nil] at h
    rw [if_pos h]
    omega
  | c :: cs, i, j, h => by
    unfold findFrom
    by_cases hp : pat.isPrefixOf (c :: cs) = true
    · rw [if_pos hp]
      omega
    · rw [if_neg hp]
      cases j with
      | zero =>
        rw [List.drop_zero] at h
        exact absurd h hp
      | succ j =>
        rw [List.drop_succ_cons] at h
        have := findFrom_le pat cs (i + 1) j h
        omega

/-- The call `find` returns an index not after any occurrence at or after
`pos`. -/
theorem find_le_of_occursAt (s pat : Str) (pos k : Nat) (h : occursAt s pat k = true)
    (hpos : pos ≤ k) (hk : k ≤ s.length) : find s pat pos ≤ k := by
  unfold find
  rw [if_neg (by omega)]
  unfold occursAt at h
  have := findFrom_le pat (s.drop pos) pos (k - pos) (by
    rw [List.drop_drop]
    have e : pos + (k - pos) = k := by omega
    rw [e]
    exact h)
  omega

/-- The `>` of a close pattern found at `close` is found by the search for `>`
from any index up to `close`: that search returns an index inside the
content. -/
theorem find_gt_le_close (content closePat : Str) (start close k : Nat)
    (hk : closePat[k]? = some '>') (hocc : occursAt content closePat close = true)
    (hstart : start ≤ close) (hfit : close + closePat.length ≤ content.length) :
    find content ['>'] start ≤ close + k ∧ find content ['>'] start < content.length := by
  obtain ⟨hklt, _⟩ := List.getElem?_eq_some.mp hk
  have hat : content[close + k]? = some '>' := by
    rw [occursAt_getElem? content closePat close hocc k hklt, hk]
  have hle := find_le_of_occursAt content ['>'] start (close + k)
    ((occursAt_singleton content '>' _).mpr hat) (by omega) (by omega)
  exact ⟨hle, by omega⟩

/-- The start and the extraction of a fragment, for an open pattern found at
`start` and a close pattern found from there. -/
theorem fragment_in_range (content closePat : Str) (start k : Nat)
    (hk : closePat[k]? = some '>') (hclose : find content closePat start ≠ npos) :
    find content ['>'] start ≤ find content closePat start + k ∧
    find content ['>'] start < content.length ∧
    (content.length < SIZE_MOD → find content ['>'] start ≠ npos) ∧
    (find content ['>'] start + 1) % SIZE_MOD ≤ content.length ∧
    ∃ raw, substr content ((find content ['>'] start + 1) % SIZE_MOD)
      ((find content closePat start + SIZE_MOD
        - (find content ['>'] start + 1) % SIZE_MOD) % SIZE_MOD) = .ok raw := by
  have hb := find_bounds content closePat start _ rfl hclose
  have hocc := find_occurs content closePat start _ rfl hclose
  obtain ⟨h1, h2⟩ := find_gt_le_close content closePat start _ k hk hocc hb.1 hb.2
  have hmod : SIZE_MOD = 2 ^ 64 := rfl
  have hnpos : npos = 2 ^ 64 - 1 := rfl
  refine ⟨h1, h2, fun hlen => by omega, content_start_le content start, _,
    substr_ok content _ _ (content_start_le content start)⟩

/-- C18: whenever a branch of the scan extracts a fragment (its open pattern
was found at `start` and its close pattern from there), the search for `>` from
`start` returns an index inside the content, not after the `>` of the close
pattern, so it is found (the content of a `std::string` is shorter than
`2^64`); the start of the extraction is at most the length of the content and
`substr` returns. No run of `extractTitleAndDescription` ends with
`out_of_range`: it always returns. In `<h1 </h1>abc` the start 9 lies after
the close tag at 4, the length wraps around to `2^64 - 5`, and `substr`
returns `abc`. -/
theorem C18_fragment_start_in_range :
    (∀ (content : Str) (start : Nat),
      find content "</h1>".toList start ≠ npos →
      find content ['>'] start ≤ find content "</h1>".toList start + 4 ∧
      find content ['>'] start < content.length ∧
      (content.length < SIZE_MOD → find content ['>'] start ≠ npos) ∧
      (find content ['>'] start + 1) % SIZE_MOD ≤ content.length ∧
      ∃ raw, substr content ((find content ['>'] start + 1) % SIZE_MOD)
        ((find content "</h1>".toList start + SIZE_MOD
          - (find content ['>'] start + 1) % SIZE_MOD) % SIZE_MOD) = .ok raw) ∧
    (∀ (content : Str) (start : Nat),
      find content "</p>".toList start ≠ npos →
      find content ['>'] start ≤ find content "</p>".toList start + 3 ∧
      find content ['>'] start < content.length ∧
      (content.length < SIZE_MOD → find content ['>'] start ≠ npos) ∧
      (find content ['>'] start + 1) % SIZE_MOD ≤ content.length ∧
      ∃ raw, substr content ((find content ['>'] start + 1) % SIZE_MOD)
        ((find content "</p>".toList start + SIZE_MOD
          - (find content ['>'] start + 1) % SIZE_MOD) % SIZE_MOD) = .ok raw) ∧
    (∀ (content : Str) (st : ScanState), ∃ r, scanStep content st = .ok r) ∧
    (∀ (file : Option Str) (filepath : Str), ∃ title description,
      extractTitleAndDescription file filepath = .ok (title, description)) ∧
    ((find "<h1 </h1>abc".toList ['>'] 0 + 1) % SIZE_MOD = 9 ∧
      find "<h1 </h1>abc".toList "</h1>".toList 0 = 4 ∧
      (4 + SIZE_MOD - 9) % SIZE_MOD = 2 ^ 64 - 5 ∧
      substr "<h1 </h1>abc".toList 9 (2 ^ 64 - 5) = .ok "abc".toList) := by
  refine ⟨?_, ?_, ?_, ?_, by rfl, by rfl, by decide, by rfl⟩
  · intro content start h
    exact fragment_in_range content "</h1>".toList start 4 (by rfl) h
  · intro content start h
    exact fragment_in_range content "</p>".toList start 3 (by rfl) h
  · intro content st
    obtain ⟨r, hr, _⟩ := scanStep_spec content st
    exact ⟨r, hr⟩
  · intro file filepath
    obtain ⟨title, description, h, _⟩ := extract_spec file filepath
    exact ⟨title, description, h⟩

/-! ## C19: the loops end -/

/-- Where a pass through the loop body leaves `pos` when it goes back to the
loop test. -/
theorem scanStep_next_pos (content : Str) (st st1 : ScanState)
    (h : scanStep content st = .ok (.next st1)) :
    st1.pos = st.pos + 1 ∨
      (find content "</h1>".toList (find content "<h1".toList st.pos) ≠ npos ∧
        st.pos ≤ find content "</h1>".toList (find content "<h1".toList st.pos) ∧
        st1.pos = find content "</h1>".toList (find content "<h1".toList st.pos) + 5) := by
  unfold scanStep at h
  split at h
  · simp only at h
    split at h
    · rename_i hp
      split at h
      · rename_i hq
        split at h
        · exact Except.noConfusion h
        · split at h
          · exact Except.noConfusion h
          · right
            have h1 := find_bounds content "<h1".toList st.pos _ rfl hp
            have h2 := find_bounds content "</h1>".toList _ _ rfl hq
            have e := Step.next.inj (Except.ok.inj h)
            rw [← e]
            exact ⟨hq, by omega, rfl⟩
      · left
        rw [← Step.next.inj (Except.ok.inj h)]
    · left
      rw [← Step.next.inj (Except.ok.inj h)]
  · simp only at h
    split at h
    · split at h
      · split at h
        · exact Except.noConfusion h
        · split at h
          · exact Except.noConfusion h
          · exact Step.noConfusion (Except.ok.inj h)
      · left
        rw [← Step.next.inj (Except.ok.inj h)]
    · left
      rw [← Step.next.inj (Except.ok.inj h)]

/-- C19: every loop of the extraction ends. A pass through the body of the scan
loop that goes back to the loop test has moved `pos` forward, by 1 or to the
position of the close tag plus 5, so the loop returns within `content.length`
passes and `extractTitleAndDescription` returns on every file. An iteration of
the tag loop that erases a span leaves a strictly shorter text, and the loop
returns within `content.length` iterations. The search position of the entity
loop strictly increases, and the loop returns within `content.length`
iterations. So `cleanContent` returns on every input. -/
theorem C19_loops_terminate :
    (∀ (content : Str) (st st1 : ScanState), scanStep content st = .ok (.next st1) →
      st.pos < st1.pos ∧
      (st1.pos = st.pos + 1 ∨
        st1.pos = find content "</h1>".toList (find content "<h1".toList st.pos) + 5)) ∧
    (∀ content : Str, ∃ st, scanLoop content content.length
      { pos := 0, found_h1 := false, title := [], description := [] } = .ok st) ∧
    (∀ (file : Option Str) (filepath : Str), ∃ result,
      extractTitleAndDescription file filepath = .ok result) ∧
    (∀ (content : Str) (tag_start : Nat), tag_start ≠ npos →
      find content ['>'] tag_start ≠ npos →
      ∃ content1, erase content tag_start (find content ['>'] tag_start - tag_start + 1)
          = .ok content1 ∧ content1.length < content.length) ∧
    (∀ content : Str, ∃ r, tagLoop content.length content (find content ['<'] 0) = .ok r) ∧
    (∀ (content1 : Str) (entity : Nat), find content1 ['&'] (entity + 1) ≠ npos →
      entity < find content1 ['&'] (entity + 1)) ∧
    (∀ content : Str, ∃ r, entityLoop content.length content (find content ['&'] 0) = .ok r) ∧
    (∀ content : Str, ∃ r, cleanContent content = .ok r) := by
  refine ⟨?_, ?_, ?_, ?_, ?_, ?_, ?_, cleanContent_ok⟩
  · intro content st st1 h
    rcases scanStep_next_pos content st st1 h with h1 | ⟨_, h2, h3⟩
    · exact ⟨by omega, Or.inl h1⟩
    · exact ⟨by omega, Or.inr h3⟩
  · intro content
    obtain ⟨st, hst, _⟩ := scanLoop_description content
    exact ⟨st, hst⟩
  · intro file filepath
    obtain ⟨title, description, h, _⟩ := extract_spec file filepath
    exact ⟨(title, description), h⟩
  · intro content tag_start _ hte
    have hb := find_bounds content ['>'] tag_start _ rfl hte
    simp only [List.length_singleton] at hb
    refine ⟨_, erase_ok content tag_start _ (by omega), ?_⟩
    simp only [List.length_append, List.length_take, List.length_drop]
    omega
  · intro content
    apply tagLoop_ok content.length content _ (le_refl _)
    intro h
    have := find_bounds content ['<'] 0 _ rfl h
    simp only [List.length_singleton] at this
    omega
  · intro content1 entity h
    have := find_bounds content1 ['&'] (entity + 1) _ rfl h
    omega
  · intro content
    apply entityLoop_ok content.length content _
    intro h
    have := find_bounds content ['&'] 0 _ rfl h
    simp only [List.length_singleton] at this
    omega

/-! ## C20: the retry loop and the single pass -/

/-- A search for an open pattern and its close pattern that fails from `p0`
fails from every later position. -/
theorem retry_fails (s openPat closePat : Str) (hopen : openPat ≠ []) (hclose : closePat ≠ [])
    (p0 : Nat) (hlen : s.length < SIZE_MOD)
    (h : find s openPat p0 = npos ∨ find s closePat (find s openPat p0) = npos) :
    ∀ pos, p0 ≤ pos →
      find s openPat pos = npos ∨ find s closePat (find s openPat pos) = npos := by
  intro pos hpos
  by_contra hcon
  have hk : find s openPat pos ≠ npos := fun e => hcon (Or.inl e)
  have he : find s closePat (find s openPat pos) ≠ npos := fun e => hcon (Or.inr e)
  have hkb := find_bounds s openPat pos _ rfl hk
  have hko := find_occurs s openPat pos _ rfl hk
  have heb := find_bounds s closePat _ _ rfl he
  have heo := find_occurs s closePat _ _ rfl he
  have hmod : SIZE_MOD = 2 ^ 64 := rfl
  have hnpos : npos = 2 ^ 64 - 1 := rfl
  have hlo : 0 < openPat.length := List.length_pos.mpr hopen
  have hlc : 0 < closePat.length := List.length_pos.mpr hclose
  have hfirst : find s openPat p0 ≤ find s openPat pos := by
    by_contra hlt
    have := find_min s openPat p0 hopen (find s openPat pos) (by omega) (by omega)
    rw [hko] at this
    exact absurd this (by simp)
  rcases h with h | h
  · omega
  · have := find_min s closePat (find s openPat p0) hclose
      (find s closePat (find s openPat pos)) (by omega) (by omega)
    rw [heo] at this
    exact absurd this (by simp)

theorem scanStep_heading_fail (content : Str) (pos : Nat) (t d : Str)
    (h : find content "<h1".toList pos = npos ∨
      find content "</h1>".toList (find content "<h1".toList pos) = npos) :
    scanStep content { pos := pos, found_h1 := false, title := t, description := d }
      = .ok (.next { pos := pos + 1, found_h1 := false, title := t, description := d }) := by
  unfold scanStep
  simp only [Bool.not_false, if_true]
  by_cases hp : find content "<h1".toList pos ≠ npos
  · rw [if_pos hp]
    rcases h with h | h
    · exact absurd h hp
    · rw [if_neg (fun hne => hne h)]
  · rw [if_neg hp]

theorem scanStep_paragraph_fail (content : Str) (pos : Nat) (t d : Str)
    (h : find content "<p".toList pos = npos ∨
      find content "</p>".toList (find content "<p".toList pos) = npos) :
    scanStep content { pos := pos, found_h1 := true, title := t, description := d }
      = .ok (.next { pos := pos + 1, found_h1 := true, title := t, description := d }) := by
  unfold scanStep
  simp only [Bool.not_true, Bool.false_eq_true, if_false]
  by_cases hp : find content "<p".toList pos ≠ npos
  · rw [if_pos hp]
    rcases h with h | h
    · exact absurd h hp
    · rw [if_neg (fun hne => hne h)]
  · rw [if_neg hp]

theorem scanStep_heading_found (content : Str) (pos : Nat) (t0 d raw t : Str)
    (hp : find content "<h1".toList pos ≠ npos)
    (hq : find content "</h1>".toList (find content "<h1".toList pos) ≠ npos)
    (hraw : fragmentAt content (find content "<h1".toList pos)
      (find content "</h1>".toList (find content "<h1".toList pos)) = .ok raw)
    (ht : cleanContent raw = .ok t) :
    scanStep content { pos := pos, found_h1 := false, title := t0, description := d }
      = .ok (.next { pos := find content "</h1>".toList (find content "<h1".toList pos) + 5,
                     found_h1 := true, title := t, description := d }) := by
  unfold fragmentAt at hraw
  unfold scanStep
  simp only [Bool.not_false, if_true]
  rw [if_pos hp, if_pos hq, hraw]
  simp only
  rw [ht]

theorem scanStep_paragraph_found (content : Str) (pos : Nat) (t d0 raw d : Str)
    (hp : find content "<p".toList pos ≠ npos)
    (hq : find content "</p>".toList (find content "<p".toList pos) ≠ npos)
    (hraw : fragmentAt content (find content "<p".toList pos)
      (find content "</p>".toList (find content "<p".toList pos)) = .ok raw)
    (hd : cleanContent raw = .ok d) :
    scanStep content { pos := pos, found_h1 := true, title := t, description := d0 }
      = .ok (.brk { pos := pos, found_h1 := true, title := t, description := capped d }) := by
  unfold fragmentAt at hraw
  unfold scanStep
  simp only [Bool.not_true, Bool.false_eq_true, if_false]
  rw [if_pos hp, if_pos hq, hraw]
  simp only
  rw [hd]
  rfl

/-- A phase of the scan in which every pass only moves `pos` by one ends with
the flag, the title and the description it started with. -/
theorem scanLoop_stuck (content : Str) (f : Bool) (t d : Str) (p0 : Nat)
    (hstuck : ∀ pos, p0 ≤ pos →
      scanStep content { pos := pos, found_h1 := f, title := t, description := d }
        = .ok (.next { pos := pos + 1, found_h1 := f, title := t, description := d })) :
    ∀ (fuel pos : Nat), p0 ≤ pos → content.length ≤ fuel + pos →
      ∃ pos1, scanLoop content fuel { pos := pos, found_h1 := f, title := t, description := d }
        = .ok { pos := pos1, found_h1 := f, title := t, description := d }
  | 0, pos, _, hfuel => by
    unfold scanLoop
    rw [if_neg (by simp only; omega)]
    exact ⟨pos, rfl⟩
  | fuel + 1, pos, hpos, hfuel => by
    unfold scanLoop
    by_cases hlt : pos < content.length
    · rw [if_pos (by simpa using hlt), hstuck pos hpos]
      simp only
      exact scanLoop_stuck content f t d p0 hstuck fuel (pos + 1) (by omega) (by omega)
    · rw [if_neg (by simpa using hlt)]
      exact ⟨pos, rfl⟩

/-- C20: for every file content (a `std::string`, so shorter than `2^64`) the
retry loop returns what the single pass returns: title and description come
from the first `<h1` from position 0, the first `</h1>` from there, the first
`<p` from 5 after that and the first `</p>` from there. A retry from a later
position never finds a heading, or a paragraph, that the first attempt
missed. -/
theorem C20_loop_equals_single_pass (content filepath : Str)
    (hlen : content.length < SIZE_MOD) :
    extractTitleAndDescription (some content) filepath = singlePass content filepath ∧
    ((find content "<h1".toList 0 = npos ∨
        find content "</h1>".toList (find content "<h1".toList 0) = npos) →
      ∀ pos, find content "<h1".toList pos = npos ∨
        find content "</h1>".toList (find content "<h1".toList pos) = npos) ∧
    (∀ p0, (find content "<p".toList p0 = npos ∨
        find content "</p>".toList (find content "<p".toList p0) = npos) →
      ∀ pos, p0 ≤ pos → find content "<p".toList pos = npos ∨
        find content "</p>".toList (find content "<p".toList pos) = npos) := by
  have hretry1 := retry_fails content "<h1".toList "</h1>".toList (by decide) (by decide) 0 hlen
  have hretry2 := fun p0 =>
    retry_fails content "<p".toList "</p>".toList (by decide) (by decide) p0 hlen
  refine ⟨?_, fun h pos => hretry1 h pos (Nat.zero_le _), hretry2⟩
  unfold extractTitleAndDescription singlePass
  simp only
  by_cases hfail : find content "<h1".toList 0 = npos ∨
      find content "</h1>".toList (find content "<h1".toList 0) = npos
  · rw [if_pos hfail]
    obtain ⟨pos1, hloop⟩ := scanLoop_stuck content false [] [] 0
      (fun pos hpos => scanStep_heading_fail content pos [] [] (hretry1 hfail pos hpos))
      content.length 0 (le_refl _) (by omega)
    rw [hloop]
    rfl
  · rw [if_neg hfail]
    have hp : find content "<h1".toList 0 ≠ npos := fun e => hfail (Or.inl e)
    have hq : find content "</h1>".toList (find content "<h1".toList 0) ≠ npos :=
      fun e => hfail (Or.inr e)
    have hpb := find_bounds content "<h1".toList 0 _ rfl hp
    have hqb := find_bounds content "</h1>".toList _ _ rfl hq
    have h3 : ("<h1".toList).length = 3 := rfl
    have h5 : ("</h1>".toList).length = 5 := rfl
    rw [h3] at hpb
    rw [h5] at hqb
    obtain ⟨raw, hraw⟩ : ∃ raw, fragmentAt content (find content "<h1".toList 0)
        (find content "</h1>".toList (find content "<h1".toList 0)) = .ok raw :=
      ⟨_, substr_ok content _ _ (content_start_le content _)⟩
    obtain ⟨t, ht⟩ := cleanContent_ok raw
    rw [hraw]
    simp only
    rw [ht]
    simp only
    have hstep1 := scanStep_heading_found content 0 [] [] raw t hp hq hraw ht
    obtain ⟨n, hn⟩ : ∃ n, content.length = n + 1 := ⟨content.length - 1, by omega⟩
    have hloop1 : scanLoop content content.length
        { pos := 0, found_h1 := false, title := [], description := [] }
        = scanLoop content n
          { pos := find content "</h1>".toList (find content "<h1".toList 0) + 5,
            found_h1 := true, title := t, description := [] } := by
      rw [hn]
      conv => lhs; unfold scanLoop
      rw [if_pos (by simp only; omega), hstep1]
    rw [hloop1]
    by_cases hfail2 : find content "<p".toList
          (find content "</h1>".toList (find content "<h1".toList 0) + 5) = npos ∨
        find content "</p>".toList (find content "<p".toList
          (find content "</h1>".toList (find content "<h1".toList 0) + 5)) = npos
    · rw [if_pos hfail2]
      obtain ⟨pos1, hloop⟩ := scanLoop_stuck content true t []
        (find content "</h1>".toList (find content "<h1".toList 0) + 5)
        (fun pos hpos => scanStep_paragraph_fail content pos t [] (hretry2 _ hfail2 pos hpos))
        n _ (le_refl _) (by omega)
      rw [hloop]
      rfl
    · rw [if_neg hfail2]
      have hp2 : find content "<p".toList
          (find content "</h1>".toList (find content "<h1".toList 0) + 5) ≠ npos :=
        fun e => hfail2 (Or.inl e)
      have hq2 : find content "</p>".toList (find content "<p".toList
          (find content "</h1>".toList (find content "<h1".toList 0) + 5)) ≠ npos :=
        fun e => hfail2 (Or.inr e)
      have hpb2 := find_bounds content "<p".toList _ _ rfl hp2
      have h2 : ("<p".toList).length = 2 := rfl
      rw [h2] at hpb2
      obtain ⟨raw2, hraw2⟩ : ∃ raw2, fragmentAt content
          (find content "<p".toList
            (find content "</h1>".toList (find content "<h1".toList 0) + 5))
          (find content "</p>".toList (find content "<p".toList
            (find content "</h1>".toList (find content "<h1".toList 0) + 5))) = .ok raw2 :=
        ⟨_, substr_ok content _ _ (content_start_le content _)⟩
      obtain ⟨d, hd⟩ := cleanContent_ok raw2
      rw [hraw2]
      simp only
      rw [hd]
      simp only
      have hstep2 := scanStep_paragraph_found content _ t [] raw2 d hp2 hq2 hraw2 hd
      obtain ⟨m, hm⟩ : ∃ m, n = m + 1 := ⟨n - 1, by omega⟩
      rw [hm]
      conv => lhs; unfold scanLoop
      rw [if_pos (by simp only; omega), hstep2]

/-- C20 on a page whose first heading is never closed before a later one and
whose first paragraph after it is closed by a later `</p>`. -/
theorem C20_loop_equals_single_pass_witness :
    extractTitleAndDescription (some "<p>x</p><h1>A<h1>B</h1><p>c<p>d</p>".toList)
        "docs/page.html".toList
      = singlePass "<p>x</p><h1>A<h1>B</h1><p>c<p>d</p>".toList "docs/page.html".toList ∧
    singlePass "<p>x</p><h1>A<h1>B</h1><p>c<p>d</p>".toList "docs/page.html".toList
      = .ok ("AB".toList, "cd".toList) :=
  ⟨(C20_loop_equals_single_pass "<p>x</p><h1>A<h1>B</h1><p>c<p>d</p>".toList
      "docs/page.html".toList (by decide)).1, by rfl⟩

end Mkindex
